import Mathlib

/-!
Verification of the JSON-to-C# post-processing pipeline of `src/converter.ts`
(`convertJsonToCSharp` and its helper stages), shallowly embedded over `List Char`.

The converter receives the text rendered by the external quicktype engine and applies a
chain of regex-based text rewrites.  Each stage below is translated from the source:
the JavaScript regexes involved are deterministic (their greedy character classes are
disjoint from the characters that follow them, so no backtracking can produce a
different match), and are compiled here into explicit maximal-munch scanners over
`List Char`.  The two-line attribute-removal regex uses the `m` flag and matches an
attribute line followed by a property line; it is embedded line-structured (a property
declaration is completed on the single following line, which is the shape the renderer
emits).
-/

namespace Json2CSharp

/-- JavaScript regex `\w` over the ASCII range occurring in generated code. -/
def isWordChar (c : Char) : Bool := c.isAlphanum || c = '_'

/-- JavaScript regex `\s` over the ASCII range occurring in generated code. -/
def isWsChar (c : Char) : Bool :=
  c = ' ' || c = '\t' || c = '\n' || c = '\r' || c = '\x0b' || c = '\x0c'

/-- Regex character class `[ \t]`. -/
def isBlankChar (c : Char) : Bool := c = ' ' || c = '\t'

/-- Consume an exact literal, returning the remainder. -/
def dropLit : List Char → List Char → Option (List Char)
  | [], s => some s
  | _ :: _, [] => none
  | p :: ps, c :: cs => if c = p then dropLit ps cs else none

lemma dropLit_eq_some {p s r : List Char} : dropLit p s = some r ↔ s = p ++ r := by
  induction p generalizing s with
  | nil => simp [dropLit]
  | cons a p ih =>
      cases s with
      | nil => simp [dropLit]
      | cons c cs =>
          simp only [dropLit, List.cons_append]
          by_cases h : c = a
          · subst h; simp [ih]
          · simp only [if_neg h]
            constructor
            · intro hh; exact Option.noConfusion hh
            · intro hh
              injection hh with h1 h2
              exact absurd h1 h

lemma isWordChar_not_ws {c : Char} (h : isWordChar c = true) : isWsChar c = false := by
  rw [isWsChar]
  by_contra hc
  simp only [Bool.not_eq_false, Bool.or_eq_true, decide_eq_true_eq] at hc
  rcases hc with ((((h1 | h1) | h1) | h1) | h1) | h1 <;> subst h1 <;> simp [isWordChar] at h

/-! ### Collection-type substitution (`convertCollectionType`, converter.ts 261-275)

The source replaces `/\bList</g` by the chosen spelling.  `replaceListAux` is that
global replace: the flag records whether the previous character was a word character
(the `\b` assertion before `List`), a match consumes `List<` and emits the target
followed by `<`, and scanning resumes after the match with the flag cleared (the last
consumed character `<` is not a word character). -/

def replaceListAux (target : List Char) : Bool → List Char → List Char
  | _, [] => []
  | false, 'L' :: 'i' :: 's' :: 't' :: '<' :: rest =>
      target ++ '<' :: replaceListAux target false rest
  | _, c :: cs => c :: replaceListAux target (isWordChar c) cs

/-- Whether a pattern occurs at a position preceded by a word boundary
(start of text or a non-word character). -/
def wbOccursAux (pat : List Char) : Bool → List Char → Bool
  | _, [] => false
  | prevW, c :: cs =>
      (!prevW && (dropLit pat (c :: cs)).isSome) || wbOccursAux pat (isWordChar c) cs

def wbOccurs (pat : List Char) (s : List Char) : Bool := wbOccursAux pat false s

/-- Supported collection types for JSON arrays (converter.ts 113). -/
inductive CollectionType
  | Array | List | IList | IEnumerable | IReadOnlyList
deriving DecidableEq

def iListTgt : List Char := ['I', 'L', 'i', 's', 't']
def iEnumerableTgt : List Char := ['I', 'E', 'n', 'u', 'm', 'e', 'r', 'a', 'b', 'l', 'e']
def iReadOnlyListTgt : List Char := ['I', 'R', 'e', 'a', 'd', 'O', 'n', 'l', 'y', 'L', 'i', 's', 't']

/-- Convert `List<T>` to the selected collection type (converter.ts 261-275).
The `Array` configuration falls to the `default` branch of the `switch`. -/
def convertCollectionType (code : List Char) : CollectionType → List Char
  | .List => code
  | .IList => replaceListAux iListTgt false code
  | .IEnumerable => replaceListAux iEnumerableTgt false code
  | .IReadOnlyList => replaceListAux iReadOnlyListTgt false code
  | .Array => code

/-- The multi-argument spelling patterns (each type name followed by `<`). -/
def listPat : List Char := ['L', 'i', 's', 't', '<']
def iListPat : List Char := ['I', 'L', 'i', 's', 't', '<']
def iEnumerablePat : List Char := ['I', 'E', 'n', 'u', 'm', 'e', 'r', 'a', 'b', 'l', 'e', '<']
def iReadOnlyListPat : List Char :=
  ['I', 'R', 'e', 'a', 'd', 'O', 'n', 'l', 'y', 'L', 'i', 's', 't', '<']

lemma replaceListAux_true_cons (t : List Char) (c : Char) (cs : List Char) :
    replaceListAux t true (c :: cs) = c :: replaceListAux t (isWordChar c) cs := by
  cases cs with
  | nil => simp [replaceListAux]
  | cons d ds => rfl

/-- If a literal (word characters followed by one final arbitrary character) is a prefix
of the substitution output in word-state `true`, it was a prefix of the input. -/
lemma rla_true_lit (t : List Char) :
    ∀ (lit : List Char) (e : Char) (cs : List Char), (∀ a ∈ lit, isWordChar a = true) →
      (dropLit (lit ++ [e]) (replaceListAux t true cs)).isSome →
      (dropLit (lit ++ [e]) cs).isSome := by
  intro lit
  induction lit with
  | nil =>
      intro e cs _ h
      cases cs with
      | nil => simp [replaceListAux, dropLit] at h
      | cons c cs' =>
          rw [replaceListAux_true_cons] at h
          simp only [List.nil_append, dropLit] at h ⊢
          by_cases hc : c = e
          · simp [hc]
          · rw [if_neg hc] at h
            simp at h
  | cons a lit' ih =>
      intro e cs hw h
      cases cs with
      | nil => simp [replaceListAux, dropLit] at h
      | cons c cs' =>
          rw [replaceListAux_true_cons] at h
          simp only [List.cons_append, dropLit] at h ⊢
          by_cases hc : c = a
          · subst hc
            rw [if_pos rfl] at h ⊢
            have hcw : isWordChar c = true := hw c (by simp)
            rw [hcw] at h
            exact ih e cs' (fun x hx => hw x (by simp [hx])) h
          · rw [if_neg hc] at h
            simp at h

/-- After a substitution whose target scans cleanly, no word-boundary `List<` remains. -/
lemma wb_list_gone (t : List Char)
    (hscan : ∀ b xs, wbOccursAux listPat b (t ++ '<' :: xs) = wbOccursAux listPat false xs) :
    ∀ (b : Bool) (xs : List Char), wbOccursAux listPat b (replaceListAux t b xs) = false := by
  intro b xs
  induction b, xs using replaceListAux.induct t with
  | case1 => simp [replaceListAux, wbOccursAux]
  | case2 rest ih =>
      rw [replaceListAux, hscan]
      exact ih
  | case3 b c cs h ih =>
      rw [replaceListAux]
      case x_3 => exact h
      rw [wbOccursAux, ih, Bool.or_false]
      cases b with
      | true => simp
      | false =>
          simp only [Bool.not_false, Bool.true_and]
          by_cases hc : c = 'L'
          · subst hc
            rw [Bool.eq_false_iff]
            intro habs
            have hs : (dropLit (['i', 's', 't'] ++ ['<']) (replaceListAux t true cs)).isSome := by
              have h1 : isWordChar 'L' = true := by decide
              simp only [listPat, dropLit, if_pos rfl, h1, List.cons_append, List.nil_append]
                at habs ⊢
              exact habs
            have h2 := rla_true_lit t ['i', 's', 't'] '<' cs (by decide) hs
            rw [Option.isSome_iff_exists] at h2
            obtain ⟨r, hr⟩ := h2
            rw [dropLit_eq_some] at hr
            exact absurd (h r rfl rfl (by simpa using hr)) (by simp)
          · have hnone : dropLit listPat (c :: replaceListAux t (isWordChar c) cs) = none := by
              simp only [listPat, dropLit, if_neg hc]
            simp [hnone]

/-- A substitution whose target scans cleanly for a foreign pattern `p₀ :: lit ++ [e]`
never introduces a word-boundary occurrence of that pattern. -/
lemma wb_preserved (t : List Char) (p₀ : Char) (lit : List Char) (e : Char)
    (hp : isWordChar p₀ = true) (hlit : ∀ a ∈ lit, isWordChar a = true)
    (hscan : ∀ b xs, wbOccursAux (p₀ :: lit ++ [e]) b (t ++ '<' :: xs)
      = wbOccursAux (p₀ :: lit ++ [e]) false xs) :
    ∀ (b : Bool) (s : List Char), wbOccursAux (p₀ :: lit ++ [e]) b s = false →
      wbOccursAux (p₀ :: lit ++ [e]) b (replaceListAux t b s) = false := by
  intro b s
  induction b, s using replaceListAux.induct t with
  | case1 => simp [replaceListAux, wbOccursAux]
  | case2 rest ih =>
      intro hyp
      simp only [wbOccursAux, Bool.or_eq_false_iff] at hyp
      have hrest := hyp.2.2.2.2.2
      rw [replaceListAux, hscan]
      exact ih (by simpa +decide [isWordChar] using hrest)
  | case3 b c cs h ih =>
      intro hyp
      simp only [wbOccursAux, Bool.or_eq_false_iff] at hyp
      obtain ⟨h0, h1⟩ := hyp
      rw [replaceListAux]
      case x_3 => exact h
      rw [wbOccursAux, ih h1, Bool.or_false]
      cases b with
      | true => simp
      | false =>
          simp only [Bool.not_false, Bool.true_and] at h0 ⊢
          by_cases hc : c = p₀
          · subst hc
            rw [Bool.eq_false_iff]
            intro habs
            have hs : (dropLit (lit ++ [e]) (replaceListAux t true cs)).isSome := by
              simp only [List.cons_append, dropLit, if_pos rfl, hp] at habs
              exact habs
            have h2 := rla_true_lit t lit e cs hlit hs
            have : (dropLit (c :: lit ++ [e]) (c :: cs)).isSome = true := by
              simpa [dropLit] using h2
            rw [this] at h0
            exact Bool.noConfusion h0
          · have hnone : dropLit (p₀ :: lit ++ [e])
                (c :: replaceListAux t (isWordChar c) cs) = none := by
              simp only [List.cons_append, dropLit, if_neg hc]
            simp only [hnone, Option.isSome_none]

/-- The substitution is the identity on any text with no word-boundary `List<`
occurrence: a coincidental substring (such as an identifier merely containing the
letters `List`) is never rewritten. -/
lemma rla_id (t : List Char) :
    ∀ (b : Bool) (s : List Char), wbOccursAux listPat b s = false →
      replaceListAux t b s = s := by
  intro b s
  induction b, s using replaceListAux.induct t with
  | case1 => intro _; simp [replaceListAux]
  | case2 rest ih =>
      intro hyp
      exact absurd hyp (by simp +decide [wbOccursAux, listPat, dropLit])
  | case3 b c cs h ih =>
      intro hyp
      simp only [wbOccursAux, Bool.or_eq_false_iff] at hyp
      rw [replaceListAux]
      case x_3 => exact h
      rw [ih hyp.2]

/-! Scanning each substitution target introduces no occurrence of a foreign spelling:
inside `IList<`, `IEnumerable<` and `IReadOnlyList<` every embedded `List<` substring
is preceded by a word character, and no suffix is a proper prefix of another spelling. -/

lemma scan_List_IList (b : Bool) (xs : List Char) :
    wbOccursAux listPat b (iListTgt ++ '<' :: xs) = wbOccursAux listPat false xs := by
  simp +decide [wbOccursAux, dropLit, isWordChar, listPat, iListTgt]

lemma scan_List_IEnumerable (b : Bool) (xs : List Char) :
    wbOccursAux listPat b (iEnumerableTgt ++ '<' :: xs) = wbOccursAux listPat false xs := by
  simp +decide [wbOccursAux, dropLit, isWordChar, listPat, iEnumerableTgt]

lemma scan_List_IReadOnlyList (b : Bool) (xs : List Char) :
    wbOccursAux listPat b (iReadOnlyListTgt ++ '<' :: xs) = wbOccursAux listPat false xs := by
  simp +decide [wbOccursAux, dropLit, isWordChar, listPat, iReadOnlyListTgt]

lemma scan_IList_IEnumerable (b : Bool) (xs : List Char) :
    wbOccursAux iListPat b (iEnumerableTgt ++ '<' :: xs) = wbOccursAux iListPat false xs := by
  simp +decide [wbOccursAux, dropLit, isWordChar, iListPat, iEnumerableTgt]

lemma scan_IList_IReadOnlyList (b : Bool) (xs : List Char) :
    wbOccursAux iListPat b (iReadOnlyListTgt ++ '<' :: xs) = wbOccursAux iListPat false xs := by
  simp +decide [wbOccursAux, dropLit, isWordChar, iListPat, iReadOnlyListTgt]

lemma scan_IEnumerable_IList (b : Bool) (xs : List Char) :
    wbOccursAux iEnumerablePat b (iListTgt ++ '<' :: xs) = wbOccursAux iEnumerablePat false xs := by
  simp +decide [wbOccursAux, dropLit, isWordChar, iEnumerablePat, iListTgt]

lemma scan_IEnumerable_IReadOnlyList (b : Bool) (xs : List Char) :
    wbOccursAux iEnumerablePat b (iReadOnlyListTgt ++ '<' :: xs)
      = wbOccursAux iEnumerablePat false xs := by
  simp +decide [wbOccursAux, dropLit, isWordChar, iEnumerablePat, iReadOnlyListTgt]

lemma scan_IReadOnlyList_IList (b : Bool) (xs : List Char) :
    wbOccursAux iReadOnlyListPat b (iListTgt ++ '<' :: xs)
      = wbOccursAux iReadOnlyListPat false xs := by
  simp +decide [wbOccursAux, dropLit, isWordChar, iReadOnlyListPat, iListTgt]

lemma scan_IReadOnlyList_IEnumerable (b : Bool) (xs : List Char) :
    wbOccursAux iReadOnlyListPat b (iEnumerableTgt ++ '<' :: xs)
      = wbOccursAux iReadOnlyListPat false xs := by
  simp +decide [wbOccursAux, dropLit, isWordChar, iReadOnlyListPat, iEnumerableTgt]

/-- The four multi-argument collection spellings. -/
def collectionPats : List (List Char) := [listPat, iListPat, iEnumerablePat, iReadOnlyListPat]

/-- The spelling requested by each configuration (`Array` uses the `T[]` shape and none
of the four). -/
def requestedPat : CollectionType → Option (List Char)
  | .Array => none
  | .List => some listPat
  | .IList => some iListPat
  | .IEnumerable => some iEnumerablePat
  | .IReadOnlyList => some iReadOnlyListPat

/-- The renderer's baseline for the configuration: with the `Array` configuration the
renderer emits `T[]` and none of the four spellings occur; otherwise it emits `List<`
as the only collection spelling. -/
def baselineFor (ct : CollectionType) (s : List Char) : Bool :=
  match ct with
  | .Array => !wbOccurs listPat s && !wbOccurs iListPat s && !wbOccurs iEnumerablePat s
      && !wbOccurs iReadOnlyListPat s
  | _ => !wbOccurs iListPat s && !wbOccurs iEnumerablePat s && !wbOccurs iReadOnlyListPat s

lemma preserved_pat (t : List Char) (pat : List Char) (p₀ : Char) (lit : List Char) (e : Char)
    (hpat : pat = p₀ :: lit ++ [e]) (hp : isWordChar p₀ = true)
    (hlit : ∀ a ∈ lit, isWordChar a = true)
    (hscan : ∀ b xs, wbOccursAux pat b (t ++ '<' :: xs) = wbOccursAux pat false xs) :
    ∀ s, wbOccurs pat s = false → wbOccurs pat (replaceListAux t false s) = false := by
  subst hpat
  intro s h
  exact wb_preserved t p₀ lit e hp hlit hscan false s h

/-- C2 (amended): for every one of the five collection-type configurations, on any
baseline text whose word-boundary collection-spelling occurrences are only the
baseline `List<` spelling, the only collection spelling appearing in the substitution
output is the requested one; and any text without a word-boundary `List<` occurrence —
in particular an identifier merely containing the letters `List` — is left entirely
unchanged by the substitution. -/
theorem c2_collection_spelling :
    (∀ (ct : CollectionType) (s : List Char), baselineFor ct s = true →
      ∀ P ∈ collectionPats, requestedPat ct ≠ some P →
        wbOccurs P (convertCollectionType s ct) = false)
    ∧ (∀ (ct : CollectionType) (s : List Char), wbOccurs listPat s = false →
        convertCollectionType s ct = s) := by
  constructor
  · intro ct s hb P hP hreq
    simp only [collectionPats, List.mem_cons, List.not_mem_nil, or_false] at hP
    cases ct with
    | Array =>
        simp only [baselineFor, Bool.and_eq_true, Bool.not_eq_true'] at hb
        obtain ⟨⟨⟨hL, hIL⟩, hIE⟩, hIR⟩ := hb
        rcases hP with rfl | rfl | rfl | rfl
        · exact hL
        · exact hIL
        · exact hIE
        · exact hIR
    | List =>
        simp only [baselineFor, Bool.and_eq_true, Bool.not_eq_true'] at hb
        obtain ⟨⟨hIL, hIE⟩, hIR⟩ := hb
        rcases hP with rfl | rfl | rfl | rfl
        · exact absurd rfl hreq
        · exact hIL
        · exact hIE
        · exact hIR
    | IList =>
        simp only [baselineFor, Bool.and_eq_true, Bool.not_eq_true'] at hb
        obtain ⟨⟨hIL, hIE⟩, hIR⟩ := hb
        rcases hP with rfl | rfl | rfl | rfl
        · exact wb_list_gone iListTgt scan_List_IList false s
        · exact absurd rfl hreq
        · exact preserved_pat iListTgt iEnumerablePat 'I'
            ['E', 'n', 'u', 'm', 'e', 'r', 'a', 'b', 'l', 'e'] '<' rfl (by decide) (by decide)
            scan_IEnumerable_IList s hIE
        · exact preserved_pat iListTgt iReadOnlyListPat 'I'
            ['R', 'e', 'a', 'd', 'O', 'n', 'l', 'y', 'L', 'i', 's', 't'] '<' rfl (by decide)
            (by decide) scan_IReadOnlyList_IList s hIR
    | IEnumerable =>
        simp only [baselineFor, Bool.and_eq_true, Bool.not_eq_true'] at hb
        obtain ⟨⟨hIL, hIE⟩, hIR⟩ := hb
        rcases hP with rfl | rfl | rfl | rfl
        · exact wb_list_gone iEnumerableTgt scan_List_IEnumerable false s
        · exact preserved_pat iEnumerableTgt iListPat 'I' ['L', 'i', 's', 't'] '<' rfl
            (by decide) (by decide) scan_IList_IEnumerable s hIL
        · exact absurd rfl hreq
        · exact preserved_pat iEnumerableTgt iReadOnlyListPat 'I'
            ['R', 'e', 'a', 'd', 'O', 'n', 'l', 'y', 'L', 'i', 's', 't'] '<' rfl (by decide)
            (by decide) scan_IReadOnlyList_IEnumerable s hIR
    | IReadOnlyList =>
        simp only [baselineFor, Bool.and_eq_true, Bool.not_eq_true'] at hb
        obtain ⟨⟨hIL, hIE⟩, hIR⟩ := hb
        rcases hP with rfl | rfl | rfl | rfl
        · exact wb_list_gone iReadOnlyListTgt scan_List_IReadOnlyList false s
        · exact preserved_pat iReadOnlyListTgt iListPat 'I' ['L', 'i', 's', 't'] '<' rfl
            (by decide) (by decide) scan_IList_IReadOnlyList s hIL
        · exact preserved_pat iReadOnlyListTgt iEnumerablePat 'I'
            ['E', 'n', 'u', 'm', 'e', 'r', 'a', 'b', 'l', 'e'] '<' rfl (by decide) (by decide)
            scan_IEnumerable_IReadOnlyList s hIE
        · exact absurd rfl hreq
  · intro ct s h
    cases ct with
    | Array => rfl
    | List => rfl
    | IList => exact rla_id iListTgt false s h
    | IEnumerable => exact rla_id iEnumerableTgt false s h
    | IReadOnlyList => exact rla_id iReadOnlyListTgt false s h

/-- Witness for C2 at concrete inputs: substituting `IEnumerable` leaves only the
requested spelling, and an identifier merely containing `List` is untouched. -/
theorem c2_collection_spelling_witness :
    wbOccurs listPat
      (convertCollectionType "public List<string> Items { get; set; }".data
        CollectionType.IEnumerable) = false
    ∧ convertCollectionType "public int ShoppingList { get; set; }".data
        CollectionType.IEnumerable = "public int ShoppingList { get; set; }".data :=
  ⟨c2_collection_spelling.1 CollectionType.IEnumerable
      "public List<string> Items { get; set; }".data (by decide) listPat (by decide) (by decide),
    c2_collection_spelling.2 CollectionType.IEnumerable
      "public int ShoppingList { get; set; }".data (by decide)⟩

/-- C2 counterexample: the claim as stated is false — the word-boundary substitution
also rewrites a coincidental `List<` substring inside a quoted serialization key,
which is not a genuine collection-type occurrence. -/
theorem c2_counterexample :
    convertCollectionType "[JsonPropertyName(\"List<x>\")]".data CollectionType.IEnumerable
      = "[JsonPropertyName(\"IEnumerable<x>\")]".data
    ∧ convertCollectionType "[JsonPropertyName(\"List<x>\")]".data CollectionType.IEnumerable
      ≠ "[JsonPropertyName(\"List<x>\")]".data := by
  constructor
  · decide
  · decide

/-! ### Redundant serialization-attribute removal (`removeRedundantAttributes`, 360-373)

The source regex (flag `gm`) matches an attribute line — `^[ \t]*` then
`[JsonPropertyName("key")]` or `[JsonProperty("key")]` with `key` one or more `\w`
characters, ending the line — followed by the prefix of a property line
`[ \t]*public\s+\S+\s+name\s*\{`, and drops the attribute line exactly when the key
equals the property name case-insensitively.  Because the replacement re-emits the
matched property-line prefix, the net effect is line deletion; the embedding works on
the line decomposition of the text. -/

def splitLines : List Char → List (List Char)
  | [] => [[]]
  | c :: cs =>
      if c = '\n' then [] :: splitLines cs
      else
        match splitLines cs with
        | [] => [[c]]
        | l :: ls => (c :: l) :: ls

def joinLines : List (List Char) → List Char
  | [] => []
  | l :: ls =>
      match ls with
      | [] => l
      | _ :: _ => l ++ '\n' :: joinLines ls

/-- Parse the tail of an attribute line after the opening `("`: a nonempty `\w+` key,
then `")]` ending the line. -/
def parseAttrTail (r : List Char) : Option (List Char) :=
  if (r.takeWhile isWordChar).isEmpty then none
  else
    match dropLit "\")]".data (r.dropWhile isWordChar) with
    | some [] => some (r.takeWhile isWordChar)
    | _ => none

/-- Parse an attribute line `[ \t]*\[(?:JsonPropertyName|JsonProperty)\("(\w+)"\)\]`,
returning the captured key. -/
def parseAttrKey (line : List Char) : Option (List Char) :=
  let r := line.dropWhile isBlankChar
  match dropLit "[JsonPropertyName(\"".data r with
  | some r1 => parseAttrTail r1
  | none =>
      match dropLit "[JsonProperty(\"".data r with
      | some r1 => parseAttrTail r1
      | none => none

/-- Step 4 of the property-line prefix: `(\w+)\s*\{` — the captured name. -/
def propNameStep (r4 : List Char) : Option (List Char) :=
  if (r4.takeWhile isWordChar).isEmpty then none
  else
    match (r4.dropWhile isWordChar).dropWhile isWsChar with
    | '{' :: _ => some (r4.takeWhile isWordChar)
    | _ => none

/-- Step 3 of the property-line prefix: `\s+` between the type and the name. -/
def propWsStep (r3 : List Char) : Option (List Char) :=
  if (r3.takeWhile isWsChar).isEmpty then none
  else propNameStep (r3.dropWhile isWsChar)

/-- Step 2 of the property-line prefix: the `\S+` type token. -/
def propTypeStep (r2 : List Char) : Option (List Char) :=
  if (r2.takeWhile (fun c => !isWsChar c)).isEmpty then none
  else propWsStep (r2.dropWhile (fun c => !isWsChar c))

/-- Parse the property-line prefix `[ \t]*public\s+\S+\s+(\w+)\s*\{`, returning the
captured property name. -/
def parsePropName (line : List Char) : Option (List Char) :=
  match dropLit "public".data (line.dropWhile isBlankChar) with
  | none => none
  | some r1 =>
      if (r1.takeWhile isWsChar).isEmpty then none
      else propTypeStep (r1.dropWhile isWsChar)

/-- JavaScript `toLowerCase` comparison of the key and name (both `\w+`, ASCII). -/
def lowerEq (a b : List Char) : Bool := a.map Char.toLower == b.map Char.toLower

/-- Whether a line is a redundant attribute: an attribute line whose key matches the
property name captured on the immediately following line, case-insensitively. -/
def redundantPair (a : List Char) : Option (List Char) → Bool
  | none => false
  | some b =>
      match parseAttrKey a, parsePropName b with
      | some k, some n => lowerEq k n
      | _, _ => false

def removeRedundantLines : List (List Char) → List (List Char)
  | [] => []
  | a :: rest =>
      if redundantPair a rest.head? then removeRedundantLines rest
      else a :: removeRedundantLines rest

/-- Remove serialization attributes where the JSON key matches the C# property name
(case-insensitive), converter.ts 360-373. -/
def removeRedundantAttributes (code : List Char) : List Char :=
  joinLines (removeRedundantLines (splitLines code))

lemma splitLines_cons_newline (cs : List Char) :
    splitLines ('\n' :: cs) = [] :: splitLines cs := by
  simp [splitLines]

lemma splitLines_cons_other {c : Char} (cs : List Char) (hc : c ≠ '\n') :
    splitLines (c :: cs) =
      match splitLines cs with
      | [] => [[c]]
      | l :: ls => (c :: l) :: ls := by
  simp [splitLines, hc]

lemma splitLines_ne_nil (s : List Char) : splitLines s ≠ [] := by
  induction s with
  | nil => simp [splitLines]
  | cons c cs ih =>
      by_cases hc : c = '\n'
      · subst hc; rw [splitLines_cons_newline]; simp
      · rw [splitLines_cons_other cs hc]
        cases hs : splitLines cs with
        | nil => simp
        | cons l ls => simp

lemma joinLines_cons_cons (c : Char) (l : List Char) (ls : List (List Char)) :
    joinLines ((c :: l) :: ls) = c :: joinLines (l :: ls) := by
  cases ls with
  | nil => rfl
  | cons m ms => rfl

lemma joinLines_splitLines (s : List Char) : joinLines (splitLines s) = s := by
  induction s with
  | nil => rfl
  | cons c cs ih =>
      by_cases hc : c = '\n'
      · subst hc
        rw [splitLines_cons_newline]
        cases hs : splitLines cs with
        | nil => exact absurd hs (splitLines_ne_nil cs)
        | cons l ls =>
            rw [joinLines]
            rw [← hs, ih]
            simp
      · rw [splitLines_cons_other cs hc]
        cases hs : splitLines cs with
        | nil => exact absurd hs (splitLines_ne_nil cs)
        | cons l ls =>
            rw [joinLines_cons_cons, ← hs, ih]

lemma splitLines_no_newline (s : List Char) : ∀ l ∈ splitLines s, '\n' ∉ l := by
  induction s with
  | nil => simp [splitLines]
  | cons c cs ih =>
      by_cases hc : c = '\n'
      · subst hc
        rw [splitLines_cons_newline]
        intro l hl
        rcases List.mem_cons.mp hl with rfl | hl
        · simp
        · exact ih l hl
      · rw [splitLines_cons_other cs hc]
        cases hs : splitLines cs with
        | nil => exact absurd hs (splitLines_ne_nil cs)
        | cons l ls =>
            intro m hm
            rcases List.mem_cons.mp hm with rfl | hm
            · intro hmem
              rcases List.mem_cons.mp hmem with rfl | hmem
              · exact hc rfl
              · exact ih l (hs ▸ List.mem_cons_self l ls) hmem
            · exact ih m (hs ▸ List.mem_cons.mpr (Or.inr hm))

lemma splitLines_single {l : List Char} (h : '\n' ∉ l) : splitLines l = [l] := by
  induction l with
  | nil => rfl
  | cons c cs ih =>
      have hc : c ≠ '\n' := fun hh => h (hh ▸ List.mem_cons_self c cs)
      have hcs : '\n' ∉ cs := fun hh => h (List.mem_cons.mpr (Or.inr hh))
      rw [splitLines_cons_other cs hc, ih hcs]

lemma splitLines_append_newline {l : List Char} (t : List Char) (h : '\n' ∉ l) :
    splitLines (l ++ '\n' :: t) = l :: splitLines t := by
  induction l with
  | nil =>
      rw [List.nil_append, splitLines_cons_newline]
  | cons c cs ih =>
      have hc : c ≠ '\n' := fun hh => h (hh ▸ List.mem_cons_self c cs)
      have hcs : '\n' ∉ cs := fun hh => h (List.mem_cons.mpr (Or.inr hh))
      rw [List.cons_append, splitLines_cons_other _ hc, ih hcs]

lemma splitLines_joinLines {ls : List (List Char)} (hne : ls ≠ [])
    (h : ∀ l ∈ ls, '\n' ∉ l) : splitLines (joinLines ls) = ls := by
  induction ls with
  | nil => exact absurd rfl hne
  | cons l ls ih =>
      cases ls with
      | nil =>
          rw [joinLines]
          exact splitLines_single (h l (List.mem_cons_self l []))
      | cons m ms =>
          rw [joinLines, splitLines_append_newline _ (h l (List.mem_cons_self l _))]
          rw [ih (by simp) (fun x hx => h x (List.mem_cons.mpr (Or.inr hx)))]

lemma removeRedundantLines_sublist (ls : List (List Char)) :
    (removeRedundantLines ls).Sublist ls := by
  induction ls with
  | nil => simp [removeRedundantLines]
  | cons a rest ih =>
      rw [removeRedundantLines]
      by_cases h : redundantPair a rest.head? = true
      · rw [if_pos h]
        exact ih.cons a
      · rw [if_neg h]
        exact ih.cons₂ a

lemma redundantPair_isSome {a : List Char} {o : Option (List Char)}
    (h : redundantPair a o = true) : (parseAttrKey a).isSome := by
  cases o with
  | none => simp [redundantPair] at h
  | some b =>
      rw [redundantPair] at h
      cases hk : parseAttrKey a with
      | none => rw [hk] at h; cases hn : parsePropName b <;> rw [hn] at h <;> simp at h
      | some k => simp

lemma removeRedundantLines_count {line : List Char} (hline : parseAttrKey line = none) :
    ∀ ls : List (List Char),
      (removeRedundantLines ls).count line = ls.count line := by
  intro ls
  induction ls with
  | nil => rfl
  | cons a rest ih =>
      rw [removeRedundantLines]
      by_cases h : redundantPair a rest.head? = true
      · rw [if_pos h]
        have ha : a ≠ line := by
          intro hh
          subst hh
          have := redundantPair_isSome h
          rw [hline] at this
          exact Bool.noConfusion this
        rw [List.count_cons_of_ne (by exact fun hh => ha hh.symm) , ih]
      · rw [if_neg h]
        rw [List.count_cons, List.count_cons, ih]

lemma removeRedundantLines_ne_nil {ls : List (List Char)} (h : ls ≠ []) :
    removeRedundantLines ls ≠ [] := by
  induction ls with
  | nil => exact absurd rfl h
  | cons a rest ih =>
      rw [removeRedundantLines]
      by_cases hd : redundantPair a rest.head? = true
      · rw [if_pos hd]
        have : rest ≠ [] := by
          intro hh
          subst hh
          simp [redundantPair] at hd
        exact ih this
      · rw [if_neg hd]
        simp

lemma splitLines_removeRedundantAttributes (s : List Char) :
    splitLines (removeRedundantAttributes s) = removeRedundantLines (splitLines s) := by
  rw [removeRedundantAttributes]
  exact splitLines_joinLines (removeRedundantLines_ne_nil (splitLines_ne_nil s))
    (fun l hl => splitLines_no_newline s l ((removeRedundantLines_sublist _).subset hl))

/-- No line is immediately followed by another attribute line while itself being an
attribute line (quicktype emits at most one serialization attribute per property). -/
def noAdjacentAttrs : List (List Char) → Bool
  | a :: b :: rest =>
      (!((parseAttrKey a).isSome && (parseAttrKey b).isSome)) && noAdjacentAttrs (b :: rest)
  | _ => true

/-- No adjacent attribute/property pair in the list is redundant. -/
def noRedundantAdjacent : List (List Char) → Bool
  | a :: b :: rest => !redundantPair a (some b) && noRedundantAdjacent (b :: rest)
  | _ => true

lemma noAdjacentAttrs_tail {a : List Char} {rest : List (List Char)}
    (h : noAdjacentAttrs (a :: rest) = true) : noAdjacentAttrs rest = true := by
  cases rest with
  | nil => rfl
  | cons b rest' =>
      rw [noAdjacentAttrs, Bool.and_eq_true] at h
      exact h.2

lemma redundantPair_of_attr_none {a : List Char} (h : parseAttrKey a = none)
    (o : Option (List Char)) : redundantPair a o = false := by
  cases o with
  | none => rfl
  | some b =>
      rw [redundantPair, h]

/-- After one pass the head decision of a kept line is unchanged, provided no two
adjacent lines are both attribute lines. -/
lemma keep_head {a : List Char} {rest : List (List Char)}
    (hadj : noAdjacentAttrs (a :: rest) = true) :
    redundantPair a ((removeRedundantLines rest).head?) = redundantPair a rest.head? := by
  by_cases hk : (parseAttrKey a).isSome = true
  · cases rest with
    | nil => rfl
    | cons b rest' =>
        rw [noAdjacentAttrs, Bool.and_eq_true] at hadj
        have hb : parseAttrKey b = none := by
          rcases (show parseAttrKey a = none ∨ parseAttrKey b = none by simpa using hadj.1)
            with h | h
          · rw [h] at hk; simp at hk
          · exact h
        have hbpair : redundantPair b rest'.head? = false := by
          rw [Bool.eq_false_iff]
          intro hh
          have := redundantPair_isSome hh
          rw [hb] at this
          simp at this
        rw [removeRedundantLines, if_neg (by rw [hbpair]; exact Bool.noConfusion)]
        rw [List.head?_cons, List.head?_cons]
  · have hnone : parseAttrKey a = none := by
      cases hpa : parseAttrKey a with
      | none => rfl
      | some k => rw [hpa] at hk; simp at hk
    rw [redundantPair_of_attr_none hnone, redundantPair_of_attr_none hnone]

lemma rrl_idem {ls : List (List Char)} (h : noAdjacentAttrs ls = true) :
    removeRedundantLines (removeRedundantLines ls) = removeRedundantLines ls := by
  induction ls with
  | nil => rfl
  | cons a rest ih =>
      have hrest := noAdjacentAttrs_tail h
      rw [removeRedundantLines]
      by_cases hd : redundantPair a rest.head? = true
      · rw [if_pos hd]
        exact ih hrest
      · rw [if_neg hd]
        rw [removeRedundantLines, keep_head h, if_neg hd, ih hrest]

lemma rrl_noRedundant {ls : List (List Char)} (h : noAdjacentAttrs ls = true) :
    noRedundantAdjacent (removeRedundantLines ls) = true := by
  induction ls with
  | nil => rfl
  | cons a rest ih =>
      have hrest := noAdjacentAttrs_tail h
      rw [removeRedundantLines]
      by_cases hd : redundantPair a rest.head? = true
      · rw [if_pos hd]
        exact ih hrest
      · rw [if_neg hd]
        cases hfr : removeRedundantLines rest with
        | nil => rfl
        | cons b' rest'' =>
            rw [noRedundantAdjacent, Bool.and_eq_true]
            constructor
            · have := keep_head h
              rw [hfr, List.head?_cons] at this
              rw [this]
              simp only [Bool.not_eq_true']
              exact Bool.eq_false_iff.mpr hd
            · rw [← hfr]
              exact ih hrest

lemma takeWhile_append_bad {p : Char → Bool} {a : List Char} (b : List Char)
    (hbad : ∃ c ∈ a, p c = false) :
    (a ++ b).takeWhile p = a.takeWhile p ∧ (a ++ b).dropWhile p = a.dropWhile p ++ b := by
  induction a with
  | nil => simp at hbad
  | cons c a' ih =>
      by_cases hc : p c = true
      · have hbad' : ∃ x ∈ a', p x = false := by
          obtain ⟨x, hx, hpx⟩ := hbad
          rcases List.mem_cons.mp hx with rfl | hx
          · rw [hc] at hpx; exact Bool.noConfusion hpx
          · exact ⟨x, hx, hpx⟩
        have := ih hbad'
        constructor
        · rw [List.cons_append, List.takeWhile_cons, List.takeWhile_cons, hc]
          simp [this.1]
        · rw [List.cons_append, List.dropWhile_cons, List.dropWhile_cons, hc]
          simp [this.2]
      · rw [Bool.not_eq_true] at hc
        constructor
        · rw [List.cons_append, List.takeWhile_cons, List.takeWhile_cons, hc]
          simp
        · rw [List.cons_append, List.dropWhile_cons, List.dropWhile_cons, hc]
          simp

lemma dropWhile_bad_ne_nil {p : Char → Bool} {a : List Char}
    (hbad : ∃ c ∈ a, p c = false) : a.dropWhile p ≠ [] := by
  induction a with
  | nil => simp at hbad
  | cons c a' ih =>
      by_cases hc : p c = true
      · have hbad' : ∃ x ∈ a', p x = false := by
          obtain ⟨x, hx, hpx⟩ := hbad
          rcases List.mem_cons.mp hx with rfl | hx
          · rw [hc] at hpx; exact Bool.noConfusion hpx
          · exact ⟨x, hx, hpx⟩
        rw [List.dropWhile_cons, hc]
        simpa using ih hbad'
      · rw [Bool.not_eq_true] at hc
        rw [List.dropWhile_cons, hc]
        simp

lemma dropWhile_all_head {p : Char → Bool} {a : List Char} {c₀ : Char} (b : List Char)
    (ha : ∀ c ∈ a, p c = true) (hc : p c₀ = false) :
    (a ++ c₀ :: b).dropWhile p = c₀ :: b := by
  induction a with
  | nil => simp [List.dropWhile_cons, hc]
  | cons c a' ih =>
      rw [List.cons_append, List.dropWhile_cons, ha c (List.mem_cons_self c a')]
      exact ih (fun x hx => ha x (List.mem_cons.mpr (Or.inr hx)))

/-- An attribute line whose quoted key contains a character outside `\w` never parses:
the removal regex requires the key to be entirely `\w+`. -/
lemma parseAttrKey_badkey (ind key : List Char) (useLong : Bool)
    (hind : ∀ c ∈ ind, isBlankChar c = true)
    (hbad : ∃ c ∈ key, isWordChar c = false) :
    parseAttrKey (ind ++ (if useLong then "[JsonPropertyName(\"" else "[JsonProperty(\"").data
      ++ key ++ "\")]".data) = none := by
  have htail : parseAttrTail (key ++ "\")]".data) = none := by
    rw [parseAttrTail]
    have hsplit := takeWhile_append_bad (p := isWordChar) "\")]".data hbad
    by_cases hk : (List.takeWhile isWordChar (key ++ "\")]".data)).isEmpty = true
    · rw [if_pos hk]
    · rw [if_neg hk, hsplit.2]
      cases hD : dropLit "\")]".data (key.dropWhile isWordChar ++ "\")]".data) with
      | none => rfl
      | some r =>
          have heq := dropLit_eq_some.mp hD
          have hlen : (key.dropWhile isWordChar).length = r.length := by
            have := congrArg List.length heq
            simpa using this
          have hrne : r ≠ [] := by
            intro hh
            subst hh
            exact dropWhile_bad_ne_nil hbad (List.length_eq_zero.mp (by simpa using hlen))
          cases r with
          | nil => exact absurd rfl hrne
          | cons x xs => rfl
  cases useLong with
  | true =>
      rw [if_pos rfl, parseAttrKey]
      have harg : ind ++ "[JsonPropertyName(\"".data ++ key ++ "\")]".data
          = ind ++ '[' :: ("JsonPropertyName(\"".data ++ (key ++ "\")]".data)) := by
        simp [List.append_assoc]
      rw [harg, dropWhile_all_head _ hind (by decide)]
      have hdrop : dropLit "[JsonPropertyName(\"".data
          ('[' :: ("JsonPropertyName(\"".data ++ (key ++ "\")]".data)))
          = some (key ++ "\")]".data) :=
        dropLit_eq_some.mpr rfl
      rw [hdrop]
      exact htail
  | false =>
      rw [if_neg (by simp), parseAttrKey]
      have harg : ind ++ "[JsonProperty(\"".data ++ key ++ "\")]".data
          = ind ++ '[' :: ("JsonProperty(\"".data ++ (key ++ "\")]".data)) := by
        simp [List.append_assoc]
      rw [harg, dropWhile_all_head _ hind (by decide)]
      have hfail : dropLit "[JsonPropertyName(\"".data
          ('[' :: ("JsonProperty(\"".data ++ (key ++ "\")]".data))) = none := by
        cases hD : dropLit "[JsonPropertyName(\"".data
            ('[' :: ("JsonProperty(\"".data ++ (key ++ "\")]".data))) with
        | none => rfl
        | some r =>
            have heq0 := dropLit_eq_some.mp hD
            have heq : "[JsonProperty".data ++ ('(' :: '"' :: (key ++ "\")]".data))
                = "[JsonProperty".data ++ ('N' :: ("ame(\"".data ++ r)) := heq0
            have hpq := List.append_cancel_left heq
            injection hpq with h1 h2
            exact absurd h1 (by decide)
      rw [hfail]
      have hdrop : dropLit "[JsonProperty(\"".data
          ('[' :: ("JsonProperty(\"".data ++ (key ++ "\")]".data)))
          = some (key ++ "\")]".data) :=
        dropLit_eq_some.mpr rfl
      rw [hdrop]
      exact htail

/-- C10: redundant-attribute elimination never removes an attribute line whose JSON
key contains a character outside letters, digits and underscore: every occurrence of
such a line survives, for every input text. -/
theorem c10_nonword_keys_preserved (s ind key : List Char) (useLong : Bool)
    (hind : ∀ c ∈ ind, isBlankChar c = true)
    (hbad : ∃ c ∈ key, isWordChar c = false) :
    (splitLines (removeRedundantAttributes s)).count
        (ind ++ (if useLong then "[JsonPropertyName(\"" else "[JsonProperty(\"").data
          ++ key ++ "\")]".data)
      = (splitLines s).count
        (ind ++ (if useLong then "[JsonPropertyName(\"" else "[JsonProperty(\"").data
          ++ key ++ "\")]".data) := by
  rw [splitLines_removeRedundantAttributes]
  exact removeRedundantLines_count (parseAttrKey_badkey ind key useLong hind hbad)
    (splitLines s)

/-- Witness for C10: a hyphenated key `user-id` above a case-insensitively matching
property name is kept. -/
theorem c10_nonword_keys_preserved_witness :
    (splitLines (removeRedundantAttributes
        "[JsonPropertyName(\"user-id\")]\npublic string UserId \x7b get; set; \x7d".data)).count
        ([] ++ (if true then "[JsonPropertyName(\"" else "[JsonProperty(\"").data
          ++ "user-id".data ++ "\")]".data)
      = (splitLines
          "[JsonPropertyName(\"user-id\")]\npublic string UserId \x7b get; set; \x7d".data).count
        ([] ++ (if true then "[JsonPropertyName(\"" else "[JsonProperty(\"").data
          ++ "user-id".data ++ "\")]".data) :=
  c10_nonword_keys_preserved _ [] "user-id".data true (by simp) (by decide)

/-! ### Nullability stages (`addNullableAnnotations` / `addDefaultValues`, 296-353)

Both stages globally replace the property regex
`public\s+(\S+)\s+(\w+)\s*\{\s*get;\s*set;\s*\}` through a replacement callback.  The
greedy classes `\s+`/`\S+`/`\w+` are each followed by a character they cannot match, so
the regex is deterministic maximal-munch; the scanner below attempts the match at every
position, feeds each match to the callback and resumes scanning after the matched
text (the callback output is not rescanned, as with JavaScript `String.replace`). -/

structure PropMatch where
  matched : List Char
  ptype : List Char
  pname : List Char
  rest : List Char

/-- Final step `\s*\}` of the property regex. -/
def matchPropClose (acc ty nm r11 : List Char) : Option PropMatch :=
  match (r11.dropWhile isWsChar) with
  | '}' :: r13 => some ⟨acc ++ r11.takeWhile isWsChar ++ ['}'], ty, nm, r13⟩
  | _ => none

/-- Step `\s*set;` of the property regex. -/
def matchPropSet (acc ty nm r9 : List Char) : Option PropMatch :=
  match dropLit "set;".data (r9.dropWhile isWsChar) with
  | some r11 => matchPropClose (acc ++ r9.takeWhile isWsChar ++ "set;".data) ty nm r11
  | none => none

/-- Step `\s*get;` of the property regex. -/
def matchPropGet (acc ty nm r7 : List Char) : Option PropMatch :=
  match dropLit "get;".data (r7.dropWhile isWsChar) with
  | some r9 => matchPropSet (acc ++ r7.takeWhile isWsChar ++ "get;".data) ty nm r9
  | none => none

/-- Step `\s*\{` of the property regex. -/
def matchPropBrace (acc ty nm r5 : List Char) : Option PropMatch :=
  match (r5.dropWhile isWsChar) with
  | '{' :: r7 => matchPropGet (acc ++ r5.takeWhile isWsChar ++ ['{']) ty nm r7
  | _ => none

/-- Step `(\w+)` of the property regex: the captured name. -/
def matchPropNm (acc ty r4 : List Char) : Option PropMatch :=
  if (r4.takeWhile isWordChar).isEmpty then none
  else matchPropBrace (acc ++ r4.takeWhile isWordChar) ty (r4.takeWhile isWordChar)
    (r4.dropWhile isWordChar)

/-- Step `\s+` between the type and the name. -/
def matchPropWs2 (acc ty r3 : List Char) : Option PropMatch :=
  if (r3.takeWhile isWsChar).isEmpty then none
  else matchPropNm (acc ++ r3.takeWhile isWsChar) ty (r3.dropWhile isWsChar)

/-- Step `(\S+)` of the property regex: the captured type token. -/
def matchPropTy (acc r2 : List Char) : Option PropMatch :=
  if (r2.takeWhile (fun c => !isWsChar c)).isEmpty then none
  else matchPropWs2 (acc ++ r2.takeWhile (fun c => !isWsChar c))
    (r2.takeWhile (fun c => !isWsChar c)) (r2.dropWhile (fun c => !isWsChar c))

/-- Attempt the property regex match at the head of `s`. -/
def matchPropAt (s : List Char) : Option PropMatch :=
  match dropLit "public".data s with
  | none => none
  | some r1 =>
      if (r1.takeWhile isWsChar).isEmpty then none
      else matchPropTy ("public".data ++ r1.takeWhile isWsChar) (r1.dropWhile isWsChar)

lemma dropWhile_length_le (p : Char → Bool) (l : List Char) :
    (l.dropWhile p).length ≤ l.length :=
  (List.dropWhile_sublist _).length_le

lemma matchPropClose_rest {acc ty nm r11 : List Char} {m : PropMatch}
    (h : matchPropClose acc ty nm r11 = some m) : m.rest.length < r11.length + 1 := by
  rw [matchPropClose] at h
  split at h
  · next r13 heq =>
      injection h with h'
      subst h'
      have h1 : r13.length < (r11.dropWhile isWsChar).length := by
        rw [heq]; simp
      have := dropWhile_length_le isWsChar r11
      simp only []
      omega
  · exact Option.noConfusion h

lemma matchPropSet_rest {acc ty nm r9 : List Char} {m : PropMatch}
    (h : matchPropSet acc ty nm r9 = some m) : m.rest.length < r9.length + 1 := by
  rw [matchPropSet] at h
  split at h
  · next r11 heq =>
      have h1 := matchPropClose_rest h
      have h2 : r11.length + 4 = (r9.dropWhile isWsChar).length := by
        have := congrArg List.length (dropLit_eq_some.mp heq)
        simpa using this.symm
      have := dropWhile_length_le isWsChar r9
      omega
  · exact Option.noConfusion h

lemma matchPropGet_rest {acc ty nm r7 : List Char} {m : PropMatch}
    (h : matchPropGet acc ty nm r7 = some m) : m.rest.length < r7.length + 1 := by
  rw [matchPropGet] at h
  split at h
  · next r9 heq =>
      have h1 := matchPropSet_rest h
      have h2 : r9.length + 4 = (r7.dropWhile isWsChar).length := by
        have := congrArg List.length (dropLit_eq_some.mp heq)
        simpa using this.symm
      have := dropWhile_length_le isWsChar r7
      omega
  · exact Option.noConfusion h

lemma matchPropBrace_rest {acc ty nm r5 : List Char} {m : PropMatch}
    (h : matchPropBrace acc ty nm r5 = some m) : m.rest.length < r5.length + 1 := by
  rw [matchPropBrace] at h
  split at h
  · next r7 heq =>
      have h1 := matchPropGet_rest h
      have h2 : r7.length < (r5.dropWhile isWsChar).length := by
        rw [heq]; simp
      have := dropWhile_length_le isWsChar r5
      omega
  · exact Option.noConfusion h

lemma matchPropNm_rest {acc ty r4 : List Char} {m : PropMatch}
    (h : matchPropNm acc ty r4 = some m) : m.rest.length < r4.length + 1 := by
  rw [matchPropNm] at h
  split at h
  · exact Option.noConfusion h
  · have h1 := matchPropBrace_rest h
    have := dropWhile_length_le isWordChar r4
    omega

lemma matchPropWs2_rest {acc ty r3 : List Char} {m : PropMatch}
    (h : matchPropWs2 acc ty r3 = some m) : m.rest.length < r3.length + 1 := by
  rw [matchPropWs2] at h
  split at h
  · exact Option.noConfusion h
  · have h1 := matchPropNm_rest h
    have := dropWhile_length_le isWsChar r3
    omega

lemma matchPropTy_rest {acc r2 : List Char} {m : PropMatch}
    (h : matchPropTy acc r2 = some m) : m.rest.length < r2.length + 1 := by
  rw [matchPropTy] at h
  split at h
  · exact Option.noConfusion h
  · have h1 := matchPropWs2_rest h
    have := dropWhile_length_le (fun c => !isWsChar c) r2
    omega

lemma matchPropAt_rest {s : List Char} {m : PropMatch}
    (h : matchPropAt s = some m) : m.rest.length < s.length := by
  rw [matchPropAt] at h
  split at h
  · exact Option.noConfusion h
  · next r1 heq =>
      split at h
      · exact Option.noConfusion h
      · have h1 := matchPropTy_rest h
        have h2 : r1.length + 6 = s.length := by
          have := congrArg List.length (dropLit_eq_some.mp heq)
          simpa using this.symm
        have := dropWhile_length_le isWsChar r1
        omega

/-- Global replace of the property regex through a callback
(`match`, `type`, `name`) ↦ replacement.  The fuel argument (instantiated with the text
length, which bounds the number of scanning steps) keeps the recursion structural so
that the scanner evaluates by kernel reduction. -/
def replacePropsFuel (f : List Char → List Char → List Char → List Char) :
    Nat → List Char → List Char
  | _, [] => []
  | 0, s => s
  | fuel + 1, c :: cs =>
      match matchPropAt (c :: cs) with
      | some m => f m.matched m.ptype m.pname ++ replacePropsFuel f fuel m.rest
      | none => c :: replacePropsFuel f fuel cs

def replaceProps (f : List Char → List Char → List Char → List Char)
    (s : List Char) : List Char :=
  replacePropsFuel f s.length s

/-- The successive matches the global replace visits. -/
def matchedPropsFuel : Nat → List Char → List PropMatch
  | _, [] => []
  | 0, _ => []
  | fuel + 1, c :: cs =>
      match matchPropAt (c :: cs) with
      | some m => m :: matchedPropsFuel fuel m.rest
      | none => matchedPropsFuel fuel cs

def matchedProps (s : List Char) : List PropMatch :=
  matchedPropsFuel s.length s

lemma replacePropsFuel_mono (f : List Char → List Char → List Char → List Char) :
    ∀ (n₁ n₂ : Nat) (s : List Char), s.length ≤ n₁ → s.length ≤ n₂ →
      replacePropsFuel f n₁ s = replacePropsFuel f n₂ s := by
  intro n₁
  induction n₁ with
  | zero =>
      intro n₂ s hs₁ hs₂
      cases s with
      | nil => cases n₂ <;> rfl
      | cons c cs => simp at hs₁
  | succ n ih =>
      intro n₂ s hs₁ hs₂
      cases s with
      | nil => cases n₂ <;> rfl
      | cons c cs =>
          simp only [List.length_cons] at hs₁ hs₂
          cases n₂ with
          | zero => omega
          | succ k =>
              rw [replacePropsFuel, replacePropsFuel]
              cases hm : matchPropAt (c :: cs) with
              | some m =>
                  have h1 : m.rest.length < (c :: cs).length := matchPropAt_rest hm
                  simp only [List.length_cons] at h1
                  simp only []
                  rw [ih k m.rest (by omega) (by omega)]
              | none =>
                  simp only []
                  rw [ih k cs (by omega) (by omega)]

lemma replaceProps_cons_match {f : List Char → List Char → List Char → List Char}
    {c : Char} {cs : List Char} {m : PropMatch} (h : matchPropAt (c :: cs) = some m) :
    replaceProps f (c :: cs) = f m.matched m.ptype m.pname ++ replaceProps f m.rest := by
  rw [replaceProps, replaceProps]
  simp only [List.length_cons]
  rw [replacePropsFuel]
  simp only [h]
  have h1 : m.rest.length < (c :: cs).length := matchPropAt_rest h
  simp only [List.length_cons] at h1
  rw [replacePropsFuel_mono f cs.length m.rest.length m.rest (by omega) (by omega)]

lemma replaceProps_cons_none {f : List Char → List Char → List Char → List Char}
    {c : Char} {cs : List Char} (h : matchPropAt (c :: cs) = none) :
    replaceProps f (c :: cs) = c :: replaceProps f cs := by
  rw [replaceProps, replaceProps]
  simp only [List.length_cons]
  rw [replacePropsFuel]
  simp only [h]

lemma matchedPropsFuel_mono :
    ∀ (n₁ n₂ : Nat) (s : List Char), s.length ≤ n₁ → s.length ≤ n₂ →
      matchedPropsFuel n₁ s = matchedPropsFuel n₂ s := by
  intro n₁
  induction n₁ with
  | zero =>
      intro n₂ s hs₁ hs₂
      cases s with
      | nil => cases n₂ <;> rfl
      | cons c cs => simp at hs₁
  | succ n ih =>
      intro n₂ s hs₁ hs₂
      cases s with
      | nil => cases n₂ <;> rfl
      | cons c cs =>
          simp only [List.length_cons] at hs₁ hs₂
          cases n₂ with
          | zero => omega
          | succ k =>
              rw [matchedPropsFuel, matchedPropsFuel]
              cases hm : matchPropAt (c :: cs) with
              | some m =>
                  have h1 : m.rest.length < (c :: cs).length := matchPropAt_rest hm
                  simp only [List.length_cons] at h1
                  simp only []
                  rw [ih k m.rest (by omega) (by omega)]
              | none =>
                  simp only []
                  rw [ih k cs (by omega) (by omega)]

lemma matchedProps_cons_match {c : Char} {cs : List Char} {m : PropMatch}
    (h : matchPropAt (c :: cs) = some m) :
    matchedProps (c :: cs) = m :: matchedProps m.rest := by
  rw [matchedProps, matchedProps]
  simp only [List.length_cons]
  rw [matchedPropsFuel]
  simp only [h]
  have h1 : m.rest.length < (c :: cs).length := matchPropAt_rest h
  simp only [List.length_cons] at h1
  rw [matchedPropsFuel_mono cs.length m.rest.length m.rest (by omega) (by omega)]

lemma matchedProps_cons_none {c : Char} {cs : List Char}
    (h : matchPropAt (c :: cs) = none) : matchedProps (c :: cs) = matchedProps cs := by
  rw [matchedProps, matchedProps]
  simp only [List.length_cons]
  rw [matchedPropsFuel]
  simp only [h]

/-- C# value types that need no nullable annotation (converter.ts 280-290). -/
def VALUE_TYPES : List (List Char) :=
  ["bool".data, "byte".data, "sbyte".data, "short".data, "ushort".data, "int".data,
    "uint".data, "long".data, "ulong".data, "float".data, "double".data, "decimal".data,
    "char".data, "DateTime".data, "DateTimeOffset".data, "TimeSpan".data, "Guid".data]

/-- `type.replace(/<.*>/, '')`: remove from the first `<` through the last `>` after it
(one match, `.` does not cross a newline — type tokens are `\S+` and contain none). -/
def stripGenericPart (t : List Char) : List Char :=
  if (t.dropWhile (fun c => c ≠ '<')).isEmpty then t
  else if ((t.dropWhile (fun c => c ≠ '<')).reverse.takeWhile (fun c => c ≠ '>')).length
      = (t.dropWhile (fun c => c ≠ '<')).length then t
  else t.takeWhile (fun c => c ≠ '<')
    ++ ((t.dropWhile (fun c => c ≠ '<')).reverse.takeWhile (fun c => c ≠ '>')).reverse

/-- The replacement callback of `addNullableAnnotations` (converter.ts 300-314). -/
def nullableRepl (matched ty nm : List Char) : List Char :=
  if "?".data.isSuffixOf ty then matched
  else if VALUE_TYPES.contains (stripGenericPart ty) then matched
  else "public ".data ++ ty ++ '?' :: ' ' :: nm ++ " { get; set; }".data

/-- The default chosen by `addDefaultValues` for a reference type (converter.ts 338-349). -/
def defaultFor (ty : List Char) : List Char :=
  if ty = "string".data then "string.Empty".data
  else if "IEnumerable<".data.isPrefixOf ty || "List<".data.isPrefixOf ty
      || "IList<".data.isPrefixOf ty || "IReadOnlyList<".data.isPrefixOf ty
      || "[]".data.isSuffixOf ty then "[]".data
  else if ty = "object".data then "new object()".data
  else "default!".data

/-- The replacement callback of `addDefaultValues` (converter.ts 326-352). -/
def defaultRepl (matched ty nm : List Char) : List Char :=
  if "?".data.isSuffixOf ty then matched
  else if VALUE_TYPES.contains (stripGenericPart ty) then matched
  else "public ".data ++ ty ++ ' ' :: nm ++ " { get; set; } = ".data ++ defaultFor ty ++ [';']

/-- Add nullable annotations `?` to reference-type properties (converter.ts 296-315). -/
def addNullableAnnotations (code : List Char) : List Char := replaceProps nullableRepl code

/-- Add default values to reference-type properties (converter.ts 322-353). -/
def addDefaultValues (code : List Char) : List Char := replaceProps defaultRepl code

/-! A successful property match consumes exactly its matched text: the input is the
matched text followed by the rest. -/

lemma matchPropClose_split {acc ty nm r11 : List Char} {m : PropMatch}
    (h : matchPropClose acc ty nm r11 = some m) :
    m.matched ++ m.rest = acc ++ r11 ∧ m.ptype = ty ∧ m.pname = nm := by
  rw [matchPropClose] at h
  split at h
  · next r13 heq =>
      injection h with h'
      subst h'
      refine ⟨?_, rfl, rfl⟩
      have hx : r11.takeWhile isWsChar ++ '}' :: r13 = r11 := by
        conv_rhs => rw [← List.takeWhile_append_dropWhile (p := isWsChar) (l := r11)]
        rw [heq]
      simp only []
      conv_rhs => rw [← hx]
      simp [List.append_assoc]
  · exact Option.noConfusion h

lemma matchPropSet_split {acc ty nm r9 : List Char} {m : PropMatch}
    (h : matchPropSet acc ty nm r9 = some m) :
    m.matched ++ m.rest = acc ++ r9 ∧ m.ptype = ty ∧ m.pname = nm := by
  rw [matchPropSet] at h
  split at h
  · next r11 heq =>
      obtain ⟨h1, h2, h3⟩ := matchPropClose_split h
      refine ⟨?_, h2, h3⟩
      rw [h1]
      have hdw := dropLit_eq_some.mp heq
      have hx : r9.takeWhile isWsChar ++ ("set;".data ++ r11) = r9 := by
        conv_rhs => rw [← List.takeWhile_append_dropWhile (p := isWsChar) (l := r9)]
        rw [hdw]
      conv_rhs => rw [← hx]
      simp [List.append_assoc]
  · exact Option.noConfusion h

lemma matchPropGet_split {acc ty nm r7 : List Char} {m : PropMatch}
    (h : matchPropGet acc ty nm r7 = some m) :
    m.matched ++ m.rest = acc ++ r7 ∧ m.ptype = ty ∧ m.pname = nm := by
  rw [matchPropGet] at h
  split at h
  · next r9 heq =>
      obtain ⟨h1, h2, h3⟩ := matchPropSet_split h
      refine ⟨?_, h2, h3⟩
      rw [h1]
      have hdw := dropLit_eq_some.mp heq
      have hx : r7.takeWhile isWsChar ++ ("get;".data ++ r9) = r7 := by
        conv_rhs => rw [← List.takeWhile_append_dropWhile (p := isWsChar) (l := r7)]
        rw [hdw]
      conv_rhs => rw [← hx]
      simp [List.append_assoc]
  · exact Option.noConfusion h

lemma matchPropBrace_split {acc ty nm r5 : List Char} {m : PropMatch}
    (h : matchPropBrace acc ty nm r5 = some m) :
    m.matched ++ m.rest = acc ++ r5 ∧ m.ptype = ty ∧ m.pname = nm := by
  rw [matchPropBrace] at h
  split at h
  · next r7 heq =>
      obtain ⟨h1, h2, h3⟩ := matchPropGet_split h
      refine ⟨?_, h2, h3⟩
      rw [h1]
      have hx : r5.takeWhile isWsChar ++ '{' :: r7 = r5 := by
        conv_rhs => rw [← List.takeWhile_append_dropWhile (p := isWsChar) (l := r5)]
        rw [heq]
      conv_rhs => rw [← hx]
      simp [List.append_assoc]
  · exact Option.noConfusion h

lemma matchPropNm_split {acc ty r4 : List Char} {m : PropMatch}
    (h : matchPropNm acc ty r4 = some m) :
    m.matched ++ m.rest = acc ++ r4 ∧ m.ptype = ty ∧ m.pname = r4.takeWhile isWordChar := by
  rw [matchPropNm] at h
  split at h
  · exact Option.noConfusion h
  · obtain ⟨h1, h2, h3⟩ := matchPropBrace_split h
    refine ⟨?_, h2, h3⟩
    rw [h1]
    conv_rhs => rw [← List.takeWhile_append_dropWhile (p := isWordChar) (l := r4)]
    simp [List.append_assoc]

lemma matchPropWs2_split {acc ty r3 : List Char} {m : PropMatch}
    (h : matchPropWs2 acc ty r3 = some m) :
    m.matched ++ m.rest = acc ++ r3 ∧ m.ptype = ty := by
  rw [matchPropWs2] at h
  split at h
  · exact Option.noConfusion h
  · obtain ⟨h1, h2, h3⟩ := matchPropNm_split h
    refine ⟨?_, h2⟩
    rw [h1]
    conv_rhs => rw [← List.takeWhile_append_dropWhile (p := isWsChar) (l := r3)]
    simp [List.append_assoc]

lemma matchPropTy_split {acc r2 : List Char} {m : PropMatch}
    (h : matchPropTy acc r2 = some m) :
    m.matched ++ m.rest = acc ++ r2
      ∧ m.ptype = r2.takeWhile (fun c => !isWsChar c) := by
  rw [matchPropTy] at h
  split at h
  · exact Option.noConfusion h
  · obtain ⟨h1, h2⟩ := matchPropWs2_split h
    refine ⟨?_, h2⟩
    rw [h1]
    conv_rhs => rw [← List.takeWhile_append_dropWhile (p := fun c => !isWsChar c) (l := r2)]
    simp [List.append_assoc]

lemma matchPropAt_split {s : List Char} {m : PropMatch}
    (h : matchPropAt s = some m) : m.matched ++ m.rest = s := by
  rw [matchPropAt] at h
  split at h
  · exact Option.noConfusion h
  · next r1 heq =>
      split at h
      · exact Option.noConfusion h
      · obtain ⟨h1, _⟩ := matchPropTy_split h
        rw [h1]
        have hdw := dropLit_eq_some.mp heq
        have hx : "public".data ++ (r1.takeWhile isWsChar ++ r1.dropWhile isWsChar) = s := by
          rw [List.takeWhile_append_dropWhile]
          exact (dropLit_eq_some.mp heq).symm
        conv_rhs => rw [← hx]
        simp [List.append_assoc]

/-- If the callback fixes every match occurring in a text, the global replace is the
identity on that text. -/
lemma replaceProps_id {f : List Char → List Char → List Char → List Char} :
    ∀ s : List Char, (∀ m ∈ matchedProps s, f m.matched m.ptype m.pname = m.matched) →
      replaceProps f s = s := by
  have main : ∀ (n : Nat) (s : List Char), s.length ≤ n →
      (∀ m ∈ matchedProps s, f m.matched m.ptype m.pname = m.matched) →
      replaceProps f s = s := by
    intro n
    induction n with
    | zero =>
        intro s hs _
        cases s with
        | nil => rfl
        | cons c cs => simp at hs
    | succ k ih =>
        intro s hs hm
        cases s with
        | nil => rfl
        | cons c cs =>
            simp only [List.length_cons] at hs
            cases hmt : matchPropAt (c :: cs) with
            | some m =>
                rw [replaceProps_cons_match hmt]
                have hmem : m ∈ matchedProps (c :: cs) := by
                  rw [matchedProps_cons_match hmt]
                  exact List.mem_cons_self m _
                rw [hm m hmem]
                have hlen : m.rest.length < (c :: cs).length := matchPropAt_rest hmt
                simp only [List.length_cons] at hlen
                rw [ih m.rest (by omega) (fun m' hm' => hm m' (by
                  rw [matchedProps_cons_match hmt]
                  exact List.mem_cons_of_mem m hm'))]
                exact matchPropAt_split hmt
            | none =>
                rw [replaceProps_cons_none hmt]
                rw [ih cs (by omega) (fun m' hm' => hm m' (by
                  rw [matchedProps_cons_none hmt]
                  exact hm'))]
  intro s
  exact main s.length s le_rfl

/-! Evaluating the scanner on the renderer's property shape
`public TY NM { get; set; }` (one space everywhere, type and name captured). -/

lemma publicData : ("public".data : List Char) = ['p', 'u', 'b', 'l', 'i', 'c'] := rfl

/-- The canonical single-line property text `public TY NM { get; set; }` emitted by the
renderer, with the trailing accessor block spelled out character by character. -/
def renderProp (ty nm : List Char) : List Char :=
  'p' :: 'u' :: 'b' :: 'l' :: 'i' :: 'c' :: ' ' ::
    (ty ++ ' ' :: (nm ++ (' ' :: '{' :: ' ' :: 'g' :: 'e' :: 't' :: ';' :: ' ' ::
      's' :: 'e' :: 't' :: ';' :: ' ' :: '}' :: [])))

lemma renderProp_spelling :
    renderProp "long".data "Id".data = "public long Id { get; set; }".data := by decide

lemma takeWhile_stop {p : Char → Bool} {a : List Char} (b : List Char) (hne : a ≠ [])
    (h : ∀ c ∈ a, p c = false) :
    (a ++ b).takeWhile p = [] ∧ (a ++ b).dropWhile p = a ++ b := by
  cases a with
  | nil => exact absurd rfl hne
  | cons c a' =>
      rw [List.cons_append, List.takeWhile_cons, List.dropWhile_cons,
        h c (List.mem_cons_self c a')]
      simp

lemma takeWhile_all_good (p : Char → Bool) (a : List Char) (e : Char) (b : List Char)
    (ha : ∀ c ∈ a, p c = true) (hc : p e = false) :
    (a ++ e :: b).takeWhile p = a ∧ (a ++ e :: b).dropWhile p = e :: b := by
  refine ⟨?_, dropWhile_all_head b ha hc⟩
  induction a with
  | nil => simp [List.takeWhile_cons, hc]
  | cons c a' ih =>
      rw [List.cons_append, List.takeWhile_cons, ha c (List.mem_cons_self c a'),
        ih (fun x hx => ha x (List.mem_cons.mpr (Or.inr hx)))]
      simp

lemma matchPropAt_render {ty nm : List Char} (rest : List Char)
    (hty : ty ≠ []) (htyc : ∀ c ∈ ty, isWsChar c = false)
    (hnm : nm ≠ []) (hnmc : ∀ c ∈ nm, isWordChar c = true) :
    matchPropAt (renderProp ty nm ++ rest) = some ⟨renderProp ty nm, ty, nm, rest⟩ := by
  have hnmw : ∀ c ∈ nm, isWsChar c = false := fun c hc => isWordChar_not_ws (hnmc c hc)
  rw [matchPropAt]
  have h0 : dropLit "public".data (renderProp ty nm ++ rest)
      = some (' ' :: (ty ++ ' ' :: (nm ++ (' ' :: '{' :: ' ' :: 'g' :: 'e' :: 't' :: ';' :: ' ' ::
          's' :: 'e' :: 't' :: ';' :: ' ' :: '}' :: rest)))) := by
    apply dropLit_eq_some.mpr
    simp [renderProp, publicData, List.append_assoc]
  simp only [h0]
  have hW : (ty ++ ' ' :: (nm ++ (' ' :: '{' :: ' ' :: 'g' :: 'e' :: 't' :: ';' :: ' ' ::
      's' :: 'e' :: 't' :: ';' :: ' ' :: '}' :: rest))).takeWhile isWsChar = [] :=
    (takeWhile_stop _ hty htyc).1
  have hW' : (ty ++ ' ' :: (nm ++ (' ' :: '{' :: ' ' :: 'g' :: 'e' :: 't' :: ';' :: ' ' ::
      's' :: 'e' :: 't' :: ';' :: ' ' :: '}' :: rest))).dropWhile isWsChar
      = ty ++ ' ' :: (nm ++ (' ' :: '{' :: ' ' :: 'g' :: 'e' :: 't' :: ';' :: ' ' ::
        's' :: 'e' :: 't' :: ';' :: ' ' :: '}' :: rest)) :=
    (takeWhile_stop _ hty htyc).2
  rw [List.takeWhile_cons, List.dropWhile_cons]
  rw [show isWsChar ' ' = true from rfl, hW, hW']
  simp only [if_true, List.isEmpty_cons, Bool.false_eq_true, if_false]
  rw [matchPropTy]
  have hTy := takeWhile_all_good (fun c => !isWsChar c) ty ' '
    (nm ++ (' ' :: '{' :: ' ' :: 'g' :: 'e' :: 't' :: ';' :: ' ' ::
      's' :: 'e' :: 't' :: ';' :: ' ' :: '}' :: rest))
    (fun c hc => by simp [htyc c hc]) (by decide)
  rw [hTy.1, hTy.2]
  rw [if_neg (by simpa [List.isEmpty_iff] using hty)]
  rw [matchPropWs2]
  have hNmStop := takeWhile_stop (p := isWsChar)
    (' ' :: '{' :: ' ' :: 'g' :: 'e' :: 't' :: ';' :: ' ' ::
      's' :: 'e' :: 't' :: ';' :: ' ' :: '}' :: rest) hnm hnmw
  rw [List.takeWhile_cons, List.dropWhile_cons]
  rw [show isWsChar ' ' = true from rfl, hNmStop.1, hNmStop.2]
  simp only [if_true, List.isEmpty_cons, Bool.false_eq_true, if_false]
  rw [matchPropNm]
  have hNm := takeWhile_all_good isWordChar nm ' '
    ('{' :: ' ' :: 'g' :: 'e' :: 't' :: ';' :: ' ' ::
      's' :: 'e' :: 't' :: ';' :: ' ' :: '}' :: rest) hnmc (by decide)
  rw [hNm.1, hNm.2]
  rw [if_neg (by simpa [List.isEmpty_iff] using hnm)]
  simp +decide [matchPropBrace, matchPropGet, matchPropSet, matchPropClose,
    List.takeWhile_cons, List.dropWhile_cons, dropLit, isWsChar, renderProp, publicData,
    List.append_assoc]

lemma publicSpaceData :
    ("public ".data : List Char) = ['p', 'u', 'b', 'l', 'i', 'c', ' '] := rfl

lemma matchPropAt_ne {c : Char} (cs : List Char) (h : c ≠ 'p') :
    matchPropAt (c :: cs) = none := by
  rw [matchPropAt]
  have hd : dropLit "public".data (c :: cs) = none := by
    rw [publicData, dropLit, if_neg h]
  simp only [hd]

lemma replaceProps_skip {f : List Char → List Char → List Char → List Char} {c : Char}
    (cs : List Char) (h : c ≠ 'p') : replaceProps f (c :: cs) = c :: replaceProps f cs :=
  replaceProps_cons_none (matchPropAt_ne cs h)

lemma replaceProps_match' {f : List Char → List Char → List Char → List Char}
    {s : List Char} {m : PropMatch} (hne : s ≠ []) (h : matchPropAt s = some m) :
    replaceProps f s = f m.matched m.ptype m.pname ++ replaceProps f m.rest := by
  cases s with
  | nil => exact absurd rfl hne
  | cons c cs => exact replaceProps_cons_match h

/-- How to handle nullable reference types (converter.ts 123). -/
inductive NullableStyle
  | nullable | defaults
deriving DecidableEq

/-- The nullability branch of the orchestrator (converter.ts 226-230): exactly one of
the two stages runs, or neither. -/
def nullableHandling (style : Option NullableStyle) (code : List Char) : List Char :=
  match style with
  | some NullableStyle.nullable => addNullableAnnotations code
  | some NullableStyle.defaults => addDefaultValues code
  | none => code

/-- A rendered field list: each field on its own line, indented four spaces, joined by
newlines, with `g` rendering each field. -/
def renderJoin (g : List Char × List Char → List Char) :
    List (List Char × List Char) → List Char
  | [] => []
  | p :: rest =>
      match rest with
      | [] => ' ' :: ' ' :: ' ' :: ' ' :: g p
      | _ :: _ => ' ' :: ' ' :: ' ' :: ' ' :: (g p ++ '\n' :: renderJoin g rest)

/-- The renderer's baseline block of property lines for a list of (type, name) fields. -/
def renderFields (fs : List (List Char × List Char)) : List Char :=
  renderJoin (fun p => renderProp p.1 p.2) fs

/-- Wellformedness of a rendered field: nonempty whitespace-free type token, nonempty
`\w+` name. -/
def wfField (p : List Char × List Char) : Bool :=
  !p.1.isEmpty && p.1.all (fun c => !isWsChar c) && !p.2.isEmpty && p.2.all isWordChar

lemma wfField_parts {p : List Char × List Char} (h : wfField p = true) :
    p.1 ≠ [] ∧ (∀ c ∈ p.1, isWsChar c = false) ∧ p.2 ≠ [] ∧ (∀ c ∈ p.2, isWordChar c = true) := by
  rw [wfField, Bool.and_eq_true, Bool.and_eq_true, Bool.and_eq_true] at h
  obtain ⟨⟨⟨he1, ha1⟩, he2⟩, ha2⟩ := h
  refine ⟨?_, ?_, ?_, ?_⟩
  · intro hh
    rw [hh] at he1
    simp at he1
  · intro c hc
    have := List.all_eq_true.mp ha1 c hc
    simpa using this
  · intro hh
    rw [hh] at he2
    simp at he2
  · intro c hc
    exact List.all_eq_true.mp ha2 c hc

/-- The global property replace acts field-wise on a rendered field block. -/
lemma replaceProps_renderJoin (f : List Char → List Char → List Char → List Char) :
    ∀ fs : List (List Char × List Char), (∀ p ∈ fs, wfField p = true) →
      replaceProps f (renderFields fs)
        = renderJoin (fun p => f (renderProp p.1 p.2) p.1 p.2) fs := by
  intro fs
  induction fs with
  | nil => intro _; rfl
  | cons p fs' ih =>
      intro h
      obtain ⟨hty, htyc, hnm, hnmc⟩ := wfField_parts (h p (List.mem_cons_self p fs'))
      cases fs' with
      | nil =>
          have hrf : renderFields [p] = ' ' :: ' ' :: ' ' :: ' ' :: renderProp p.1 p.2 := rfl
          rw [hrf]
          rw [replaceProps_skip _ (by decide), replaceProps_skip _ (by decide),
            replaceProps_skip _ (by decide), replaceProps_skip _ (by decide)]
          have hm : matchPropAt (renderProp p.1 p.2)
              = some ⟨renderProp p.1 p.2, p.1, p.2, []⟩ := by
            have := matchPropAt_render [] hty htyc hnm hnmc
            rwa [List.append_nil] at this
          rw [replaceProps_match' (by simp [renderProp]) hm]
          rw [show replaceProps f [] = [] from rfl, List.append_nil]
          rfl
      | cons q fs'' =>
          have hrf : renderFields (p :: q :: fs'')
              = ' ' :: ' ' :: ' ' :: ' ' ::
                (renderProp p.1 p.2 ++ '\n' :: renderFields (q :: fs'')) := rfl
          rw [hrf]
          rw [replaceProps_skip _ (by decide), replaceProps_skip _ (by decide),
            replaceProps_skip _ (by decide), replaceProps_skip _ (by decide)]
          have hm : matchPropAt (renderProp p.1 p.2 ++ '\n' :: renderFields (q :: fs''))
              = some ⟨renderProp p.1 p.2, p.1, p.2, '\n' :: renderFields (q :: fs'')⟩ :=
            matchPropAt_render _ hty htyc hnm hnmc
          rw [replaceProps_match' (by simp [renderProp]) hm]
          rw [replaceProps_skip _ (by decide)]
          rw [ih (fun x hx => h x (List.mem_cons.mpr (Or.inr hx)))]
          rfl

/-- The per-field result of the nullability branch on a rendered field. -/
def fieldAfterNull (style : Option NullableStyle) (p : List Char × List Char) : List Char :=
  match style with
  | some NullableStyle.nullable => nullableRepl (renderProp p.1 p.2) p.1 p.2
  | some NullableStyle.defaults => defaultRepl (renderProp p.1 p.2) p.1 p.2
  | none => renderProp p.1 p.2

/-- Whether a property text is both marked nullable (`?` at the end of the type) and
given a default value (an `=` after the accessor block). -/
def fieldConflict (line : List Char) : Bool :=
  match matchPropAt line with
  | some m => "?".data.isSuffixOf m.ptype && ((m.rest.dropWhile isWsChar).head? == some '=')
  | none => false

lemma accessorData : (" { get; set; }".data : List Char)
    = [' ', '{', ' ', 'g', 'e', 't', ';', ' ', 's', 'e', 't', ';', ' ', '}'] := rfl

lemma accessorEqData : (" { get; set; } = ".data : List Char)
    = [' ', '{', ' ', 'g', 'e', 't', ';', ' ', 's', 'e', 't', ';', ' ', '}', ' ', '=', ' '] := rfl

lemma nullableRepl_shape (ty nm : List Char) :
    "public ".data ++ ty ++ '?' :: ' ' :: nm ++ " { get; set; }".data
      = renderProp (ty ++ ['?']) nm := by
  simp [renderProp, publicSpaceData, accessorData, List.append_assoc]

lemma defaultRepl_shape (ty nm v : List Char) :
    "public ".data ++ ty ++ ' ' :: nm ++ " { get; set; } = ".data ++ v ++ [';']
      = renderProp ty nm ++ ' ' :: '=' :: ' ' :: (v ++ [';']) := by
  simp [renderProp, publicSpaceData, accessorEqData, List.append_assoc]

/-- C5: for every rendered field list and every configuration, no field in the output
of the nullability branch is both marked with the nullable marker and given a default
value: the branch applies at most one of the two stages, each acting field-wise, and
the per-field results never combine a type ending in `?` with an `=`-initialized
accessor block — the defaults stage skips any field whose type already ends in `?`. -/
theorem c5_nullable_defaults_exclusive :
    ∀ (style : Option NullableStyle) (fs : List (List Char × List Char)),
      (∀ p ∈ fs, wfField p = true) →
      nullableHandling style (renderFields fs) = renderJoin (fieldAfterNull style) fs
        ∧ ∀ p ∈ fs, fieldConflict (fieldAfterNull style p) = false := by
  intro style fs h
  constructor
  · cases style with
    | none => rfl
    | some st =>
        cases st with
        | nullable => exact replaceProps_renderJoin nullableRepl fs h
        | defaults => exact replaceProps_renderJoin defaultRepl fs h
  · intro p hp
    obtain ⟨hty, htyc, hnm, hnmc⟩ := wfField_parts (h p hp)
    have hbase : matchPropAt (renderProp p.1 p.2)
        = some ⟨renderProp p.1 p.2, p.1, p.2, []⟩ := by
      have := matchPropAt_render [] hty htyc hnm hnmc
      rwa [List.append_nil] at this
    cases style with
    | none =>
        simp [fieldAfterNull, fieldConflict, hbase]
    | some st =>
        cases st with
        | nullable =>
            have hfa : fieldAfterNull (some NullableStyle.nullable) p
                = nullableRepl (renderProp p.1 p.2) p.1 p.2 := rfl
            rw [hfa, nullableRepl]
            by_cases h1 : "?".data.isSuffixOf p.1 = true
            · rw [if_pos h1]
              simp [fieldConflict, hbase]
            · rw [if_neg h1]
              by_cases h2 : VALUE_TYPES.contains (stripGenericPart p.1) = true
              · rw [if_pos h2]
                simp [fieldConflict, hbase]
              · rw [if_neg h2]
                rw [nullableRepl_shape]
                have hm2 : matchPropAt (renderProp (p.1 ++ ['?']) p.2)
                    = some ⟨renderProp (p.1 ++ ['?']) p.2, p.1 ++ ['?'], p.2, []⟩ := by
                  have := @matchPropAt_render (p.1 ++ ['?']) p.2 [] (by simp)
                    (fun c hc => by
                      rcases List.mem_append.mp hc with hc | hc
                      · exact htyc c hc
                      · simp at hc; subst hc; decide)
                    hnm hnmc
                  rwa [List.append_nil] at this
                simp [fieldConflict, hm2]
        | defaults =>
            have hfa : fieldAfterNull (some NullableStyle.defaults) p
                = defaultRepl (renderProp p.1 p.2) p.1 p.2 := rfl
            rw [hfa, defaultRepl]
            by_cases h1 : "?".data.isSuffixOf p.1 = true
            · rw [if_pos h1]
              simp [fieldConflict, hbase]
            · rw [if_neg h1]
              by_cases h2 : VALUE_TYPES.contains (stripGenericPart p.1) = true
              · rw [if_pos h2]
                simp [fieldConflict, hbase]
              · rw [if_neg h2]
                rw [defaultRepl_shape]
                have hm2 : matchPropAt
                    (renderProp p.1 p.2 ++ ' ' :: '=' :: ' ' :: (defaultFor p.1 ++ [';']))
                    = some ⟨renderProp p.1 p.2, p.1, p.2,
                        ' ' :: '=' :: ' ' :: (defaultFor p.1 ++ [';'])⟩ :=
                  matchPropAt_render _ hty htyc hnm hnmc
                rw [Bool.not_eq_true] at h1
                simp [fieldConflict, hm2, h1]

set_option maxRecDepth 8000 in
/-- Witness for C5: the defaults strategy on a `string` and a `long` field. -/
theorem c5_nullable_defaults_exclusive_witness :
    nullableHandling (some NullableStyle.defaults)
        (renderFields [("string".data, "Name".data), ("long".data, "Id".data)])
      = renderJoin (fieldAfterNull (some NullableStyle.defaults))
          [("string".data, "Name".data), ("long".data, "Id".data)]
    ∧ ∀ p ∈ [(("string".data : List Char), ("Name".data : List Char)),
        ("long".data, "Id".data)],
        fieldConflict (fieldAfterNull (some NullableStyle.defaults) p) = false :=
  c5_nullable_defaults_exclusive (some NullableStyle.defaults)
    [("string".data, "Name".data), ("long".data, "Id".data)] (by decide)

/-! ### Positional-record conversion (`convertToPositionalRecords`, 381-414)

The class regex `public\s+class\s+(\w+)\s*\{([\s\S]*?)\n\}` captures the class name
and the (lazy, ending at the first `\n}`) body; for each class the body is scanned with
`(?:\[(JsonPropertyName|JsonProperty)\("[^"]*"\)\]\s*\n\s*)?public\s+(\S+)\s+(\w+)\s*`
`\{\s*get;\s*set;\s*\}(?:\s*=\s*[^;]+)?` in an `exec` loop; each match contributes a
constructor parameter (the attribute carried over with the `[property:]` target, the
optional initializer consumed but never emitted). -/

/-- Match the standalone attribute regex `\[(JsonPropertyName|JsonProperty)\("([^"]*)"\)\]`
at the head: returns the attribute name, the key, and the remainder. -/
def matchAttrAt (s : List Char) : Option (List Char × List Char × List Char) :=
  match dropLit "[JsonPropertyName(\"".data s with
  | some r =>
      match dropLit "\")]".data (r.dropWhile (fun c => c ≠ '"')) with
      | some r2 => some ("JsonPropertyName".data, r.takeWhile (fun c => c ≠ '"'), r2)
      | none => none
  | none =>
      match dropLit "[JsonProperty(\"".data s with
      | some r =>
          match dropLit "\")]".data (r.dropWhile (fun c => c ≠ '"')) with
          | some r2 => some ("JsonProperty".data, r.takeWhile (fun c => c ≠ '"'), r2)
          | none => none
      | none => none

/-- The text the attribute match consumed. -/
def attrText (an key : List Char) : List Char :=
  '[' :: (an ++ '(' :: '"' :: (key ++ '"' :: ')' :: ']' :: []))

/-- The optional initializer group `(?:\s*=\s*[^;]+)?` after a property: the combined
`\s*[^;]+` consumes exactly the maximal run of non-`;` characters after the `=`,
provided it is nonempty; otherwise the group matches nothing at all. -/
def matchInitAfter (r : List Char) : List Char × List Char :=
  if (r.dropWhile isWsChar).head? = some '=' then
    if (((r.dropWhile isWsChar).tail.takeWhile (fun c => c ≠ ';'))).isEmpty then ([], r)
    else (r.takeWhile isWsChar ++ '=' :: (r.dropWhile isWsChar).tail.takeWhile (fun c => c ≠ ';'),
      (r.dropWhile isWsChar).tail.dropWhile (fun c => c ≠ ';'))
  else ([], r)

/-- The property part of the parameter regex: the property match followed by the
optional initializer group. -/
def matchPropInit (s : List Char) : Option PropMatch :=
  match matchPropAt s with
  | some m =>
      some ⟨m.matched ++ (matchInitAfter m.rest).1, m.ptype, m.pname,
        (matchInitAfter m.rest).2⟩
  | none => none

/-- Attempt the full parameter regex at the head of `s`: the optional (greedy-first)
attribute prefix requires its trailing `\s*\n\s*` run to contain a newline; if the
prefix matches but the property part does not, the regex retries without the prefix
(which then fails at the `[`, exactly as the plain attempt does). -/
def matchParamAt (s : List Char) : Option PropMatch :=
  match matchAttrAt s with
  | some (an, key, r) =>
      if (r.takeWhile isWsChar).contains '\n' then
        match matchPropInit (r.dropWhile isWsChar) with
        | some m => some ⟨attrText an key ++ r.takeWhile isWsChar ++ m.matched,
            m.ptype, m.pname, m.rest⟩
        | none => matchPropInit s
      else matchPropInit s
  | none => matchPropInit s

/-- Search the full match text for the first attribute occurrence
(source line 398: `fullMatch.match(/\[(JsonPropertyName|JsonProperty)\("([^"]*)"\)\]/)`). -/
def findAttrIn : List Char → Option (List Char × List Char)
  | [] => none
  | c :: cs =>
      match matchAttrAt (c :: cs) with
      | some (an, key, _) => some (an, key)
      | none => findAttrIn cs

/-- Build one constructor parameter from a property match (source lines 397-405). -/
def paramOf (m : PropMatch) : List Char :=
  match findAttrIn m.matched with
  | some (an, key) =>
      "[property: ".data ++ an ++ '(' :: '"' :: (key ++ '"' :: ')' :: ']' :: ' ' ::
        (m.ptype ++ ' ' :: m.pname))
  | none => m.ptype ++ ' ' :: m.pname

lemma matchAttrAt_rest {s : List Char} {an key r : List Char}
    (h : matchAttrAt s = some (an, key, r)) : r.length < s.length := by
  rw [matchAttrAt] at h
  split at h
  · next r0 heq0 =>
      split at h
      · next r2 heq2 =>
          injection h with h'
          injection h' with h1 h2
          injection h2 with h2 h3
          subst h3
          have l0 : r0.length + 19 = s.length := by
            have := congrArg List.length (dropLit_eq_some.mp heq0)
            simpa using this.symm
          have l2 : r2.length + 3 = (r0.dropWhile (fun c => c ≠ '"')).length := by
            have := congrArg List.length (dropLit_eq_some.mp heq2)
            simpa using this.symm
          have := dropWhile_length_le (fun c => c ≠ '"') r0
          omega
      · exact Option.noConfusion h
  · split at h
    · next r0 heq0 =>
        split at h
        · next r2 heq2 =>
            injection h with h'
            injection h' with h1 h2
            injection h2 with h2 h3
            subst h3
            have l0 : r0.length + 15 = s.length := by
              have := congrArg List.length (dropLit_eq_some.mp heq0)
              simpa using this.symm
            have l2 : r2.length + 3 = (r0.dropWhile (fun c => c ≠ '"')).length := by
              have := congrArg List.length (dropLit_eq_some.mp heq2)
              simpa using this.symm
            have := dropWhile_length_le (fun c => c ≠ '"') r0
            omega
        · exact Option.noConfusion h
    · exact Option.noConfusion h

lemma matchInitAfter_rest (r : List Char) : (matchInitAfter r).2.length ≤ r.length := by
  rw [matchInitAfter]
  split
  · split
    · simp
    · have h1 := dropWhile_length_le isWsChar r
      have h2 := dropWhile_length_le (fun c => c ≠ ';') (r.dropWhile isWsChar).tail
      have h3 : (r.dropWhile isWsChar).tail.length ≤ (r.dropWhile isWsChar).length :=
        (r.dropWhile isWsChar).length_tail ▸ Nat.sub_le _ _
      simp only []
      omega
  · simp

lemma matchPropInit_rest {s : List Char} {m : PropMatch}
    (h : matchPropInit s = some m) : m.rest.length < s.length := by
  rw [matchPropInit] at h
  split at h
  · next m0 heq =>
      injection h with h'
      subst h'
      have h1 := matchPropAt_rest heq
      have h2 := matchInitAfter_rest m0.rest
      simp only []
      omega
  · exact Option.noConfusion h

lemma matchParamAt_rest {s : List Char} {m : PropMatch}
    (h : matchParamAt s = some m) : m.rest.length < s.length := by
  rw [matchParamAt] at h
  split at h
  · next an key r heq =>
      split at h
      · split at h
        · next m0 heq0 =>
            injection h with h'
            subst h'
            have h1 := matchPropInit_rest heq0
            have h2 := matchAttrAt_rest heq
            have h3 := dropWhile_length_le isWsChar r
            simp only []
            omega
        · exact matchPropInit_rest h
      · exact matchPropInit_rest h
  · exact matchPropInit_rest h

/-- The `exec` loop collecting constructor parameters from a class body. -/
def extractParamsFuel : Nat → List Char → List (List Char)
  | _, [] => []
  | 0, _ => []
  | fuel + 1, c :: cs =>
      match matchParamAt (c :: cs) with
      | some m => paramOf m :: extractParamsFuel fuel m.rest
      | none => extractParamsFuel fuel cs

def extractParams (body : List Char) : List (List Char) :=
  extractParamsFuel body.length body

lemma extractParamsFuel_mono :
    ∀ (n₁ n₂ : Nat) (s : List Char), s.length ≤ n₁ → s.length ≤ n₂ →
      extractParamsFuel n₁ s = extractParamsFuel n₂ s := by
  intro n₁
  induction n₁ with
  | zero =>
      intro n₂ s hs₁ hs₂
      cases s with
      | nil => cases n₂ <;> rfl
      | cons c cs => simp at hs₁
  | succ n ih =>
      intro n₂ s hs₁ hs₂
      cases s with
      | nil => cases n₂ <;> rfl
      | cons c cs =>
          simp only [List.length_cons] at hs₁ hs₂
          cases n₂ with
          | zero => omega
          | succ k =>
              rw [extractParamsFuel, extractParamsFuel]
              cases hm : matchParamAt (c :: cs) with
              | some m =>
                  have h1 : m.rest.length < (c :: cs).length := matchParamAt_rest hm
                  simp only [List.length_cons] at h1
                  simp only []
                  rw [ih k m.rest (by omega) (by omega)]
              | none =>
                  simp only []
                  rw [ih k cs (by omega) (by omega)]

lemma extractParams_cons_match {c : Char} {cs : List Char} {m : PropMatch}
    (h : matchParamAt (c :: cs) = some m) :
    extractParams (c :: cs) = paramOf m :: extractParams m.rest := by
  rw [extractParams, extractParams]
  simp only [List.length_cons]
  rw [extractParamsFuel]
  simp only [h]
  have h1 : m.rest.length < (c :: cs).length := matchParamAt_rest h
  simp only [List.length_cons] at h1
  rw [extractParamsFuel_mono cs.length m.rest.length m.rest (by omega) (by omega)]

lemma extractParams_cons_none {c : Char} {cs : List Char}
    (h : matchParamAt (c :: cs) = none) : extractParams (c :: cs) = extractParams cs := by
  rw [extractParams, extractParams]
  simp only [List.length_cons]
  rw [extractParamsFuel]
  simp only [h]

structure ClassMatch where
  matched : List Char
  className : List Char
  body : List Char
  rest : List Char

/-- The lazy `([\s\S]*?)\n\}` part: split at the first `\n}`. -/
def splitAtNlBrace : List Char → Option (List Char × List Char)
  | [] => none
  | '\n' :: '}' :: rest => some ([], rest)
  | c :: cs =>
      match splitAtNlBrace cs with
      | some (b, r) => some (c :: b, r)
      | none => none

/-- Attempt the class regex `public\s+class\s+(\w+)\s*\{([\s\S]*?)\n\}` at the head. -/
def matchClassAt (s : List Char) : Option ClassMatch :=
  match dropLit "public".data s with
  | none => none
  | some r1 =>
      if (r1.takeWhile isWsChar).isEmpty then none
      else
        match dropLit "class".data (r1.dropWhile isWsChar) with
        | none => none
        | some r3 =>
            if (r3.takeWhile isWsChar).isEmpty then none
            else
              if ((r3.dropWhile isWsChar).takeWhile isWordChar).isEmpty then none
              else
                if ((((r3.dropWhile isWsChar).dropWhile isWordChar).dropWhile isWsChar)).head?
                    = some '{' then
                  match splitAtNlBrace
                      ((((r3.dropWhile isWsChar).dropWhile isWordChar).dropWhile isWsChar).tail) with
                  | some (body, rest) =>
                      some ⟨"public".data ++ r1.takeWhile isWsChar ++ "class".data
                          ++ r3.takeWhile isWsChar
                          ++ (r3.dropWhile isWsChar).takeWhile isWordChar
                          ++ ((r3.dropWhile isWsChar).dropWhile isWordChar).takeWhile isWsChar
                          ++ '{' :: (body ++ '\n' :: '}' :: []),
                        (r3.dropWhile isWsChar).takeWhile isWordChar, body, rest⟩
                  | none => none
                else none

lemma splitAtNlBrace_rest : ∀ (s b r : List Char),
    splitAtNlBrace s = some (b, r) → s = b ++ '\n' :: '}' :: r := by
  intro s
  induction s using splitAtNlBrace.induct with
  | case1 =>
      intro b r h
      simp [splitAtNlBrace] at h
  | case2 rest =>
      intro b r h
      simp only [splitAtNlBrace] at h
      injection h with h'
      injection h' with h1 h2
      subst h1; subst h2
      rfl
  | case3 c cs hne b' r' heq ih =>
      intro b r h
      rw [splitAtNlBrace] at h
      case x_1 => exact hne
      rw [heq] at h
      injection h with h'
      injection h' with h1 h2
      subst h2
      rw [← h1, List.cons_append, ← ih b' r' heq]
  | case4 c cs hne heq ih =>
      intro b r h
      rw [splitAtNlBrace] at h
      case x_1 => exact hne
      rw [heq] at h
      exact Option.noConfusion h

lemma matchClassAt_rest {s : List Char} {cm : ClassMatch}
    (h : matchClassAt s = some cm) : cm.rest.length < s.length := by
  rw [matchClassAt] at h
  split at h
  · exact Option.noConfusion h
  · next r1 heq1 =>
      split at h
      · exact Option.noConfusion h
      · split at h
        · exact Option.noConfusion h
        · next r3 heq3 =>
            split at h
            · exact Option.noConfusion h
            · split at h
              · exact Option.noConfusion h
              · split at h
                · next hcond =>
                    split at h
                    · next body rest heqb =>
                        injection h with h'
                        subst h'
                        have hb := splitAtNlBrace_rest _ body rest heqb
                        have l7 : rest.length + 2
                            ≤ ((((r3.dropWhile isWsChar).dropWhile isWordChar).dropWhile
                                isWsChar).tail).length := by
                          rw [hb]
                          simp
                        have l1 : r1.length + 6 = s.length := by
                          have := congrArg List.length (dropLit_eq_some.mp heq1)
                          simpa using this.symm
                        have l3 : r3.length + 5 = (r1.dropWhile isWsChar).length := by
                          have := congrArg List.length (dropLit_eq_some.mp heq3)
                          simpa using this.symm
                        have d1 := dropWhile_length_le isWsChar r1
                        have d3 := dropWhile_length_le isWordChar (r3.dropWhile isWsChar)
                        have d3' := dropWhile_length_le isWsChar r3
                        have d5 := dropWhile_length_le isWsChar
                          ((r3.dropWhile isWsChar).dropWhile isWordChar)
                        have hne : (((r3.dropWhile isWsChar).dropWhile isWordChar).dropWhile
                            isWsChar) ≠ [] := by
                          intro hh
                          rw [hh] at hcond
                          simp at hcond
                        have hpos : 0 < (((r3.dropWhile isWsChar).dropWhile
                            isWordChar).dropWhile isWsChar).length :=
                          List.length_pos.mpr hne
                        have l5 := List.length_tail
                          (((r3.dropWhile isWsChar).dropWhile isWordChar).dropWhile isWsChar)
                        simp only []
                        omega
                    · exact Option.noConfusion h
                · exact Option.noConfusion h

/-- Convert C# classes to positional records (converter.ts 381-414). -/
def convertRecordsFuel : Nat → List Char → List Char
  | _, [] => []
  | 0, s => s
  | fuel + 1, c :: cs =>
      match matchClassAt (c :: cs) with
      | some cm =>
          (if (extractParams cm.body).isEmpty then cm.matched
           else "public record ".data ++ cm.className
              ++ '(' :: (List.intercalate [',', ' '] (extractParams cm.body)
                ++ ')' :: ';' :: []))
            ++ convertRecordsFuel fuel cm.rest
      | none => c :: convertRecordsFuel fuel cs

def convertToPositionalRecords (code : List Char) : List Char :=
  convertRecordsFuel code.length code

lemma convertRecordsFuel_mono :
    ∀ (n₁ n₂ : Nat) (s : List Char), s.length ≤ n₁ → s.length ≤ n₂ →
      convertRecordsFuel n₁ s = convertRecordsFuel n₂ s := by
  intro n₁
  induction n₁ with
  | zero =>
      intro n₂ s hs₁ hs₂
      cases s with
      | nil => cases n₂ <;> rfl
      | cons c cs => simp at hs₁
  | succ n ih =>
      intro n₂ s hs₁ hs₂
      cases s with
      | nil => cases n₂ <;> rfl
      | cons c cs =>
          simp only [List.length_cons] at hs₁ hs₂
          cases n₂ with
          | zero => omega
          | succ k =>
              rw [convertRecordsFuel, convertRecordsFuel]
              cases hm : matchClassAt (c :: cs) with
              | some cm =>
                  have h1 : cm.rest.length < (c :: cs).length := matchClassAt_rest hm
                  simp only [List.length_cons] at h1
                  simp only []
                  rw [ih k cm.rest (by omega) (by omega)]
              | none =>
                  simp only []
                  rw [ih k cs (by omega) (by omega)]

lemma convertRecords_cons_match {c : Char} {cs : List Char} {cm : ClassMatch}
    (h : matchClassAt (c :: cs) = some cm) :
    convertToPositionalRecords (c :: cs)
      = (if (extractParams cm.body).isEmpty then cm.matched
          else "public record ".data ++ cm.className
            ++ '(' :: (List.intercalate [',', ' '] (extractParams cm.body)
              ++ ')' :: ';' :: []))
        ++ convertToPositionalRecords cm.rest := by
  rw [convertToPositionalRecords, convertToPositionalRecords]
  simp only [List.length_cons]
  rw [convertRecordsFuel]
  simp only [h]
  have h1 : cm.rest.length < (c :: cs).length := matchClassAt_rest h
  simp only [List.length_cons] at h1
  rw [convertRecordsFuel_mono cs.length cm.rest.length cm.rest (by omega) (by omega)]

lemma convertRecords_cons_none {c : Char} {cs : List Char}
    (h : matchClassAt (c :: cs) = none) :
    convertToPositionalRecords (c :: cs) = c :: convertToPositionalRecords cs := by
  rw [convertToPositionalRecords, convertToPositionalRecords]
  simp only [List.length_cons]
  rw [convertRecordsFuel]
  simp only [h]

/-! ### Remaining rewrite stages and the orchestrator -/

/-- Attempt `public\s+partial\s+class` at the head, returning the remainder. -/
def matchPartialKwAt (s : List Char) : Option (List Char) :=
  match dropLit "public".data s with
  | none => none
  | some r1 =>
      if (r1.takeWhile isWsChar).isEmpty then none
      else
        match dropLit "partial".data (r1.dropWhile isWsChar) with
        | none => none
        | some r2 =>
            if (r2.takeWhile isWsChar).isEmpty then none
            else dropLit "class".data (r2.dropWhile isWsChar)

lemma matchPartialKwAt_rest {s r : List Char} (h : matchPartialKwAt s = some r) :
    r.length < s.length := by
  rw [matchPartialKwAt] at h
  split at h
  · exact Option.noConfusion h
  · next r1 heq1 =>
      split at h
      · exact Option.noConfusion h
      · split at h
        · exact Option.noConfusion h
        · next r2 heq2 =>
            split at h
            · exact Option.noConfusion h
            · have l1 : r1.length + 6 = s.length := by
                have := congrArg List.length (dropLit_eq_some.mp heq1)
                simpa using this.symm
              have l2 : r2.length + 7 = (r1.dropWhile isWsChar).length := by
                have := congrArg List.length (dropLit_eq_some.mp heq2)
                simpa using this.symm
              have l3 : r.length + 5 = (r2.dropWhile isWsChar).length := by
                have := congrArg List.length (dropLit_eq_some.mp h)
                simpa using this.symm
              have d1 := dropWhile_length_le isWsChar r1
              have d2 := dropWhile_length_le isWsChar r2
              omega

/-- `output.replace(/public\s+partial\s+class/g, 'public class')` (converter.ts 233). -/
def removePartialKwFuel : Nat → List Char → List Char
  | _, [] => []
  | 0, s => s
  | fuel + 1, c :: cs =>
      match matchPartialKwAt (c :: cs) with
      | some r => "public class".data ++ removePartialKwFuel fuel r
      | none => c :: removePartialKwFuel fuel cs

def removePartialModifier (code : List Char) : List Char :=
  removePartialKwFuel code.length code

/-- Attempt `public\s+class\s+(\w+)` at the head, returning the captured name and the
remainder. -/
def matchClassKwAt (s : List Char) : Option (List Char × List Char) :=
  match dropLit "public".data s with
  | none => none
  | some r1 =>
      if (r1.takeWhile isWsChar).isEmpty then none
      else
        match dropLit "class".data (r1.dropWhile isWsChar) with
        | none => none
        | some r2 =>
            if (r2.takeWhile isWsChar).isEmpty then none
            else
              if ((r2.dropWhile isWsChar).takeWhile isWordChar).isEmpty then none
              else some ((r2.dropWhile isWsChar).takeWhile isWordChar,
                (r2.dropWhile isWsChar).dropWhile isWordChar)

lemma matchClassKwAt_rest {s nm r : List Char} (h : matchClassKwAt s = some (nm, r)) :
    r.length < s.length := by
  rw [matchClassKwAt] at h
  split at h
  · exact Option.noConfusion h
  · next r1 heq1 =>
      split at h
      · exact Option.noConfusion h
      · split at h
        · exact Option.noConfusion h
        · next r2 heq2 =>
            split at h
            · exact Option.noConfusion h
            · split at h
              · exact Option.noConfusion h
              · injection h with h'
                injection h' with h1 h2
                subst h2
                have l1 : r1.length + 6 = s.length := by
                  have := congrArg List.length (dropLit_eq_some.mp heq1)
                  simpa using this.symm
                have l2 : r2.length + 5 = (r1.dropWhile isWsChar).length := by
                  have := congrArg List.length (dropLit_eq_some.mp heq2)
                  simpa using this.symm
                have d1 := dropWhile_length_le isWsChar r1
                have d2 := dropWhile_length_le isWsChar r2
                have d3 := dropWhile_length_le isWordChar (r2.dropWhile isWsChar)
                omega

/-- `output.replace(/public\s+class\s+(\w+)/g, 'public record $1')` (converter.ts 239). -/
def replaceClassKwFuel : Nat → List Char → List Char
  | _, [] => []
  | 0, s => s
  | fuel + 1, c :: cs =>
      match matchClassKwAt (c :: cs) with
      | some (nm, r) => "public record ".data ++ nm ++ replaceClassKwFuel fuel r
      | none => c :: replaceClassKwFuel fuel cs

def replaceClassKeyword (code : List Char) : List Char :=
  replaceClassKwFuel code.length code

/-- Style of generated types (converter.ts 118). -/
inductive TypeStyle
  | classStyle | recordPositional | recordProperties
deriving DecidableEq

/-- Serialization framework for property attributes (converter.ts 128). -/
inductive SerializationAttributes
  | SystemTextJson | NewtonsoftJson
deriving DecidableEq

/-- The using statement prepended for the framework (converter.ts 249-251). -/
def usingStatementFor : SerializationAttributes → List Char
  | SerializationAttributes.SystemTextJson => "using System.Text.Json.Serialization;".data
  | SerializationAttributes.NewtonsoftJson => "using Newtonsoft.Json;".data

/-- JavaScript `String.prototype.trim` (`output.trim()`, converter.ts 255). -/
def trimJS (s : List Char) : List Char :=
  ((s.dropWhile isWsChar).reverse.dropWhile isWsChar).reverse

/-- Stage 1: remove redundant attributes unless disabled (converter.ts 216-218). -/
def attrStage (sa : Option SerializationAttributes) (always : Bool) (code : List Char) :
    List Char :=
  if sa.isSome && !always then removeRedundantAttributes code else code

/-- Stage 2: convert the collection type unless it is `Array` (converter.ts 221-223). -/
def collectionStage (ct : CollectionType) (code : List Char) : List Char :=
  if ct ≠ CollectionType.Array then convertCollectionType code ct else code

/-- Stage 5: convert the type style (converter.ts 236-240). -/
def typeStyleStage (ts : TypeStyle) (code : List Char) : List Char :=
  match ts with
  | TypeStyle.recordPositional => convertToPositionalRecords code
  | TypeStyle.recordProperties => replaceClassKeyword code
  | TypeStyle.classStyle => code

/-- Stage 6a: prepend the file-scoped namespace if provided (converter.ts 243-245). -/
def namespaceStage (ns : Option (List Char)) (code : List Char) : List Char :=
  match ns with
  | some n => "namespace ".data ++ n ++ ';' :: '\n' :: '\n' :: code
  | none => code

/-- Stage 6b: prepend the framework using when serialization attributes are present and
a namespace is included (converter.ts 248-253). -/
def usingStage (sa : Option SerializationAttributes) (ns : Option (List Char))
    (code : List Char) : List Char :=
  match sa, ns with
  | some a, some _ => usingStatementFor a ++ '\n' :: '\n' :: code
  | _, _ => code

/-- The post-processing chain of `convertJsonToCSharp` (converter.ts 213-255), applied
to the text rendered by the quicktype engine. -/
def convertJsonToCSharp (rendered : List Char) (collectionType : CollectionType)
    (typeStyle : TypeStyle) (nullableStyle : Option NullableStyle)
    (ns : Option (List Char)) (serializationAttributes : Option SerializationAttributes)
    (alwaysRenderAttributes : Bool) : List Char :=
  let o1 := if serializationAttributes.isSome && !alwaysRenderAttributes
    then removeRedundantAttributes rendered else rendered
  let o2 := if collectionType ≠ CollectionType.Array
    then convertCollectionType o1 collectionType else o1
  let o3 := nullableHandling nullableStyle o2
  let o4 := removePartialModifier o3
  let o5 := match typeStyle with
    | TypeStyle.recordPositional => convertToPositionalRecords o4
    | TypeStyle.recordProperties => replaceClassKeyword o4
    | TypeStyle.classStyle => o4
  let o6 := match ns with
    | some n => "namespace ".data ++ n ++ ';' :: '\n' :: '\n' :: o5
    | none => o5
  let o7 := match serializationAttributes, ns with
    | some sa, some _ => usingStatementFor sa ++ '\n' :: '\n' :: o6
    | _, _ => o6
  trimJS o7

/-- C6: the nullable stage and the defaults stage act field-wise on any rendered block
of well-formed fields — value types and reference types mixed freely — and on every
field whose base type (generic arguments stripped) lies in the fixed value-type set
both per-field callbacks return the field's line unchanged: such a field never
receives a nullable marker or a default initializer, whatever the other fields of the
document are and under either configuration (converter.ts 280-290, 305-314, 326-352).
-/
theorem c6_value_types_exempt :
    ∀ fs : List (List Char × List Char), (∀ p ∈ fs, wfField p = true) →
      (addNullableAnnotations (renderFields fs)
          = renderJoin (fun p => nullableRepl (renderProp p.1 p.2) p.1 p.2) fs
        ∧ addDefaultValues (renderFields fs)
          = renderJoin (fun p => defaultRepl (renderProp p.1 p.2) p.1 p.2) fs)
      ∧ ∀ p ∈ fs, VALUE_TYPES.contains (stripGenericPart p.1) = true →
          nullableRepl (renderProp p.1 p.2) p.1 p.2 = renderProp p.1 p.2
          ∧ defaultRepl (renderProp p.1 p.2) p.1 p.2 = renderProp p.1 p.2 := by
  intro fs hwf
  refine ⟨⟨replaceProps_renderJoin nullableRepl fs hwf,
    replaceProps_renderJoin defaultRepl fs hwf⟩, ?_⟩
  intro p hp hv
  constructor
  · rw [nullableRepl]
    by_cases hq : "?".data.isSuffixOf p.1 = true
    · rw [if_pos hq]
    · rw [if_neg hq, if_pos hv]
  · rw [defaultRepl]
    by_cases hq : "?".data.isSuffixOf p.1 = true
    · rw [if_pos hq]
    · rw [if_neg hq, if_pos hv]

set_option maxRecDepth 8000 in
/-- Witness for C6 on a mixed document: an `int` field rendered alongside a `string`
and a `List<string>` field; both stages act field-wise on the whole document and the
`int` field's line is returned unchanged by both callbacks. -/
theorem c6_value_types_exempt_witness :
    (addNullableAnnotations (renderFields
          [("int".data, "Id".data), ("string".data, "Name".data),
            ("List<string>".data, "Items".data)])
        = renderJoin (fun p => nullableRepl (renderProp p.1 p.2) p.1 p.2)
            [("int".data, "Id".data), ("string".data, "Name".data),
              ("List<string>".data, "Items".data)]
      ∧ addDefaultValues (renderFields
          [("int".data, "Id".data), ("string".data, "Name".data),
            ("List<string>".data, "Items".data)])
        = renderJoin (fun p => defaultRepl (renderProp p.1 p.2) p.1 p.2)
            [("int".data, "Id".data), ("string".data, "Name".data),
              ("List<string>".data, "Items".data)])
    ∧ (nullableRepl (renderProp "int".data "Id".data) "int".data "Id".data
        = renderProp "int".data "Id".data
      ∧ defaultRepl (renderProp "int".data "Id".data) "int".data "Id".data
        = renderProp "int".data "Id".data) :=
  ⟨(c6_value_types_exempt
      [("int".data, "Id".data), ("string".data, "Name".data),
        ("List<string>".data, "Items".data)] (by decide)).1,
    (c6_value_types_exempt
      [("int".data, "Id".data), ("string".data, "Name".data),
        ("List<string>".data, "Items".data)] (by decide)).2
      ("int".data, "Id".data) (by decide) (by decide)⟩

/-! ### C1, C8, C3 -/

set_option maxRecDepth 8000 in
/-- C1: the using-statement emission (converter.ts 242-253) does NOT behave as the
specification describes. On a conversion whose output contains the multi-argument
collection spelling `IEnumerable<` and carries a namespace, the final output contains
no `using` line at all (the code prepends at most the single serialization-framework
using, and only when serialization attributes are enabled; it never inspects the text
for collection spellings and never emits `using System.Collections.Generic;`, let
alone a lexicographically sorted group of import lines). -/
theorem c1_using_lines_never_collected :
    convertJsonToCSharp
        "public class Root\n\x7b\n    public List<string> Items \x7b get; set; \x7d\n\x7d".data
        CollectionType.IEnumerable TypeStyle.classStyle none (some "Ns".data) none false
      = ("namespace Ns;\n\npublic class Root\n\x7b\n"
          ++ "    public IEnumerable<string> Items \x7b get; set; \x7d\n\x7d").data
    ∧ wbOccurs iEnumerablePat
        (convertJsonToCSharp
          "public class Root\n\x7b\n    public List<string> Items \x7b get; set; \x7d\n\x7d".data
          CollectionType.IEnumerable TypeStyle.classStyle none (some "Ns".data) none false)
      = true
    ∧ ¬ ("using".data <:+:
        convertJsonToCSharp
          "public class Root\n\x7b\n    public List<string> Items \x7b get; set; \x7d\n\x7d".data
          CollectionType.IEnumerable TypeStyle.classStyle none (some "Ns".data) none false) := by
  refine ⟨by decide, by decide, by decide⟩

/-- C8: the orchestrator (converter.ts 213-255) is exactly the composition, in order,
of redundant-attribute elimination, collection-type substitution, nullability handling,
partial-modifier removal, type-style conversion, namespace emission and using emission,
each stage consuming the previous stage's output, followed by a final trim. -/
theorem c8_stage_order (rendered : List Char) (ct : CollectionType) (ts : TypeStyle)
    (nst : Option NullableStyle) (ns : Option (List Char))
    (sa : Option SerializationAttributes) (always : Bool) :
    convertJsonToCSharp rendered ct ts nst ns sa always
      = trimJS (usingStage sa ns (namespaceStage ns (typeStyleStage ts
          (removePartialModifier (nullableHandling nst
            (collectionStage ct (attrStage sa always rendered))))))) := rfl

lemma parseAttrKey_of_propName {b n : List Char} (h : parsePropName b = some n) :
    parseAttrKey b = none := by
  rw [parsePropName] at h
  split at h
  · exact Option.noConfusion h
  · next r1 heq =>
      have hd : b.dropWhile isBlankChar = "public".data ++ r1 := dropLit_eq_some.mp heq
      have h1 : dropLit "[JsonPropertyName(\"".data (b.dropWhile isBlankChar) = none := by
        cases hdl : dropLit "[JsonPropertyName(\"".data (b.dropWhile isBlankChar) with
        | none => rfl
        | some r2 =>
            have he := dropLit_eq_some.mp hdl
            rw [hd] at he
            injection he with hh _
            exact absurd hh (by decide)
      have h2 : dropLit "[JsonProperty(\"".data (b.dropWhile isBlankChar) = none := by
        cases hdl : dropLit "[JsonProperty(\"".data (b.dropWhile isBlankChar) with
        | none => rfl
        | some r2 =>
            have he := dropLit_eq_some.mp hdl
            rw [hd] at he
            injection he with hh _
            exact absurd hh (by decide)
      rw [parseAttrKey]
      simp only [h1, h2]

/-- C3: (i) on an attribute line followed by a property line, elimination removes the
attribute line exactly when the key and the property name are equal case-insensitively
(converter.ts 360-373); (ii) when always-render mode is forced the orchestrator skips
the elimination stage entirely, the pipeline being the composition of the remaining
stages only (converter.ts 216-218); (iii) after elimination, no attribute line whose
key matches the next line's property name case-insensitively remains, provided no two
adjacent lines are both attribute lines. -/
theorem c3_attribute_elimination :
    (∀ (a b : List Char) (rest : List (List Char)) (k n : List Char),
        parseAttrKey a = some k → parsePropName b = some n →
        removeRedundantLines (a :: b :: rest)
          = (if lowerEq k n then [b] else [a, b]) ++ removeRedundantLines rest)
    ∧ (∀ (rendered : List Char) (ct : CollectionType) (ts : TypeStyle)
        (nst : Option NullableStyle) (ns : Option (List Char))
        (sa : SerializationAttributes),
        convertJsonToCSharp rendered ct ts nst ns (some sa) true
          = trimJS (usingStage (some sa) ns (namespaceStage ns (typeStyleStage ts
              (removePartialModifier (nullableHandling nst
                (collectionStage ct rendered)))))))
    ∧ (∀ ls : List (List Char), noAdjacentAttrs ls = true →
        noRedundantAdjacent (removeRedundantLines ls) = true) := by
  refine ⟨?_, ?_, fun ls h => rrl_noRedundant h⟩
  · intro a b rest k n hka hnb
    have hbattr : parseAttrKey b = none := parseAttrKey_of_propName hnb
    have hpair : redundantPair a ((b :: rest).head?) = lowerEq k n := by
      rw [List.head?_cons, redundantPair]
      simp only [hka, hnb]
    rw [removeRedundantLines]
    by_cases hl : lowerEq k n = true
    · rw [if_pos (by rw [hpair]; exact hl), removeRedundantLines,
        if_neg (by rw [redundantPair_of_attr_none hbattr]; exact Bool.noConfusion),
        if_pos hl]
      rfl
    · rw [if_neg (by rw [hpair]; exact hl), removeRedundantLines,
        if_neg (by rw [redundantPair_of_attr_none hbattr]; exact Bool.noConfusion),
        if_neg hl]
      rfl
  · intro rendered ct ts nst ns sa
    rfl

/-- Witness for C3: the key `name` matches the property `Name` case-insensitively and
the attribute line is removed; under always-render mode the pipeline on a sample text
skips elimination; elimination leaves no redundant adjacent pair. -/
theorem c3_attribute_elimination_witness :
    (removeRedundantLines
        ["    [JsonPropertyName(\"name\")]".data, "    public string Name { get; set; }".data]
      = (if lowerEq "name".data "Name".data
          then ["    public string Name { get; set; }".data]
          else ["    [JsonPropertyName(\"name\")]".data,
            "    public string Name { get; set; }".data])
        ++ removeRedundantLines [])
    ∧ (convertJsonToCSharp "public class A\n\x7b\n\x7d".data CollectionType.Array
        TypeStyle.classStyle none none (some SerializationAttributes.NewtonsoftJson) true
      = trimJS (usingStage (some SerializationAttributes.NewtonsoftJson) none
          (namespaceStage none (typeStyleStage TypeStyle.classStyle
            (removePartialModifier (nullableHandling none
              (collectionStage CollectionType.Array "public class A\n\x7b\n\x7d".data)))))))
    ∧ noRedundantAdjacent (removeRedundantLines
        ["    [JsonPropertyName(\"name\")]".data,
          "    public string Name { get; set; }".data]) = true :=
  ⟨c3_attribute_elimination.1 _ _ [] "name".data "Name".data (by decide) (by decide),
    c3_attribute_elimination.2.1 "public class A\n\x7b\n\x7d".data CollectionType.Array
      TypeStyle.classStyle none none SerializationAttributes.NewtonsoftJson,
    c3_attribute_elimination.2.2 _ (by decide)⟩

/-! ### Canonical class declarations and their positional-record conversion (C4, C9) -/

/-- The serialization attribute name: `JsonPropertyName` (System.Text.Json) or
`JsonProperty` (Newtonsoft). -/
def attrName : Bool → List Char
  | true => "JsonPropertyName".data
  | false => "JsonProperty".data

/-- One field of a rendered class declaration: an optional serialization attribute on
its own line, a property line, and an optional `= value;` initializer. -/
structure FieldDecl where
  attr : Option (Bool × List Char)
  ptype : List Char
  pname : List Char
  init : Option (List Char)
deriving DecidableEq

/-- The rendered text of the optional initializer: ` = value;`. -/
def initSuffix : Option (List Char) → List Char
  | some v => ' ' :: '=' :: ' ' :: (v ++ [';'])
  | none => []

/-- The part of the initializer the parameter regex consumes (everything before `;`). -/
def initConsumed : Option (List Char) → List Char
  | some v => ' ' :: '=' :: ' ' :: v
  | none => []

/-- The scan position after a parameter match: the unconsumed `;` stays in the input. -/
def initRest : Option (List Char) → List Char → List Char
  | some _, tail => ';' :: tail
  | none, tail => tail

/-- The property line of a field (after the indent): the property text and initializer. -/
def fieldTail (f : FieldDecl) : List Char :=
  renderProp f.ptype f.pname ++ initSuffix f.init

def indent4 : List Char := [' ', ' ', ' ', ' ']

/-- The rendered text of one field inside a class body. -/
def renderField (f : FieldDecl) : List Char :=
  match f.attr with
  | some (long, key) =>
      indent4 ++ attrText (attrName long) key ++ '\n' :: (indent4 ++ fieldTail f)
  | none => indent4 ++ fieldTail f

/-- The rendered class body: one field per line. -/
def classBody (fs : List FieldDecl) : List Char := joinLines (fs.map renderField)

/-- The rendered class declaration as quicktype emits it. -/
def renderClass (nm : List Char) (fs : List FieldDecl) : List Char :=
  "public class ".data ++ nm ++ '\n' :: '{' :: '\n' :: (classBody fs ++ '\n' :: '}' :: [])

/-- The constructor parameter the conversion produces for a field (converter.ts
397-405): attribute carried over with the `[property:]` target, then type and name —
the initializer does not occur. -/
def paramRender (f : FieldDecl) : List Char :=
  match f.attr with
  | some (long, key) =>
      "[property: ".data ++ attrName long ++ '(' :: '"' :: (key ++ '"' :: ')' :: ']' :: ' ' ::
        (f.ptype ++ ' ' :: f.pname))
  | none => f.ptype ++ ' ' :: f.pname

/-- No `[` immediately followed by `J` occurs in the text (so no position can start an
attribute match). -/
def noAttrOpen : List Char → Bool
  | [] => true
  | c :: cs => !(c = '[' && cs.headD ' ' = 'J') && noAttrOpen cs

/-- No `\n` immediately followed by `}` occurs in the text (so the lazy class-body
capture does not stop early). -/
def noNlBrace : List Char → Bool
  | [] => true
  | c :: cs => !(c = '\n' && cs.headD ' ' = '}') && noNlBrace cs

/-- Wellformedness of a field as the renderer emits it: a nonempty whitespace-free type
token, a nonempty `\w+` name, an attribute key free of `"` and newlines, an initializer
value free of `;` and newlines, and (for attribute-free fields) no spurious attribute
opener inside the property text. -/
def wfFieldDecl (f : FieldDecl) : Bool :=
  (!f.ptype.isEmpty) && f.ptype.all (fun c => !isWsChar c) &&
  (!f.pname.isEmpty) && f.pname.all isWordChar &&
  (match f.attr with
   | some (_, key) => key.all (fun c => c ≠ '"' && c ≠ '\n')
   | none => noAttrOpen (fieldTail f)) &&
  (match f.init with
   | some v => v.all (fun c => c ≠ ';' && c ≠ '\n')
   | none => true)

lemma matchAttrAt_ne {c : Char} (cs : List Char) (h : c ≠ '[') :
    matchAttrAt (c :: cs) = none := by
  have h1 : dropLit "[JsonPropertyName(\"".data (c :: cs) = none := by
    rw [show ("[JsonPropertyName(\"".data : List Char)
      = '[' :: "JsonPropertyName(\"".data from rfl, dropLit, if_neg h]
  have h2 : dropLit "[JsonProperty(\"".data (c :: cs) = none := by
    rw [show ("[JsonProperty(\"".data : List Char)
      = '[' :: "JsonProperty(\"".data from rfl, dropLit, if_neg h]
  rw [matchAttrAt]
  simp only [h1, h2]

lemma matchAttrAt_shape {s : List Char} {an key r : List Char}
    (h : matchAttrAt s = some (an, key, r)) : ∃ t, s = '[' :: 'J' :: t := by
  rw [matchAttrAt] at h
  split at h
  · next r0 heq0 =>
      exact ⟨"sonPropertyName(\"".data ++ r0, by rw [dropLit_eq_some.mp heq0]; rfl⟩
  · split at h
    · next r0 heq0 =>
        exact ⟨"sonProperty(\"".data ++ r0, by rw [dropLit_eq_some.mp heq0]; rfl⟩
    · exact Option.noConfusion h

lemma noAttrOpen_of_append {a b : List Char} (h : noAttrOpen (a ++ b) = true) :
    noAttrOpen a = true := by
  induction a with
  | nil => rfl
  | cons c cs ih =>
      rw [List.cons_append, noAttrOpen, Bool.and_eq_true] at h
      rw [noAttrOpen, Bool.and_eq_true]
      refine ⟨?_, ih h.2⟩
      cases cs with
      | nil => simp
      | cons d ds =>
          simpa using h.1

lemma matchParamAt_ne {c : Char} (cs : List Char) (h1 : c ≠ '[') (h2 : c ≠ 'p') :
    matchParamAt (c :: cs) = none := by
  have hpi : matchPropInit (c :: cs) = none := by
    rw [matchPropInit]
    simp only [matchPropAt_ne cs h2]
  rw [matchParamAt]
  simp only [matchAttrAt_ne cs h1, hpi]

lemma findAttrIn_none {s : List Char} (h : noAttrOpen s = true) : findAttrIn s = none := by
  induction s with
  | nil => rfl
  | cons c cs ih =>
      rw [noAttrOpen, Bool.and_eq_true] at h
      rw [findAttrIn]
      have hm : matchAttrAt (c :: cs) = none := by
        cases hma : matchAttrAt (c :: cs) with
        | none => rfl
        | some x =>
            obtain ⟨an, key, r⟩ := x
            obtain ⟨t, ht⟩ := matchAttrAt_shape hma
            injection ht with ht1 ht2
            subst ht1
            rw [ht2] at h
            simp at h
      simp only [hm]
      exact ih h.2

lemma findAttrIn_cons_some {c : Char} {cs : List Char} {an key r : List Char}
    (h : matchAttrAt (c :: cs) = some (an, key, r)) :
    findAttrIn (c :: cs) = some (an, key) := by
  rw [findAttrIn]
  simp only [h]

lemma takeWhile_all_good' (p : Char → Bool) (a b : List Char)
    (ha : ∀ c ∈ a, p c = true) (hb : ∀ x, b.head? = some x → p x = false) :
    (a ++ b).takeWhile p = a ∧ (a ++ b).dropWhile p = b := by
  induction a with
  | nil =>
      cases b with
      | nil => simp
      | cons x xs => simp [List.takeWhile_cons, List.dropWhile_cons, hb x rfl]
  | cons c a' ih =>
      have h1 := ha c (List.mem_cons_self c a')
      have h2 := ih (fun x hx => ha x (List.mem_cons.mpr (Or.inr hx)))
      simp [List.takeWhile_cons, List.dropWhile_cons, h1, h2.1, h2.2]

lemma matchAttrAt_render (long : Bool) (key r : List Char) (hk : ∀ c ∈ key, c ≠ '"') :
    matchAttrAt (attrText (attrName long) key ++ r) = some (attrName long, key, r) := by
  have hkb : ∀ c ∈ key, (fun c => decide (c ≠ '"')) c = true := by
    intro c hc
    simpa using hk c hc
  have htw := takeWhile_all_good (fun c => decide (c ≠ '"')) key '"' (')' :: ']' :: r)
    hkb (by decide)
  cases long with
  | true =>
      have h1 : dropLit "[JsonPropertyName(\"".data (attrText (attrName true) key ++ r)
          = some (key ++ '"' :: ')' :: ']' :: r) := by
        apply dropLit_eq_some.mpr
        rw [show ("[JsonPropertyName(\"".data : List Char)
          = '[' :: ("JsonPropertyName".data ++ ['(', '"']) from by decide]
        simp [attrText, attrName, List.append_assoc]
      rw [matchAttrAt]
      simp only [h1]
      rw [htw.2]
      have h2 : dropLit "\")]".data ('"' :: ')' :: ']' :: r) = some r := by
        apply dropLit_eq_some.mpr
        rw [show ("\")]".data : List Char) = ['"', ')', ']'] from by decide]
        rfl
      simp only [h2, htw.1]
      rw [show (['J', 's', 'o', 'n', 'P', 'r', 'o', 'p', 'e', 'r', 't', 'y', 'N', 'a', 'm', 'e']
        : List Char) = attrName true from by decide]
  | false =>
      have e0 : attrText (attrName false) key ++ r
          = '[' :: 'J' :: 's' :: 'o' :: 'n' :: 'P' :: 'r' :: 'o' :: 'p' :: 'e' :: 'r' ::
            't' :: 'y' :: '(' :: '"' :: (key ++ '"' :: ')' :: ']' :: r) := by
        rw [show (attrName false : List Char)
          = ['J', 's', 'o', 'n', 'P', 'r', 'o', 'p', 'e', 'r', 't', 'y'] from by decide]
        simp [attrText, List.append_assoc]
      have h0 : dropLit "[JsonPropertyName(\"".data (attrText (attrName false) key ++ r)
          = none := by
        rw [e0, show ("[JsonPropertyName(\"".data : List Char)
          = '[' :: 'J' :: 's' :: 'o' :: 'n' :: 'P' :: 'r' :: 'o' :: 'p' :: 'e' :: 'r' ::
            't' :: 'y' :: 'N' :: 'a' :: 'm' :: 'e' :: '(' :: '"' :: [] from by decide]
        simp +decide [dropLit]
      have h1 : dropLit "[JsonProperty(\"".data (attrText (attrName false) key ++ r)
          = some (key ++ '"' :: ')' :: ']' :: r) := by
        apply dropLit_eq_some.mpr
        rw [show ("[JsonProperty(\"".data : List Char)
          = '[' :: ("JsonProperty".data ++ ['(', '"']) from by decide]
        simp [attrText, attrName, List.append_assoc]
      rw [matchAttrAt]
      simp only [h0, h1]
      rw [htw.2]
      have h2 : dropLit "\")]".data ('"' :: ')' :: ']' :: r) = some r := by
        apply dropLit_eq_some.mpr
        rw [show ("\")]".data : List Char) = ['"', ')', ']'] from by decide]
        rfl
      simp only [h2, htw.1]
      rw [show (['J', 's', 'o', 'n', 'P', 'r', 'o', 'p', 'e', 'r', 't', 'y']
        : List Char) = attrName false from by decide]

lemma matchInitAfter_none (tail : List Char)
    (ht : (tail.dropWhile isWsChar).head? ≠ some '=') :
    matchInitAfter tail = ([], tail) := by
  rw [matchInitAfter, if_neg ht]

lemma matchInitAfter_some (v tail : List Char) (hv : ∀ c ∈ v, c ≠ ';') :
    matchInitAfter (' ' :: '=' :: ' ' :: (v ++ ';' :: tail))
      = (' ' :: '=' :: ' ' :: v, ';' :: tail) := by
  have hvb : ∀ c ∈ (' ' :: v), (fun c => decide (c ≠ ';')) c = true := by
    intro c hc
    rcases List.mem_cons.mp hc with h | h
    · subst h; decide
    · simpa using hv c h
  have htw := takeWhile_all_good (fun c => decide (c ≠ ';')) (' ' :: v) ';' tail hvb (by decide)
  have hdw : (' ' :: '=' :: ' ' :: (v ++ ';' :: tail)).dropWhile isWsChar
      = '=' :: ' ' :: (v ++ ';' :: tail) := by
    simp +decide [List.dropWhile_cons]
  have htk : (' ' :: '=' :: ' ' :: (v ++ ';' :: tail)).takeWhile isWsChar = [' '] := by
    simp +decide [List.takeWhile_cons]
  have hX : (' ' :: (v ++ ';' :: tail)) = (' ' :: v) ++ ';' :: tail := by simp
  rw [matchInitAfter, hdw, List.head?_cons, if_pos rfl, List.tail_cons, htk, hX, htw.1, htw.2]
  simp

lemma matchPropInit_render (ty nm : List Char) (init : Option (List Char)) (tail : List Char)
    (hty : ty ≠ []) (htyc : ∀ c ∈ ty, isWsChar c = false)
    (hnm : nm ≠ []) (hnmc : ∀ c ∈ nm, isWordChar c = true)
    (hi : match init with
      | some v => ∀ c ∈ v, c ≠ ';'
      | none => (tail.dropWhile isWsChar).head? ≠ some '=') :
    matchPropInit (renderProp ty nm ++ (initSuffix init ++ tail))
      = some ⟨renderProp ty nm ++ initConsumed init, ty, nm, initRest init tail⟩ := by
  rw [matchPropInit, matchPropAt_render (initSuffix init ++ tail) hty htyc hnm hnmc]
  cases init with
  | none =>
      simp only [initSuffix, initConsumed, initRest, List.nil_append]
      rw [matchInitAfter_none tail hi]
  | some v =>
      have hX : initSuffix (some v) ++ tail = ' ' :: '=' :: ' ' :: (v ++ ';' :: tail) := by
        simp [initSuffix]
      simp only [hX]
      rw [matchInitAfter_some v tail hi]
      simp [initConsumed, initRest]

lemma matchAttrAt_append_renderProp (ty nm X : List Char) :
    matchAttrAt (renderProp ty nm ++ X) = none := by
  rw [renderProp, List.cons_append]
  exact matchAttrAt_ne _ (by decide)

lemma matchParamAt_field_noattr (ty nm : List Char) (init : Option (List Char))
    (tail : List Char)
    (hty : ty ≠ []) (htyc : ∀ c ∈ ty, isWsChar c = false)
    (hnm : nm ≠ []) (hnmc : ∀ c ∈ nm, isWordChar c = true)
    (hi : match init with
      | some v => ∀ c ∈ v, c ≠ ';'
      | none => (tail.dropWhile isWsChar).head? ≠ some '=') :
    matchParamAt (renderProp ty nm ++ (initSuffix init ++ tail))
      = some ⟨renderProp ty nm ++ initConsumed init, ty, nm, initRest init tail⟩ := by
  rw [matchParamAt]
  simp only [matchAttrAt_append_renderProp]
  exact matchPropInit_render ty nm init tail hty htyc hnm hnmc hi

lemma matchParamAt_field_attr (long : Bool) (key ty nm : List Char)
    (init : Option (List Char)) (tail : List Char)
    (hk : ∀ c ∈ key, c ≠ '"')
    (hty : ty ≠ []) (htyc : ∀ c ∈ ty, isWsChar c = false)
    (hnm : nm ≠ []) (hnmc : ∀ c ∈ nm, isWordChar c = true)
    (hi : match init with
      | some v => ∀ c ∈ v, c ≠ ';'
      | none => (tail.dropWhile isWsChar).head? ≠ some '=') :
    matchParamAt (attrText (attrName long) key
        ++ (('\n' :: indent4) ++ (renderProp ty nm ++ (initSuffix init ++ tail))))
      = some ⟨attrText (attrName long) key
          ++ (('\n' :: indent4) ++ (renderProp ty nm ++ initConsumed init)),
        ty, nm, initRest init tail⟩ := by
  have hws := takeWhile_all_good' isWsChar ('\n' :: indent4)
    (renderProp ty nm ++ (initSuffix init ++ tail))
    (by decide)
    (by
      intro x hx
      have h' : (some 'p' : Option Char) = some x := hx
      injection h' with h''
      subst h''
      decide)
  rw [matchParamAt, matchAttrAt_render long key _ hk]
  simp only [hws.1, hws.2]
  rw [if_pos (by decide)]
  rw [matchPropInit_render ty nm init tail hty htyc hnm hnmc hi]
  simp [List.append_assoc]

lemma joinLines_two (a b : List Char) (ls : List (List Char)) :
    joinLines (a :: b :: ls) = a ++ '\n' :: joinLines (b :: ls) := by
  rw [joinLines]

lemma wf_ptype_ne {f : FieldDecl} (h : wfFieldDecl f = true) : f.ptype ≠ [] := by
  rw [wfFieldDecl] at h
  repeat rw [Bool.and_eq_true] at h
  simpa [List.isEmpty_iff] using h.1.1.1.1.1

lemma wf_ptype_ws {f : FieldDecl} (h : wfFieldDecl f = true) :
    ∀ c ∈ f.ptype, isWsChar c = false := by
  rw [wfFieldDecl] at h
  repeat rw [Bool.and_eq_true] at h
  intro c hc
  simpa using List.all_eq_true.mp h.1.1.1.1.2 c hc

lemma wf_pname_ne {f : FieldDecl} (h : wfFieldDecl f = true) : f.pname ≠ [] := by
  rw [wfFieldDecl] at h
  repeat rw [Bool.and_eq_true] at h
  simpa [List.isEmpty_iff] using h.1.1.1.2

lemma wf_pname_word {f : FieldDecl} (h : wfFieldDecl f = true) :
    ∀ c ∈ f.pname, isWordChar c = true := by
  rw [wfFieldDecl] at h
  repeat rw [Bool.and_eq_true] at h
  intro c hc
  exact List.all_eq_true.mp h.1.1.2 c hc

lemma wf_key {f : FieldDecl} {long : Bool} {key : List Char} (h : wfFieldDecl f = true)
    (ha : f.attr = some (long, key)) : ∀ c ∈ key, c ≠ '"' ∧ c ≠ '\n' := by
  rw [wfFieldDecl] at h
  repeat rw [Bool.and_eq_true] at h
  have h5 := h.1.2
  rw [ha] at h5
  intro c hc
  simpa using List.all_eq_true.mp h5 c hc

lemma wf_noattr {f : FieldDecl} (h : wfFieldDecl f = true) (ha : f.attr = none) :
    noAttrOpen (fieldTail f) = true := by
  rw [wfFieldDecl] at h
  repeat rw [Bool.and_eq_true] at h
  have h5 := h.1.2
  rw [ha] at h5
  exact h5

lemma wf_init {f : FieldDecl} {v : List Char} (h : wfFieldDecl f = true)
    (hi : f.init = some v) : ∀ c ∈ v, c ≠ ';' ∧ c ≠ '\n' := by
  rw [wfFieldDecl] at h
  repeat rw [Bool.and_eq_true] at h
  have h6 := h.2
  rw [hi] at h6
  intro c hc
  simpa using List.all_eq_true.mp h6 c hc

lemma wf_init_match {f : FieldDecl} (h : wfFieldDecl f = true) (tail : List Char)
    (ht : (tail.dropWhile isWsChar).head? ≠ some '=') :
    match f.init with
    | some v => ∀ c ∈ v, c ≠ ';'
    | none => (tail.dropWhile isWsChar).head? ≠ some '=' := by
  cases hi : f.init with
  | some v => exact fun c hc => (wf_init h hi c hc).1
  | none => exact ht

lemma extractParams_skip {c : Char} (cs : List Char) (h1 : c ≠ '[') (h2 : c ≠ 'p') :
    extractParams (c :: cs) = extractParams cs :=
  extractParams_cons_none (matchParamAt_ne cs h1 h2)

lemma extractParams_indent (s : List Char) : extractParams (indent4 ++ s) = extractParams s := by
  rw [show indent4 ++ s = ' ' :: ' ' :: ' ' :: ' ' :: s from rfl]
  rw [extractParams_skip _ (by decide) (by decide), extractParams_skip _ (by decide) (by decide),
    extractParams_skip _ (by decide) (by decide), extractParams_skip _ (by decide) (by decide)]

lemma extractParams_match_ne {s : List Char} {m : PropMatch} (hne : s ≠ [])
    (h : matchParamAt s = some m) :
    extractParams s = paramOf m :: extractParams m.rest := by
  cases s with
  | nil => exact absurd rfl hne
  | cons c cs => exact extractParams_cons_match h

lemma extractParams_initRest (init : Option (List Char)) (tail : List Char) :
    extractParams (initRest init tail) = extractParams tail := by
  cases init with
  | some v => exact extractParams_skip tail (by decide) (by decide)
  | none => rfl

lemma findAttrIn_attrText (long : Bool) (key X : List Char) (hk : ∀ c ∈ key, c ≠ '"') :
    findAttrIn (attrText (attrName long) key ++ X) = some (attrName long, key) := by
  have h := matchAttrAt_render long key X hk
  rw [show attrText (attrName long) key ++ X
    = '[' :: ((attrName long ++ '(' :: '"' :: (key ++ '"' :: ')' :: ']' :: [])) ++ X) from by
      simp [attrText]] at h ⊢
  exact findAttrIn_cons_some h

/-- One field of a class body, scanned by the parameter regex: the match consumes the
attribute line (if any), the property and the initializer text before the `;`, and the
produced constructor parameter is `paramRender f`. -/
lemma extractParams_field (f : FieldDecl) (tail : List Char)
    (hwf : wfFieldDecl f = true)
    (ht : (tail.dropWhile isWsChar).head? ≠ some '=') :
    extractParams (renderField f ++ tail) = paramRender f :: extractParams tail := by
  have hty := wf_ptype_ne hwf
  have htyc := wf_ptype_ws hwf
  have hnm := wf_pname_ne hwf
  have hnmc := wf_pname_word hwf
  have hi := wf_init_match hwf tail ht
  cases hattr : f.attr with
  | none =>
      have hra : renderField f ++ tail
          = indent4 ++ (renderProp f.ptype f.pname ++ (initSuffix f.init ++ tail)) := by
        rw [renderField, hattr]
        simp [fieldTail, List.append_assoc]
      rw [hra, extractParams_indent]
      have hm := matchParamAt_field_noattr f.ptype f.pname f.init tail hty htyc hnm hnmc hi
      rw [extractParams_match_ne (by simp [renderProp]) hm]
      have hna : noAttrOpen (renderProp f.ptype f.pname ++ initConsumed f.init) = true := by
        have h5 := wf_noattr hwf hattr
        rw [fieldTail] at h5
        cases hin : f.init with
        | none =>
            rw [hin] at h5
            simpa [initConsumed, initSuffix] using h5
        | some v =>
            rw [hin] at h5
            have he : initSuffix (some v) = initConsumed (some v) ++ [';'] := by
              simp [initSuffix, initConsumed]
            rw [he, ← List.append_assoc] at h5
            exact noAttrOpen_of_append h5
      rw [paramOf]
      simp only [findAttrIn_none hna]
      rw [paramRender, hattr]
      rw [extractParams_initRest]
  | some lk =>
      obtain ⟨long, key⟩ := lk
      have hk : ∀ c ∈ key, c ≠ '"' := fun c hc => (wf_key hwf hattr c hc).1
      have hra : renderField f ++ tail
          = indent4 ++ (attrText (attrName long) key
              ++ (('\n' :: indent4) ++ (renderProp f.ptype f.pname ++ (initSuffix f.init ++ tail)))) := by
        rw [renderField, hattr]
        simp [fieldTail, List.append_assoc]
      rw [hra, extractParams_indent]
      have hm := matchParamAt_field_attr long key f.ptype f.pname f.init tail hk
        hty htyc hnm hnmc hi
      rw [extractParams_match_ne (by simp [attrText]) hm]
      rw [paramOf]
      simp only [findAttrIn_attrText long key _ hk]
      rw [paramRender, hattr]
      rw [extractParams_initRest]

lemma renderField_head (f : FieldDecl) :
    ∃ Y, renderField f = indent4 ++ Y ∧ (Y.head? = some '[' ∨ Y.head? = some 'p') := by
  cases hattr : f.attr with
  | some lk =>
      obtain ⟨long, key⟩ := lk
      refine ⟨attrText (attrName long) key ++ '\n' :: (indent4 ++ fieldTail f), ?_, Or.inl ?_⟩
      · rw [renderField, hattr]
        simp [List.append_assoc]
      · simp [attrText]
  | none =>
      refine ⟨fieldTail f, ?_, Or.inr ?_⟩
      · rw [renderField, hattr]
      · rw [fieldTail, renderProp]
        rfl

lemma classBody_split (g : FieldDecl) (gs : List FieldDecl) :
    ∃ T, classBody (g :: gs) = renderField g ++ T
      ∧ (T = [] ∨ ∃ t', T = '\n' :: t') := by
  cases gs with
  | nil => exact ⟨[], by simp [classBody, joinLines], Or.inl rfl⟩
  | cons g2 gs2 =>
      refine ⟨'\n' :: joinLines ((g2 :: gs2).map renderField), ?_, Or.inr ⟨_, rfl⟩⟩
      rw [classBody, List.map_cons, List.map_cons, joinLines_two]

lemma classBody_tail_ok (g : FieldDecl) (gs : List FieldDecl) :
    (('\n' :: classBody (g :: gs)).dropWhile isWsChar).head? ≠ some '=' := by
  obtain ⟨Y, hY, hhead⟩ := renderField_head g
  obtain ⟨T, hT, _⟩ := classBody_split g gs
  rw [hT, hY]
  cases Y with
  | nil => simp at hhead
  | cons y ys =>
      have hy : y = '[' ∨ y = 'p' := by
        rcases hhead with h | h
        · left
          rw [List.head?_cons] at h
          injection h
        · right
          rw [List.head?_cons] at h
          injection h
      have hws := takeWhile_all_good' isWsChar ('\n' :: indent4) ((y :: ys) ++ T)
        (by decide)
        (fun x hx => by
          have h' : (some y : Option Char) = some x := hx
          injection h' with h''
          subst h''
          rcases hy with h | h <;> subst h <;> decide)
      simp only [List.cons_append, List.append_assoc] at hws ⊢
      rw [hws.2]
      rcases hy with h | h <;> subst h <;> simp

/-- The parameter-collection loop over a whole rendered class body yields exactly one
constructor parameter per field, in declaration order. -/
lemma extractParams_fields : ∀ (fs : List FieldDecl), (∀ f ∈ fs, wfFieldDecl f = true) →
    extractParams (classBody fs) = fs.map paramRender := by
  intro fs
  induction fs with
  | nil => intro _; rfl
  | cons f fs' ih =>
      intro hwf
      have hf := hwf f (List.mem_cons_self f fs')
      have hfs' := fun g hg => hwf g (List.mem_cons.mpr (Or.inr hg))
      cases fs' with
      | nil =>
          have hcb : classBody [f] = renderField f ++ [] := by simp [classBody, joinLines]
          rw [hcb, extractParams_field f [] hf (by simp)]
          rfl
      | cons g gs =>
          have hcb : classBody (f :: g :: gs)
              = renderField f ++ ('\n' :: classBody (g :: gs)) := by
            rw [classBody, List.map_cons, List.map_cons, joinLines_two]
            rfl
          rw [hcb, extractParams_field f _ hf (classBody_tail_ok g gs)]
          rw [extractParams_skip _ (by decide) (by decide)]
          rw [ih hfs']
          rfl

lemma splitAtNlBrace_at : ∀ (x rest : List Char), noNlBrace x = true →
    splitAtNlBrace (x ++ '\n' :: '}' :: rest) = some (x, rest) := by
  intro x
  induction x with
  | nil =>
      intro rest _
      simp only [List.nil_append]
      simp [splitAtNlBrace]
  | cons c cs ih =>
      intro rest h
      rw [noNlBrace, Bool.and_eq_true] at h
      rw [List.cons_append, splitAtNlBrace]
      case x_1 =>
        intro rest' hc hcs
        subst hc
        cases cs with
        | nil =>
            simp only [List.nil_append] at hcs
            injection hcs with hh
            exact absurd hh (by decide)
        | cons d ds =>
            rw [List.cons_append] at hcs
            injection hcs with hh _
            subst hh
            simp at h
      rw [ih rest h.2]

lemma noNlBrace_append {a b : List Char} (ha : noNlBrace a = true) (hb : noNlBrace b = true)
    (hbd : b.headD ' ' ≠ '}') : noNlBrace (a ++ b) = true := by
  induction a with
  | nil => simpa using hb
  | cons c cs ih =>
      rw [noNlBrace, Bool.and_eq_true] at ha
      rw [List.cons_append, noNlBrace, Bool.and_eq_true]
      refine ⟨?_, ih ha.2⟩
      cases cs with
      | nil =>
          simp only [List.nil_append]
          cases b with
          | nil => simp
          | cons x xs =>
              have hx : ¬ x = '}' := by simpa [List.headD] using hbd
              simp [hx]
      | cons d ds => simpa using ha.1

lemma noNlBrace_of_no_nl {s : List Char} (h : ∀ c ∈ s, c ≠ '\n') : noNlBrace s = true := by
  induction s with
  | nil => rfl
  | cons c cs ih =>
      rw [noNlBrace, Bool.and_eq_true]
      refine ⟨by simp [h c (List.mem_cons_self c cs)], ih ?_⟩
      exact fun x hx => h x (List.mem_cons.mpr (Or.inr hx))

lemma renderProp_no_nl {ty nm : List Char} (hty : ∀ c ∈ ty, isWsChar c = false)
    (hnm : ∀ c ∈ nm, isWordChar c = true) : ∀ c ∈ renderProp ty nm, c ≠ '\n' := by
  intro c hc hEq
  subst hEq
  simp +decide [renderProp] at hc
  rcases hc with h | h
  · exact absurd (hty _ h) (by decide)
  · exact absurd (hnm _ h) (by decide)

lemma fieldTail_no_nl {f : FieldDecl} (hwf : wfFieldDecl f = true) :
    ∀ c ∈ fieldTail f, c ≠ '\n' := by
  intro c hc
  rw [fieldTail] at hc
  rcases List.mem_append.mp hc with hp | hs
  · exact renderProp_no_nl (wf_ptype_ws hwf) (wf_pname_word hwf) c hp
  · cases hin : f.init with
    | none =>
        rw [hin] at hs
        simp [initSuffix] at hs
    | some v =>
        rw [hin] at hs
        intro hEq
        subst hEq
        simp +decide [initSuffix] at hs
        exact absurd rfl ((wf_init hwf hin '\n' hs).2)

lemma attrText_no_nl {long : Bool} {key : List Char} (hk : ∀ c ∈ key, c ≠ '\n') :
    ∀ c ∈ attrText (attrName long) key, c ≠ '\n' := by
  intro c hc hEq
  subst hEq
  simp +decide [attrText] at hc
  rcases hc with h | h
  · cases long with
    | true => exact absurd h (by decide)
    | false => exact absurd h (by decide)
  · exact hk '\n' h rfl

lemma renderField_noNlBrace {f : FieldDecl} (hwf : wfFieldDecl f = true) :
    noNlBrace (renderField f) = true := by
  cases hattr : f.attr with
  | none =>
      rw [renderField, hattr]
      apply noNlBrace_of_no_nl
      intro c hc
      rcases List.mem_append.mp hc with h | h
      · intro hEq; subst hEq; simp [indent4] at h
      · exact fieldTail_no_nl hwf c h
  | some lk =>
      obtain ⟨long, key⟩ := lk
      rw [renderField, hattr]
      have hkey : ∀ c ∈ key, c ≠ '\n' := fun c hc => (wf_key hwf hattr c hc).2
      have h2 : noNlBrace ('\n' :: (indent4 ++ fieldTail f)) = true := by
        rw [noNlBrace, Bool.and_eq_true]
        constructor
        · simp [indent4]
        · apply noNlBrace_of_no_nl
          intro c hc
          rcases List.mem_append.mp hc with h | h
          · intro hEq; subst hEq; simp [indent4] at h
          · exact fieldTail_no_nl hwf c h
      have h1 : noNlBrace (indent4 ++ attrText (attrName long) key) = true := by
        apply noNlBrace_of_no_nl
        intro c hc
        rcases List.mem_append.mp hc with h | h
        · intro hEq; subst hEq; simp [indent4] at h
        · exact attrText_no_nl hkey c h
      have := noNlBrace_append h1 h2 (by simp)
      simpa [List.append_assoc] using this

lemma classBody_headD (fs : List FieldDecl) : (classBody fs).headD ' ' = ' ' := by
  cases fs with
  | nil => rfl
  | cons f fs' =>
      obtain ⟨T, hT, _⟩ := classBody_split f fs'
      obtain ⟨Y, hY, _⟩ := renderField_head f
      rw [hT, hY]
      simp [indent4]

lemma classBody_noNlBrace : ∀ (fs : List FieldDecl), (∀ f ∈ fs, wfFieldDecl f = true) →
    noNlBrace (classBody fs) = true := by
  intro fs
  induction fs with
  | nil => intro _; rfl
  | cons f fs' ih =>
      intro hwf
      have hf := hwf f (List.mem_cons_self f fs')
      have hfs' := fun g hg => hwf g (List.mem_cons.mpr (Or.inr hg))
      cases fs' with
      | nil =>
          have hcb : classBody [f] = renderField f := by simp [classBody, joinLines]
          rw [hcb]
          exact renderField_noNlBrace hf
      | cons g gs =>
          have hcb : classBody (f :: g :: gs)
              = renderField f ++ ('\n' :: classBody (g :: gs)) := by
            rw [classBody, List.map_cons, List.map_cons, joinLines_two]
            rfl
          rw [hcb]
          apply noNlBrace_append (renderField_noNlBrace hf)
          · rw [noNlBrace, Bool.and_eq_true]
            refine ⟨?_, ih hfs'⟩
            have hh := classBody_headD (g :: gs)
            rw [List.headD_eq_head?] at hh
            simp [hh]
          · simp

lemma classData : ("class".data : List Char) = ['c', 'l', 'a', 's', 's'] := rfl

lemma publicClassSpaceData : ("public class ".data : List Char)
    = ['p', 'u', 'b', 'l', 'i', 'c', ' ', 'c', 'l', 'a', 's', 's', ' '] := rfl

/-- The class regex matches a rendered class declaration exactly: the captured name is
the class name and the captured body is everything between `{` and the closing `\n}`. -/
lemma matchClassAt_render (nm : List Char) (fs : List FieldDecl) (rest : List Char)
    (hnm : nm ≠ []) (hnmc : ∀ c ∈ nm, isWordChar c = true)
    (hwf : ∀ f ∈ fs, wfFieldDecl f = true) :
    matchClassAt (renderClass nm fs ++ rest)
      = some ⟨renderClass nm fs, nm, '\n' :: classBody fs, rest⟩ := by
  have hN : renderClass nm fs ++ rest
      = "public".data ++ (' ' :: 'c' :: 'l' :: 'a' :: 's' :: 's' :: ' ' ::
          (nm ++ '\n' :: '{' :: '\n' :: (classBody fs ++ '\n' :: '}' :: rest))) := by
    rw [renderClass, publicClassSpaceData, publicData]
    simp [List.append_assoc]
  have h0 : dropLit "public".data (renderClass nm fs ++ rest)
      = some (' ' :: 'c' :: 'l' :: 'a' :: 's' :: 's' :: ' ' ::
          (nm ++ '\n' :: '{' :: '\n' :: (classBody fs ++ '\n' :: '}' :: rest))) :=
    dropLit_eq_some.mpr hN
  rw [matchClassAt]
  simp only [h0]
  have h1t : (' ' :: 'c' :: 'l' :: 'a' :: 's' :: 's' :: ' ' ::
      (nm ++ '\n' :: '{' :: '\n' :: (classBody fs ++ '\n' :: '}' :: rest))).takeWhile isWsChar
      = [' '] := by
    simp +decide [List.takeWhile_cons]
  have h1d : (' ' :: 'c' :: 'l' :: 'a' :: 's' :: 's' :: ' ' ::
      (nm ++ '\n' :: '{' :: '\n' :: (classBody fs ++ '\n' :: '}' :: rest))).dropWhile isWsChar
      = 'c' :: 'l' :: 'a' :: 's' :: 's' :: ' ' ::
        (nm ++ '\n' :: '{' :: '\n' :: (classBody fs ++ '\n' :: '}' :: rest)) := by
    simp +decide [List.dropWhile_cons]
  rw [h1t, h1d]
  rw [if_neg (by decide)]
  have h2 : dropLit "class".data ('c' :: 'l' :: 'a' :: 's' :: 's' :: ' ' ::
      (nm ++ '\n' :: '{' :: '\n' :: (classBody fs ++ '\n' :: '}' :: rest)))
      = some (' ' :: (nm ++ '\n' :: '{' :: '\n' :: (classBody fs ++ '\n' :: '}' :: rest))) := by
    apply dropLit_eq_some.mpr
    rw [classData]
    rfl
  simp only [h2]
  have h3 := takeWhile_all_good' isWsChar [' ']
    (nm ++ '\n' :: '{' :: '\n' :: (classBody fs ++ '\n' :: '}' :: rest))
    (by decide)
    (fun x hx => by
      cases nm with
      | nil => exact absurd rfl hnm
      | cons n0 ns =>
          have h' : (some n0 : Option Char) = some x := hx
          injection h' with h''
          subst h''
          exact isWordChar_not_ws (hnmc n0 (List.mem_cons_self n0 ns)))
  simp only [List.singleton_append] at h3
  rw [h3.1, h3.2]
  rw [if_neg (by decide)]
  have h4 := takeWhile_all_good isWordChar nm '\n'
    ('{' :: '\n' :: (classBody fs ++ '\n' :: '}' :: rest)) hnmc (by decide)
  rw [h4.1, h4.2]
  rw [if_neg (by simpa [List.isEmpty_iff] using hnm)]
  have h5d : ('\n' :: '{' :: '\n' :: (classBody fs ++ '\n' :: '}' :: rest)).dropWhile isWsChar
      = '{' :: '\n' :: (classBody fs ++ '\n' :: '}' :: rest) := by
    simp +decide [List.dropWhile_cons]
  have h5t : ('\n' :: '{' :: '\n' :: (classBody fs ++ '\n' :: '}' :: rest)).takeWhile isWsChar
      = ['\n'] := by
    simp +decide [List.takeWhile_cons]
  rw [h5d, h5t]
  rw [List.head?_cons, if_pos rfl, List.tail_cons]
  have hsp : ('\n' :: (classBody fs ++ '\n' :: '}' :: rest))
      = ('\n' :: classBody fs) ++ '\n' :: '}' :: rest := by simp
  have hnb : noNlBrace ('\n' :: classBody fs) = true := by
    rw [noNlBrace, Bool.and_eq_true]
    refine ⟨?_, classBody_noNlBrace fs hwf⟩
    have hh := classBody_headD fs
    rw [List.headD_eq_head?] at hh
    simp [hh]
  rw [hsp, splitAtNlBrace_at ('\n' :: classBody fs) rest hnb]
  simp [renderClass, publicClassSpaceData, List.append_assoc]

lemma convertRecords_match_ne {s : List Char} {cm : ClassMatch} (hne : s ≠ [])
    (h : matchClassAt s = some cm) :
    convertToPositionalRecords s
      = (if (extractParams cm.body).isEmpty then cm.matched
          else "public record ".data ++ cm.className
            ++ '(' :: (List.intercalate [',', ' '] (extractParams cm.body)
              ++ ')' :: ';' :: []))
        ++ convertToPositionalRecords cm.rest := by
  cases s with
  | nil => exact absurd rfl hne
  | cons c cs => exact convertRecords_cons_match h

lemma intercalate_two (sep a b : List Char) (ls : List (List Char)) :
    List.intercalate sep (a :: b :: ls) = a ++ sep ++ List.intercalate sep (b :: ls) := by
  simp [List.intercalate, List.intersperse]

lemma mem_intercalate {c : Char} {sep : List Char} : ∀ {ls : List (List Char)},
    c ∈ List.intercalate sep ls → c ∈ sep ∨ ∃ l ∈ ls, c ∈ l := by
  intro ls
  induction ls with
  | nil =>
      intro h
      simp [List.intercalate, List.intersperse] at h
  | cons a ls' ih =>
      cases ls' with
      | nil =>
          intro h
          simp [List.intercalate, List.intersperse] at h
          exact Or.inr ⟨a, by simp, h⟩
      | cons b ls'' =>
          intro h
          rw [intercalate_two] at h
          rcases List.mem_append.mp h with h1 | h2
          · rcases List.mem_append.mp h1 with ha | hs
            · exact Or.inr ⟨a, List.mem_cons_self a _, ha⟩
            · exact Or.inl hs
          · rcases ih h2 with h3 | ⟨l, hl, hc⟩
            · exact Or.inl h3
            · exact Or.inr ⟨l, List.mem_cons.mpr (Or.inr hl), hc⟩

lemma paramRender_no_nl {f : FieldDecl} (hwf : wfFieldDecl f = true) :
    ∀ c ∈ paramRender f, c ≠ '\n' := by
  intro c hc hEq
  subst hEq
  cases hattr : f.attr with
  | none =>
      simp only [paramRender, hattr] at hc
      rcases List.mem_append.mp hc with h | h
      · exact absurd (wf_ptype_ws hwf _ h) (by decide)
      · rcases List.mem_cons.mp h with h' | h'
        · exact absurd h' (by decide)
        · exact absurd (wf_pname_word hwf _ h') (by decide)
  | some lk =>
      obtain ⟨long, key⟩ := lk
      simp only [paramRender, hattr] at hc
      rcases List.mem_append.mp hc with h | h
      · rcases List.mem_append.mp h with h1 | h2
        · exact absurd h1 (by decide)
        · cases long with
          | true => exact absurd h2 (by decide)
          | false => exact absurd h2 (by decide)
      · simp only [List.mem_cons] at h
        rcases h with h | h | h
        · exact absurd h (by decide)
        · exact absurd h (by decide)
        · rcases List.mem_append.mp h with h1 | h2
          · exact absurd rfl ((wf_key hwf hattr _ h1).2)
          · simp only [List.mem_cons] at h2
            rcases h2 with h | h | h | h | h
            · exact absurd h (by decide)
            · exact absurd h (by decide)
            · exact absurd h (by decide)
            · exact absurd h (by decide)
            · rcases List.mem_append.mp h with h3 | h4
              · exact absurd (wf_ptype_ws hwf _ h3) (by decide)
              · rcases List.mem_cons.mp h4 with h5 | h5
                · exact absurd h5 (by decide)
                · exact absurd (wf_pname_word hwf _ h5) (by decide)

/-- C4: on a rendered class declaration, positional-record conversion (converter.ts
381-414) replaces a class with at least one field by a single parameterized record
line `public record Name(p1, ..., pn);` containing the fields as constructor
parameters in declaration order (attributes carried over as `[property:]` targets by
`paramRender`), leaves a declaration with zero fields unconverted, and continues with
the remaining text; the produced record declaration contains no newline, so it is a
single line. -/
theorem c4_positional_records (nm : List Char) (fs : List FieldDecl) (rest : List Char)
    (hnm : nm ≠ []) (hnmc : ∀ c ∈ nm, isWordChar c = true)
    (hwf : ∀ f ∈ fs, wfFieldDecl f = true) :
    convertToPositionalRecords (renderClass nm fs ++ rest)
      = (if fs.isEmpty then renderClass nm fs
          else "public record ".data ++ nm
            ++ '(' :: (List.intercalate [',', ' '] (fs.map paramRender) ++ ')' :: ';' :: []))
        ++ convertToPositionalRecords rest
    ∧ (∀ c ∈ "public record ".data ++ nm
        ++ '(' :: (List.intercalate [',', ' '] (fs.map paramRender) ++ ')' :: ';' :: []),
        c ≠ '\n') := by
  constructor
  · have hcm := matchClassAt_render nm fs rest hnm hnmc hwf
    have hne : renderClass nm fs ++ rest ≠ [] := by
      simp [renderClass, publicClassSpaceData]
    rw [convertRecords_match_ne hne hcm]
    have hep : extractParams ('\n' :: classBody fs) = fs.map paramRender := by
      rw [extractParams_skip _ (by decide) (by decide), extractParams_fields fs hwf]
    simp only [hep]
    cases fs with
    | nil => simp
    | cons f fs' => simp
  · intro c hc hEq
    subst hEq
    rcases List.mem_append.mp hc with h | h
    · rcases List.mem_append.mp h with h1 | h2
      · exact absurd h1 (by decide)
      · exact absurd (hnmc _ h2) (by decide)
    · rcases List.mem_cons.mp h with h' | h'
      · exact absurd h' (by decide)
      · rcases List.mem_append.mp h' with h1 | h2
        · rcases mem_intercalate h1 with hs | ⟨l, hl, hcl⟩
          · exact absurd hs (by decide)
          · obtain ⟨g, hg, hgl⟩ := List.mem_map.mp hl
            exact paramRender_no_nl (hwf g hg) _ (hgl ▸ hcl) rfl
        · rcases List.mem_cons.mp h2 with h3 | h3
          · exact absurd h3 (by decide)
          · rcases List.mem_cons.mp h3 with h4 | h4
            · exact absurd h4 (by decide)
            · simp at h4

set_option maxRecDepth 8000 in
/-- Witness for C4: a two-field class (one field with a `JsonPropertyName` attribute)
becomes a single-line positional record with both fields as parameters in order. -/
theorem c4_positional_records_witness :
    convertToPositionalRecords (renderClass "Root".data
        [⟨some (true, "user_id".data), "long".data, "Id".data, none⟩,
          ⟨none, "string".data, "Name".data, none⟩] ++ [])
      = (if ([⟨some (true, "user_id".data), "long".data, "Id".data, none⟩,
            ⟨none, "string".data, "Name".data, none⟩] : List FieldDecl).isEmpty
          then renderClass "Root".data
            [⟨some (true, "user_id".data), "long".data, "Id".data, none⟩,
              ⟨none, "string".data, "Name".data, none⟩]
          else "public record ".data ++ "Root".data
            ++ '(' :: (List.intercalate [',', ' ']
                (([⟨some (true, "user_id".data), "long".data, "Id".data, none⟩,
                  ⟨none, "string".data, "Name".data, none⟩] : List FieldDecl).map paramRender)
              ++ ')' :: ';' :: []))
        ++ convertToPositionalRecords [] :=
  (c4_positional_records "Root".data
    [⟨some (true, "user_id".data), "long".data, "Id".data, none⟩,
      ⟨none, "string".data, "Name".data, none⟩] []
    (by decide) (by decide) (by decide)).1

/-- C9: the parameter regex consumes a field's ` = value;` initializer (converter.ts
386-391) but the produced constructor parameter is `paramRender f`, which depends only
on the attribute, type and name — the same parameter a field without any initializer
produces — so no initializer text survives into positional-record output. -/
theorem c9_initializers_discarded (f : FieldDecl) (v : List Char) (tail : List Char)
    (hwf : wfFieldDecl f = true) (hinit : f.init = some v)
    (ht : (tail.dropWhile isWsChar).head? ≠ some '=') :
    extractParams (renderField f ++ tail) = paramRender f :: extractParams tail
    ∧ initSuffix f.init = ' ' :: '=' :: ' ' :: (v ++ [';'])
    ∧ paramRender f = paramRender ⟨f.attr, f.ptype, f.pname, none⟩ := by
  refine ⟨extractParams_field f tail hwf ht, ?_, rfl⟩
  rw [hinit, initSuffix]

set_option maxRecDepth 8000 in
/-- Witness for C9: a `string` field with initializer `string.Empty` contributes the
parameter `string Name`, exactly as the initializer-free field does. -/
theorem c9_initializers_discarded_witness :
    extractParams (renderField ⟨none, "string".data, "Name".data, some "string.Empty".data⟩ ++ [])
      = paramRender ⟨none, "string".data, "Name".data, some "string.Empty".data⟩
        :: extractParams []
    ∧ initSuffix (FieldDecl.mk none "string".data "Name".data
        (some "string.Empty".data)).init
      = ' ' :: '=' :: ' ' :: ("string.Empty".data ++ [';'])
    ∧ paramRender ⟨none, "string".data, "Name".data, some "string.Empty".data⟩
      = paramRender ⟨none, "string".data, "Name".data, none⟩ :=
  c9_initializers_discarded ⟨none, "string".data, "Name".data, some "string.Empty".data⟩
    "string.Empty".data [] (by decide) (by decide) (by decide)

/-! ### Faithful character-level embedding of `removeRedundantAttributes` (C7)

The source (converter.ts 360-373) is a global multiline replace of
`^[ \t]*\[(?:JsonPropertyName|JsonProperty)\("(\w+)"\)\]\n([ \t]*public\s+\S+\s+(\w+)\s*\{)`
whose replacer keeps the whole match unless the key (group 1) equals the property name
(group 3) case-insensitively, in which case only the property-line prefix (group 2)
remains. Every quantifier is followed by a disjoint character class or literal, so the
regex is deterministic maximal-munch; `\s` crosses newlines (only `[ \t]*` is
newline-free); the `m` flag anchors `^` at the string start and after each newline;
`String.replace` resumes scanning after the matched span and never rescans emitted
replacement text. -/

/-- `(\w+)\s*\{` of the property part: extends the accumulated group-2 text through
the `{` and returns the captured name and the remainder. -/
def raNm (acc : List Char) (r8 : List Char) :
    Option (List Char × List Char × List Char) :=
  if (r8.takeWhile isWordChar).isEmpty then none
  else
    if ((r8.dropWhile isWordChar).dropWhile isWsChar).head? = some '{' then
      some (acc ++ r8.takeWhile isWordChar
          ++ (r8.dropWhile isWordChar).takeWhile isWsChar ++ ['{'],
        r8.takeWhile isWordChar,
        ((r8.dropWhile isWordChar).dropWhile isWsChar).tail)
    else none

/-- `\S+\s+` of the property part, then the name. -/
def raTy (acc : List Char) (r6 : List Char) :
    Option (List Char × List Char × List Char) :=
  if (r6.takeWhile (fun c => !isWsChar c)).isEmpty then none
  else
    if ((r6.dropWhile (fun c => !isWsChar c)).takeWhile isWsChar).isEmpty then none
    else raTy0 r6 acc
where
  raTy0 (r6 acc : List Char) : Option (List Char × List Char × List Char) :=
    raNm (acc ++ r6.takeWhile (fun c => !isWsChar c)
        ++ (r6.dropWhile (fun c => !isWsChar c)).takeWhile isWsChar)
      ((r6.dropWhile (fun c => !isWsChar c)).dropWhile isWsChar)

/-- Group 2, `([ \t]*public\s+\S+\s+(\w+)\s*\{)`: returns the group-2 text, the
captured name and the remainder. -/
def matchRAProp (r5 : List Char) : Option (List Char × List Char × List Char) :=
  match dropLit "public".data (r5.dropWhile isBlankChar) with
  | none => none
  | some r6 =>
      if (r6.takeWhile isWsChar).isEmpty then none
      else raTy (r5.takeWhile isBlankChar ++ "public".data ++ r6.takeWhile isWsChar)
        (r6.dropWhile isWsChar)

/-- `(\w+)"\)\]` of the attribute line, then the mandatory newline: returns the
captured key and the remainder after the newline. -/
def matchRAKey (r1 : List Char) : Option (List Char × List Char) :=
  if (r1.takeWhile isWordChar).isEmpty then none
  else
    match dropLit "\")]\n".data (r1.dropWhile isWordChar) with
    | some r4 => some (r1.takeWhile isWordChar, r4)
    | none => none

structure RAMatch where
  matched : List Char
  propLine : List Char
  jsonKey : List Char
  propName : List Char
  rest : List Char

/-- The whole redundant-attribute regex attempted at a line start. -/
def matchRAAt (s : List Char) : Option RAMatch :=
  match dropLit "[JsonPropertyName(\"".data (s.dropWhile isBlankChar) with
  | some r1 =>
      match matchRAKey r1 with
      | some (key, r4) =>
          match matchRAProp r4 with
          | some (g2, pn, rest) =>
              some ⟨s.takeWhile isBlankChar ++ "[JsonPropertyName(\"".data ++ key
                  ++ "\")]\n".data ++ g2, g2, key, pn, rest⟩
          | none => none
      | none => none
  | none =>
      match dropLit "[JsonProperty(\"".data (s.dropWhile isBlankChar) with
      | some r1 =>
          match matchRAKey r1 with
          | some (key, r4) =>
              match matchRAProp r4 with
              | some (g2, pn, rest) =>
                  some ⟨s.takeWhile isBlankChar ++ "[JsonProperty(\"".data ++ key
                      ++ "\")]\n".data ++ g2, g2, key, pn, rest⟩
              | none => none
          | none => none
      | none => none

lemma takeWhile_length_le (p : Char → Bool) (s : List Char) :
    (s.takeWhile p).length ≤ s.length := by
  have h := congrArg List.length (List.takeWhile_append_dropWhile (p := p) (l := s))
  rw [List.length_append] at h
  omega

lemma tail_length_le (s : List Char) : s.tail.length ≤ s.length := by
  rw [List.length_tail]
  omega

lemma raNm_rest {acc r8 : List Char} {g2 pn rest : List Char}
    (h : raNm acc r8 = some (g2, pn, rest)) : rest.length < r8.length := by
  rw [raNm] at h
  split at h
  · exact Option.noConfusion h
  · next hne =>
      split at h
      · next hcond =>
          injection h with h'
          injection h' with h1 h2
          injection h2 with h2 h3
          subst h3
          have hp : ¬ (r8.takeWhile isWordChar).length = 0 := by
            intro hh
            rw [List.length_eq_zero] at hh
            rw [hh] at hne
            simp at hne
          have hd : (r8.takeWhile isWordChar).length + (r8.dropWhile isWordChar).length
              = r8.length := by
            have h0 := congrArg List.length (List.takeWhile_append_dropWhile
              (p := isWordChar) (l := r8))
            rw [List.length_append] at h0
            exact h0
          have d2 := dropWhile_length_le isWsChar (r8.dropWhile isWordChar)
          have d3 := tail_length_le ((r8.dropWhile isWordChar).dropWhile isWsChar)
          omega
      · exact Option.noConfusion h

lemma raTy_rest {acc r6 : List Char} {g2 pn rest : List Char}
    (h : raTy acc r6 = some (g2, pn, rest)) : rest.length < r6.length := by
  rw [raTy] at h
  split at h
  · exact Option.noConfusion h
  · next hne1 =>
      split at h
      · exact Option.noConfusion h
      · next hne2 =>
          rw [raTy.raTy0] at h
          have h1 := raNm_rest h
          have hd : (r6.takeWhile (fun c => !isWsChar c)).length
              + (r6.dropWhile (fun c => !isWsChar c)).length = r6.length := by
            have h0 := congrArg List.length (List.takeWhile_append_dropWhile
              (p := fun c => !isWsChar c) (l := r6))
            rw [List.length_append] at h0
            exact h0
          have hd2 : ((r6.dropWhile (fun c => !isWsChar c)).takeWhile isWsChar).length
              + ((r6.dropWhile (fun c => !isWsChar c)).dropWhile isWsChar).length
              = (r6.dropWhile (fun c => !isWsChar c)).length := by
            have h0 := congrArg List.length (List.takeWhile_append_dropWhile
              (p := isWsChar) (l := r6.dropWhile (fun c => !isWsChar c)))
            rw [List.length_append] at h0
            exact h0
          have hp1 : ¬ (r6.takeWhile (fun c => !isWsChar c)).length = 0 := by
            intro hh
            rw [List.length_eq_zero] at hh
            rw [hh] at hne1
            simp at hne1
          omega

lemma matchRAProp_rest {r5 : List Char} {g2 pn rest : List Char}
    (h : matchRAProp r5 = some (g2, pn, rest)) : rest.length < r5.length := by
  rw [matchRAProp] at h
  split at h
  · exact Option.noConfusion h
  · next r6 heq =>
      split at h
      · exact Option.noConfusion h
      · have h1 := raTy_rest h
        have l6 : r6.length + 6 = (r5.dropWhile isBlankChar).length := by
          have := congrArg List.length (dropLit_eq_some.mp heq)
          simpa using this.symm
        have d1 := dropWhile_length_le isBlankChar r5
        have d2 := dropWhile_length_le isWsChar r6
        omega

lemma matchRAKey_rest {r1 : List Char} {key r4 : List Char}
    (h : matchRAKey r1 = some (key, r4)) : r4.length < r1.length := by
  rw [matchRAKey] at h
  split at h
  · exact Option.noConfusion h
  · next hne =>
      split at h
      · next r4' heq =>
          injection h with h'
          injection h' with h1 h2
          subst h2
          have l4 : r4'.length + 4 = (r1.dropWhile isWordChar).length := by
            have := congrArg List.length (dropLit_eq_some.mp heq)
            simpa using this.symm
          have d1 := dropWhile_length_le isWordChar r1
          omega
      · exact Option.noConfusion h

lemma matchRAAt_rest {s : List Char} {m : RAMatch}
    (h : matchRAAt s = some m) : m.rest.length < s.length := by
  rw [matchRAAt] at h
  split at h
  · next r1 heq1 =>
      split at h
      · next key r4 heqk =>
          split at h
          · next g2 pn rest heqp =>
              injection h with h'
              subst h'
              have h1 := matchRAProp_rest heqp
              have h2 := matchRAKey_rest heqk
              have l1 : r1.length + 19 = (s.dropWhile isBlankChar).length := by
                have := congrArg List.length (dropLit_eq_some.mp heq1)
                simpa using this.symm
              have d1 := dropWhile_length_le isBlankChar s
              simp only []
              omega
          · exact Option.noConfusion h
      · exact Option.noConfusion h
  · split at h
    · next r1 heq1 =>
        split at h
        · next key r4 heqk =>
            split at h
            · next g2 pn rest heqp =>
                injection h with h'
                subst h'
                have h1 := matchRAProp_rest heqp
                have h2 := matchRAKey_rest heqk
                have l1 : r1.length + 15 = (s.dropWhile isBlankChar).length := by
                  have := congrArg List.length (dropLit_eq_some.mp heq1)
                  simpa using this.symm
                have d1 := dropWhile_length_le isBlankChar s
                simp only []
                omega
            · exact Option.noConfusion h
        · exact Option.noConfusion h
    · exact Option.noConfusion h

/-- The global `replace` scan: `lineStart` tracks whether the position is at the
string start or just after a newline (where `^` can match). -/
def removeRAFuel : Nat → Bool → List Char → List Char
  | _, _, [] => []
  | 0, _, s => s
  | fuel + 1, lineStart, c :: cs =>
      if lineStart then
        match matchRAAt (c :: cs) with
        | some m =>
            (if lowerEq m.jsonKey m.propName then m.propLine else m.matched)
              ++ removeRAFuel fuel false m.rest
        | none => c :: removeRAFuel fuel (c = '\n') cs
      else c :: removeRAFuel fuel (c = '\n') cs

def removeRAStart (s : List Char) : List Char := removeRAFuel s.length true s

def removeRAMid (s : List Char) : List Char := removeRAFuel s.length false s

/-- `removeRedundantAttributes` of converter.ts 360-373, embedded at the character
level with faithful regex and `String.replace` semantics. -/
def removeRedundantAttributesJS (code : List Char) : List Char := removeRAStart code

lemma removeRAFuel_mono :
    ∀ (n₁ n₂ : Nat) (b : Bool) (s : List Char), s.length ≤ n₁ → s.length ≤ n₂ →
      removeRAFuel n₁ b s = removeRAFuel n₂ b s := by
  intro n₁
  induction n₁ with
  | zero =>
      intro n₂ b s hs₁ hs₂
      cases s with
      | nil => cases n₂ <;> rfl
      | cons c cs => simp at hs₁
  | succ n ih =>
      intro n₂ b s hs₁ hs₂
      cases s with
      | nil => cases n₂ <;> rfl
      | cons c cs =>
          simp only [List.length_cons] at hs₁ hs₂
          cases n₂ with
          | zero => omega
          | succ k =>
              rw [removeRAFuel, removeRAFuel]
              cases hb : b with
              | true =>
                  rw [if_pos rfl, if_pos rfl]
                  cases hm : matchRAAt (c :: cs) with
                  | some m =>
                      have h1 : m.rest.length < (c :: cs).length := matchRAAt_rest hm
                      simp only [List.length_cons] at h1
                      simp only []
                      rw [ih k false m.rest (by omega) (by omega)]
                  | none =>
                      simp only []
                      rw [ih k (decide (c = '\n')) cs (by omega) (by omega)]
              | false =>
                  rw [if_neg (by decide), if_neg (by decide)]
                  rw [ih k (decide (c = '\n')) cs (by omega) (by omega)]

lemma removeRAStart_match {c : Char} {cs : List Char} {m : RAMatch}
    (h : matchRAAt (c :: cs) = some m) :
    removeRAStart (c :: cs)
      = (if lowerEq m.jsonKey m.propName then m.propLine else m.matched)
        ++ removeRAMid m.rest := by
  rw [removeRAStart, removeRAMid]
  simp only [List.length_cons]
  rw [removeRAFuel]
  rw [if_pos rfl]
  simp only [h]
  have h1 : m.rest.length < (c :: cs).length := matchRAAt_rest h
  simp only [List.length_cons] at h1
  rw [removeRAFuel_mono cs.length m.rest.length false m.rest (by omega) (by omega)]

lemma removeRAStart_none {c : Char} {cs : List Char} (h : matchRAAt (c :: cs) = none)
    (hc : c ≠ '\n') : removeRAStart (c :: cs) = c :: removeRAMid cs := by
  rw [removeRAStart, removeRAMid]
  simp only [List.length_cons]
  rw [removeRAFuel]
  rw [if_pos rfl]
  simp only [h]
  rw [show (decide (c = '\n')) = false from by simp [hc]]

lemma removeRAStart_none_nl {cs : List Char} (h : matchRAAt ('\n' :: cs) = none) :
    removeRAStart ('\n' :: cs) = '\n' :: removeRAStart cs := by
  rw [removeRAStart, removeRAStart]
  simp only [List.length_cons]
  rw [removeRAFuel]
  rw [if_pos rfl]
  simp only [h]
  rfl

lemma removeRAMid_cons {c : Char} (cs : List Char) (hc : c ≠ '\n') :
    removeRAMid (c :: cs) = c :: removeRAMid cs := by
  rw [removeRAMid, removeRAMid]
  simp only [List.length_cons]
  rw [removeRAFuel]
  rw [if_neg (by decide)]
  rw [show (decide (c = '\n')) = false from by simp [hc]]

lemma removeRAMid_nl (cs : List Char) :
    removeRAMid ('\n' :: cs) = '\n' :: removeRAStart cs := by
  rw [removeRAMid, removeRAStart]
  simp only [List.length_cons]
  rw [removeRAFuel]
  rw [if_neg (by decide)]
  rfl

lemma removeRAMid_append {L : List Char} (t : List Char) (h : ∀ c ∈ L, c ≠ '\n') :
    removeRAMid (L ++ t) = L ++ removeRAMid t := by
  induction L with
  | nil => simp
  | cons c cs ih =>
      rw [List.cons_append,
        removeRAMid_cons (cs ++ t) (h c (List.mem_cons_self c cs)),
        ih (fun x hx => h x (List.mem_cons.mpr (Or.inr hx)))]
      rfl

lemma matchRAAt_not_bracket {s : List Char}
    (h : (s.dropWhile isBlankChar).head? ≠ some '[') : matchRAAt s = none := by
  have h1 : dropLit "[JsonPropertyName(\"".data (s.dropWhile isBlankChar) = none := by
    cases hdl : dropLit "[JsonPropertyName(\"".data (s.dropWhile isBlankChar) with
    | none => rfl
    | some r =>
        have he := dropLit_eq_some.mp hdl
        apply absurd _ h
        rw [he]
        rfl
  have h2 : dropLit "[JsonProperty(\"".data (s.dropWhile isBlankChar) = none := by
    cases hdl : dropLit "[JsonProperty(\"".data (s.dropWhile isBlankChar) with
    | none => rfl
    | some r =>
        have he := dropLit_eq_some.mp hdl
        apply absurd _ h
        rw [he]
        rfl
  rw [matchRAAt]
  simp only [h1, h2]

/-- What one pass of the elimination does to a rendered field: the attribute is
removed exactly when its key is a nonempty `\w+` token matching the property name
case-insensitively; everything else about the field is untouched. -/
def elimRA (f : FieldDecl) : FieldDecl :=
  match f.attr with
  | some lk =>
      if (!lk.2.isEmpty) && lk.2.all isWordChar && lowerEq lk.2 f.pname
      then ⟨none, f.ptype, f.pname, f.init⟩ else f
  | none => f

/-- The tail of a rendered property line after the `{` the regex consumes. -/
def accessorRest : List Char :=
  [' ', 'g', 'e', 't', ';', ' ', 's', 'e', 't', ';', ' ', '}']

/-- Group 2 of the regex on a rendered property line: indent, `public`, type, name
and the opening brace. -/
def g2Render (ty nm : List Char) : List Char :=
  indent4 ++ 'p' :: 'u' :: 'b' :: 'l' :: 'i' :: 'c' :: ' ' :: (ty ++ ' ' :: (nm ++ [' ', '{']))

lemma renderProp_split (ty nm : List Char) :
    indent4 ++ renderProp ty nm = g2Render ty nm ++ accessorRest := by
  simp [renderProp, g2Render, accessorRest, List.append_assoc]

lemma dropWhile_head_false {p : Char → Bool} : ∀ {a : List Char} {c₀ : Char} {q : List Char},
    a.dropWhile p = c₀ :: q → p c₀ = false := by
  intro a
  induction a with
  | nil =>
      intro c₀ q h
      simp at h
  | cons c a' ih =>
      intro c₀ q h
      rw [List.dropWhile_cons] at h
      by_cases hc : p c = true
      · rw [if_pos hc] at h
        exact ih h
      · rw [if_neg hc] at h
        injection h with h1 _
        subst h1
        simpa using hc

lemma mem_dropWhile {p : Char → Bool} : ∀ {a : List Char} {c : Char},
    c ∈ a.dropWhile p → c ∈ a := by
  intro a
  induction a with
  | nil =>
      intro c h
      simpa using h
  | cons d a' ih =>
      intro c h
      rw [List.dropWhile_cons] at h
      by_cases hd : p d = true
      · rw [if_pos hd] at h
        exact List.mem_cons.mpr (Or.inr (ih h))
      · rw [if_neg hd] at h
        exact h

lemma matchRAKey_render (key X : List Char) (hk : key ≠ [])
    (hkw : ∀ c ∈ key, isWordChar c = true) :
    matchRAKey (key ++ '"' :: ')' :: ']' :: '\n' :: X) = some (key, X) := by
  have htw := takeWhile_all_good isWordChar key '"' (')' :: ']' :: '\n' :: X) hkw (by decide)
  rw [matchRAKey, htw.1, htw.2]
  rw [if_neg (by simpa [List.isEmpty_iff] using hk)]
  have hd : dropLit "\")]\n".data ('"' :: ')' :: ']' :: '\n' :: X) = some X := by
    apply dropLit_eq_some.mpr
    rw [show ("\")]\n".data : List Char) = ['"', ')', ']', '\n'] from by decide]
    rfl
  simp only [hd]

lemma matchRAKey_badkey (key X : List Char) (hq : ∀ c ∈ key, c ≠ '"')
    (hbad : ¬ (key ≠ [] ∧ ∀ c ∈ key, isWordChar c = true)) :
    matchRAKey (key ++ '"' :: ')' :: ']' :: '\n' :: X) = none := by
  by_cases hk : key = []
  · subst hk
    rw [matchRAKey]
    rw [if_pos (by simp +decide [List.takeWhile_cons])]
  · have hex : ∃ c ∈ key, isWordChar c = false := by
      by_contra hall
      push_neg at hall
      exact hbad ⟨hk, fun c hc => by
        have := hall c hc
        cases hw : isWordChar c with
        | true => rfl
        | false => exact absurd hw this⟩
    have htb := takeWhile_append_bad ('"' :: ')' :: ']' :: '\n' :: X) hex
    rw [matchRAKey, htb.1, htb.2]
    cases hdw : key.dropWhile isWordChar with
    | nil => exact absurd hdw (dropWhile_bad_ne_nil hex)
    | cons c₀ q =>
        have hc₀ : c₀ ≠ '"' := hq c₀ (mem_dropWhile (hdw ▸ List.mem_cons_self c₀ q))
        have hnone : dropLit "\")]\n".data (c₀ :: (q ++ '"' :: ')' :: ']' :: '\n' :: X))
            = none := by
          rw [show ("\")]\n".data : List Char) = '"' :: [')', ']', '\n'] from by decide,
            dropLit, if_neg hc₀]
        simp only [List.cons_append, hnone]
        split
        · rfl
        · rfl

lemma takeWhile_ws_space (l : List Char) :
    (' ' :: l).takeWhile isWsChar = ' ' :: l.takeWhile isWsChar := by
  simp +decide [List.takeWhile_cons]

lemma dropWhile_ws_space (l : List Char) :
    (' ' :: l).dropWhile isWsChar = l.dropWhile isWsChar := by
  simp +decide [List.dropWhile_cons]

lemma matchRAProp_render (ty nm X : List Char)
    (hty : ty ≠ []) (htyc : ∀ c ∈ ty, isWsChar c = false)
    (hnm : nm ≠ []) (hnmc : ∀ c ∈ nm, isWordChar c = true) :
    matchRAProp (indent4 ++ (renderProp ty nm ++ X))
      = some (g2Render ty nm, nm, accessorRest ++ X) := by
  have hnmw : ∀ c ∈ nm, isWsChar c = false := fun c hc => isWordChar_not_ws (hnmc c hc)
  have hbl := takeWhile_all_good' isBlankChar indent4 (renderProp ty nm ++ X)
    (by decide)
    (fun x hx => by
      have h' : (some 'p' : Option Char) = some x := hx
      injection h' with h''
      subst h''
      decide)
  rw [matchRAProp, hbl.1, hbl.2]
  have h0 : dropLit "public".data (renderProp ty nm ++ X)
      = some (' ' :: (ty ++ ' ' :: (nm ++ (' ' :: '{' :: ' ' :: 'g' :: 'e' :: 't' :: ';' :: ' ' ::
          's' :: 'e' :: 't' :: ';' :: ' ' :: '}' :: X)))) := by
    apply dropLit_eq_some.mpr
    simp [renderProp, publicData, List.append_assoc]
  simp only [h0]
  have hW : (ty ++ ' ' :: (nm ++ (' ' :: '{' :: ' ' :: 'g' :: 'e' :: 't' :: ';' :: ' ' ::
      's' :: 'e' :: 't' :: ';' :: ' ' :: '}' :: X))).takeWhile isWsChar = [] :=
    (takeWhile_stop _ hty htyc).1
  have hW' : (ty ++ ' ' :: (nm ++ (' ' :: '{' :: ' ' :: 'g' :: 'e' :: 't' :: ';' :: ' ' ::
      's' :: 'e' :: 't' :: ';' :: ' ' :: '}' :: X))).dropWhile isWsChar
      = ty ++ ' ' :: (nm ++ (' ' :: '{' :: ' ' :: 'g' :: 'e' :: 't' :: ';' :: ' ' ::
        's' :: 'e' :: 't' :: ';' :: ' ' :: '}' :: X)) :=
    (takeWhile_stop _ hty htyc).2
  rw [takeWhile_ws_space, dropWhile_ws_space, hW, hW']
  rw [if_neg (by decide)]
  rw [raTy]
  have hTy := takeWhile_all_good (fun c => !isWsChar c) ty ' '
    (nm ++ (' ' :: '{' :: ' ' :: 'g' :: 'e' :: 't' :: ';' :: ' ' ::
      's' :: 'e' :: 't' :: ';' :: ' ' :: '}' :: X))
    (fun c hc => by simp [htyc c hc]) (by decide)
  rw [hTy.1, hTy.2]
  rw [if_neg (by simpa [List.isEmpty_iff] using hty)]
  have hNmStop := takeWhile_stop (p := isWsChar)
    (' ' :: '{' :: ' ' :: 'g' :: 'e' :: 't' :: ';' :: ' ' ::
      's' :: 'e' :: 't' :: ';' :: ' ' :: '}' :: X) hnm hnmw
  rw [takeWhile_ws_space, hNmStop.1]
  rw [if_neg (by decide)]
  rw [raTy.raTy0]
  rw [hTy.1, hTy.2]
  rw [takeWhile_ws_space, dropWhile_ws_space, hNmStop.1, hNmStop.2]
  rw [raNm]
  have hNm := takeWhile_all_good isWordChar nm ' '
    ('{' :: ' ' :: 'g' :: 'e' :: 't' :: ';' :: ' ' ::
      's' :: 'e' :: 't' :: ';' :: ' ' :: '}' :: X) hnmc (by decide)
  rw [hNm.1, hNm.2]
  rw [if_neg (by simpa [List.isEmpty_iff] using hnm)]
  rw [takeWhile_ws_space, dropWhile_ws_space]
  have hW3 : (('{' : Char) :: ' ' :: 'g' :: 'e' :: 't' :: ';' :: ' ' ::
      's' :: 'e' :: 't' :: ';' :: ' ' :: '}' :: X).takeWhile isWsChar = [] := by
    simp +decide [List.takeWhile_cons]
  have hW3' : (('{' : Char) :: ' ' :: 'g' :: 'e' :: 't' :: ';' :: ' ' ::
      's' :: 'e' :: 't' :: ';' :: ' ' :: '}' :: X).dropWhile isWsChar
      = '{' :: ' ' :: 'g' :: 'e' :: 't' :: ';' :: ' ' ::
        's' :: 'e' :: 't' :: ';' :: ' ' :: '}' :: X := by
    simp +decide [List.dropWhile_cons]
  rw [hW3, hW3']
  rw [List.head?_cons, if_pos rfl, List.tail_cons]
  simp [g2Render, accessorRest, publicData, List.append_assoc]

lemma matchRAAt_render (long : Bool) (key ty nm X : List Char)
    (hk : key ≠ []) (hkw : ∀ c ∈ key, isWordChar c = true)
    (hty : ty ≠ []) (htyc : ∀ c ∈ ty, isWsChar c = false)
    (hnm : nm ≠ []) (hnmc : ∀ c ∈ nm, isWordChar c = true) :
    matchRAAt (indent4 ++ (attrText (attrName long) key
        ++ '\n' :: (indent4 ++ (renderProp ty nm ++ X))))
      = some ⟨indent4 ++ (attrText (attrName long) key ++ '\n' :: g2Render ty nm),
          g2Render ty nm, key, nm, accessorRest ++ X⟩ := by
  have hq : ∀ c ∈ key, c ≠ '"' := by
    intro c hc hEq
    subst hEq
    exact absurd (hkw _ hc) (by decide)
  have hbl := takeWhile_all_good' isBlankChar indent4
    (attrText (attrName long) key ++ '\n' :: (indent4 ++ (renderProp ty nm ++ X)))
    (by decide)
    (fun x hx => by
      have h' : (some '[' : Option Char) = some x := hx
      injection h' with h''
      subst h''
      decide)
  rw [matchRAAt, hbl.1, hbl.2]
  cases long with
  | true =>
      have h1 : dropLit "[JsonPropertyName(\"".data (attrText (attrName true) key
          ++ '\n' :: (indent4 ++ (renderProp ty nm ++ X)))
          = some (key ++ '"' :: ')' :: ']' :: '\n' :: (indent4 ++ (renderProp ty nm ++ X))) := by
        apply dropLit_eq_some.mpr
        rw [show ("[JsonPropertyName(\"".data : List Char)
          = '[' :: ("JsonPropertyName".data ++ ['(', '"']) from by decide]
        simp [attrText, attrName, List.append_assoc]
      simp only [h1]
      simp only [matchRAKey_render key _ hk hkw,
        matchRAProp_render ty nm X hty htyc hnm hnmc]
      simp [attrText, attrName, List.append_assoc,
        show ("JsonPropertyName".data : List Char)
          = ['J', 's', 'o', 'n', 'P', 'r', 'o', 'p', 'e', 'r', 't', 'y', 'N', 'a', 'm', 'e']
          from by decide]
  | false =>
      have e0 : attrText (attrName false) key ++ '\n' :: (indent4 ++ (renderProp ty nm ++ X))
          = '[' :: 'J' :: 's' :: 'o' :: 'n' :: 'P' :: 'r' :: 'o' :: 'p' :: 'e' :: 'r' ::
            't' :: 'y' :: '(' :: '"' ::
            (key ++ '"' :: ')' :: ']' :: '\n' :: (indent4 ++ (renderProp ty nm ++ X))) := by
        rw [show (attrName false : List Char)
          = ['J', 's', 'o', 'n', 'P', 'r', 'o', 'p', 'e', 'r', 't', 'y'] from by decide]
        simp [attrText, List.append_assoc]
      have h0 : dropLit "[JsonPropertyName(\"".data (attrText (attrName false) key
          ++ '\n' :: (indent4 ++ (renderProp ty nm ++ X))) = none := by
        rw [e0, show ("[JsonPropertyName(\"".data : List Char)
          = '[' :: 'J' :: 's' :: 'o' :: 'n' :: 'P' :: 'r' :: 'o' :: 'p' :: 'e' :: 'r' ::
            't' :: 'y' :: 'N' :: 'a' :: 'm' :: 'e' :: '(' :: '"' :: [] from by decide]
        simp +decide [dropLit]
      have h1 : dropLit "[JsonProperty(\"".data (attrText (attrName false) key
          ++ '\n' :: (indent4 ++ (renderProp ty nm ++ X)))
          = some (key ++ '"' :: ')' :: ']' :: '\n' :: (indent4 ++ (renderProp ty nm ++ X))) := by
        apply dropLit_eq_some.mpr
        rw [show ("[JsonProperty(\"".data : List Char)
          = '[' :: ("JsonProperty".data ++ ['(', '"']) from by decide]
        simp [attrText, attrName, List.append_assoc]
      simp only [h0, h1]
      simp only [matchRAKey_render key _ hk hkw,
        matchRAProp_render ty nm X hty htyc hnm hnmc]
      simp [attrText, attrName, List.append_assoc,
        show ("JsonProperty".data : List Char)
          = ['J', 's', 'o', 'n', 'P', 'r', 'o', 'p', 'e', 'r', 't', 'y'] from by decide]

lemma matchRAAt_badkey (long : Bool) (key Z : List Char)
    (hq : ∀ c ∈ key, c ≠ '"')
    (hbad : ¬ (key ≠ [] ∧ ∀ c ∈ key, isWordChar c = true)) :
    matchRAAt (indent4 ++ (attrText (attrName long) key ++ '\n' :: Z)) = none := by
  have hbl := takeWhile_all_good' isBlankChar indent4
    (attrText (attrName long) key ++ '\n' :: Z)
    (by decide)
    (fun x hx => by
      have h' : (some '[' : Option Char) = some x := hx
      injection h' with h''
      subst h''
      decide)
  rw [matchRAAt, hbl.2]
  cases long with
  | true =>
      have h1 : dropLit "[JsonPropertyName(\"".data (attrText (attrName true) key
          ++ '\n' :: Z) = some (key ++ '"' :: ')' :: ']' :: '\n' :: Z) := by
        apply dropLit_eq_some.mpr
        rw [show ("[JsonPropertyName(\"".data : List Char)
          = '[' :: ("JsonPropertyName".data ++ ['(', '"']) from by decide]
        simp [attrText, attrName, List.append_assoc]
      simp only [h1]
      simp only [matchRAKey_badkey key _ hq hbad]
  | false =>
      have e0 : attrText (attrName false) key ++ '\n' :: Z
          = '[' :: 'J' :: 's' :: 'o' :: 'n' :: 'P' :: 'r' :: 'o' :: 'p' :: 'e' :: 'r' ::
            't' :: 'y' :: '(' :: '"' :: (key ++ '"' :: ')' :: ']' :: '\n' :: Z) := by
        rw [show (attrName false : List Char)
          = ['J', 's', 'o', 'n', 'P', 'r', 'o', 'p', 'e', 'r', 't', 'y'] from by decide]
        simp [attrText, List.append_assoc]
      have h0 : dropLit "[JsonPropertyName(\"".data (attrText (attrName false) key
          ++ '\n' :: Z) = none := by
        rw [e0, show ("[JsonPropertyName(\"".data : List Char)
          = '[' :: 'J' :: 's' :: 'o' :: 'n' :: 'P' :: 'r' :: 'o' :: 'p' :: 'e' :: 'r' ::
            't' :: 'y' :: 'N' :: 'a' :: 'm' :: 'e' :: '(' :: '"' :: [] from by decide]
        simp +decide [dropLit]
      have h1 : dropLit "[JsonProperty(\"".data (attrText (attrName false) key
          ++ '\n' :: Z) = some (key ++ '"' :: ')' :: ']' :: '\n' :: Z) := by
        apply dropLit_eq_some.mpr
        rw [show ("[JsonProperty(\"".data : List Char)
          = '[' :: ("JsonProperty".data ++ ['(', '"']) from by decide]
        simp [attrText, attrName, List.append_assoc]
      simp only [h0, h1]
      simp only [matchRAKey_badkey key _ hq hbad]

lemma matchRAAt_propline (ty nm X : List Char) :
    matchRAAt (indent4 ++ (renderProp ty nm ++ X)) = none := by
  apply matchRAAt_not_bracket
  have hbl := takeWhile_all_good' isBlankChar indent4 (renderProp ty nm ++ X)
    (by decide)
    (fun x hx => by
      have h' : (some 'p' : Option Char) = some x := hx
      injection h' with h''
      subst h''
      decide)
  rw [hbl.2]
  intro hh
  have h' : (some 'p' : Option Char) = some '[' := hh
  injection h' with h''
  exact absurd h'' (by decide)

lemma removeRAStart_match_ne {s : List Char} {m : RAMatch} (hne : s ≠ [])
    (h : matchRAAt s = some m) :
    removeRAStart s
      = (if lowerEq m.jsonKey m.propName then m.propLine else m.matched)
        ++ removeRAMid m.rest := by
  cases s with
  | nil => exact absurd rfl hne
  | cons c cs => exact removeRAStart_match h

/-- A line at which the regex does not match is copied unchanged, and scanning resumes
at the start of the next line. -/
lemma removeRAStart_line (L t : List Char) (hnone : matchRAAt (L ++ '\n' :: t) = none)
    (hL : ∀ c ∈ L, c ≠ '\n') (hne : L ≠ []) :
    removeRAStart (L ++ '\n' :: t) = L ++ '\n' :: removeRAStart t := by
  cases L with
  | nil => exact absurd rfl hne
  | cons c cs =>
      rw [List.cons_append] at hnone ⊢
      rw [removeRAStart_none hnone (hL c (List.mem_cons_self c cs))]
      rw [removeRAMid_append ('\n' :: t) (fun x hx => hL x (List.mem_cons.mpr (Or.inr hx)))]
      rw [removeRAMid_nl]
      simp

/-- A rendered property line (with optional initializer) never starts a match and is
copied unchanged. -/
lemma removeRA_propline (f : FieldDecl) (t : List Char) (hwf : wfFieldDecl f = true) :
    removeRAStart ((indent4 ++ fieldTail f) ++ '\n' :: t)
      = (indent4 ++ fieldTail f) ++ '\n' :: removeRAStart t := by
  apply removeRAStart_line
  · have e : (indent4 ++ fieldTail f) ++ '\n' :: t
        = indent4 ++ (renderProp f.ptype f.pname ++ (initSuffix f.init ++ '\n' :: t)) := by
      simp [fieldTail, List.append_assoc]
    rw [e]
    exact matchRAAt_propline _ _ _
  · intro c hc
    rcases List.mem_append.mp hc with h | h
    · intro hEq
      subst hEq
      simp [indent4] at h
    · exact fieldTail_no_nl hwf c h
  · simp [indent4]

lemma elimRA_none {f : FieldDecl} (hattr : f.attr = none) : elimRA f = f := by
  rw [elimRA, hattr]

lemma elimRA_some_pos {f : FieldDecl} {long : Bool} {key : List Char}
    (hattr : f.attr = some (long, key))
    (hc : ((!key.isEmpty) && key.all isWordChar && lowerEq key f.pname) = true) :
    elimRA f = ⟨none, f.ptype, f.pname, f.init⟩ := by
  simp only [elimRA, hattr, if_pos hc]

lemma elimRA_some_neg {f : FieldDecl} {long : Bool} {key : List Char}
    (hattr : f.attr = some (long, key))
    (hc : ¬ ((!key.isEmpty) && key.all isWordChar && lowerEq key f.pname) = true) :
    elimRA f = f := by
  simp only [elimRA, hattr, if_neg hc]

lemma elimRA_drop {f : FieldDecl} {long : Bool} {key : List Char}
    (hattr : f.attr = some (long, key)) (hk : key ≠ [])
    (hkw : ∀ c ∈ key, isWordChar c = true) (hlow : lowerEq key f.pname = true) :
    elimRA f = ⟨none, f.ptype, f.pname, f.init⟩ := by
  apply elimRA_some_pos hattr
  rw [Bool.and_eq_true, Bool.and_eq_true]
  exact ⟨⟨by simp [List.isEmpty_iff, hk], List.all_eq_true.mpr hkw⟩, hlow⟩

lemma elimRA_keep_bad {f : FieldDecl} {long : Bool} {key : List Char}
    (hattr : f.attr = some (long, key))
    (hbad : ¬ (key ≠ [] ∧ ∀ c ∈ key, isWordChar c = true)) : elimRA f = f := by
  apply elimRA_some_neg hattr
  intro hb
  rw [Bool.and_eq_true, Bool.and_eq_true] at hb
  exact hbad ⟨by simpa [List.isEmpty_iff] using hb.1.1,
    fun c hc => List.all_eq_true.mp hb.1.2 c hc⟩

lemma elimRA_keep_diff {f : FieldDecl} {long : Bool} {key : List Char}
    (hattr : f.attr = some (long, key)) (hlow : lowerEq key f.pname = false) :
    elimRA f = f := by
  apply elimRA_some_neg hattr
  intro hb
  rw [Bool.and_eq_true] at hb
  rw [hlow] at hb
  exact Bool.noConfusion hb.2

lemma initSuffix_no_nl {f : FieldDecl} (hwf : wfFieldDecl f = true) :
    ∀ c ∈ initSuffix f.init, c ≠ '\n' := by
  intro c hc
  apply fieldTail_no_nl hwf c
  rw [fieldTail]
  exact List.mem_append.mpr (Or.inr hc)

/-- One pass of the scan over a rendered field followed by a newline: the field maps
to `elimRA` of itself and the scan continues at the next line. -/
lemma removeRA_field (f : FieldDecl) (t : List Char) (hwf : wfFieldDecl f = true) :
    removeRAStart (renderField f ++ '\n' :: t)
      = renderField (elimRA f) ++ '\n' :: removeRAStart t := by
  have hty := wf_ptype_ne hwf
  have htyc := wf_ptype_ws hwf
  have hnm := wf_pname_ne hwf
  have hnmc := wf_pname_word hwf
  cases hattr : f.attr with
  | none =>
      have e : renderField f = indent4 ++ fieldTail f := by rw [renderField, hattr]
      rw [elimRA_none hattr, e]
      exact removeRA_propline f t hwf
  | some lk =>
      obtain ⟨long, key⟩ := lk
      have hkq : ∀ c ∈ key, c ≠ '"' := fun c hc => (wf_key hwf hattr c hc).1
      have hknl : ∀ c ∈ key, c ≠ '\n' := fun c hc => (wf_key hwf hattr c hc).2
      by_cases hcond : key ≠ [] ∧ ∀ c ∈ key, isWordChar c = true
      · obtain ⟨hk, hkw⟩ := hcond
        have e1 : renderField f ++ '\n' :: t
            = indent4 ++ (attrText (attrName long) key ++ '\n' :: (indent4
              ++ (renderProp f.ptype f.pname ++ (initSuffix f.init ++ '\n' :: t)))) := by
          rw [renderField, hattr]
          simp [fieldTail, List.append_assoc]
        rw [e1]
        have hm := matchRAAt_render long key f.ptype f.pname
          (initSuffix f.init ++ '\n' :: t) hk hkw hty htyc hnm hnmc
        rw [removeRAStart_match_ne (by simp [indent4]) hm]
        simp only []
        have hrest : removeRAMid (accessorRest ++ (initSuffix f.init ++ '\n' :: t))
            = (accessorRest ++ initSuffix f.init) ++ '\n' :: removeRAStart t := by
          rw [show accessorRest ++ (initSuffix f.init ++ '\n' :: t)
            = (accessorRest ++ initSuffix f.init) ++ '\n' :: t from by
              simp [List.append_assoc]]
          rw [removeRAMid_append ('\n' :: t) (by
            intro x hx
            rcases List.mem_append.mp hx with h | h
            · revert h
              have : ∀ x ∈ accessorRest, x ≠ '\n' := by decide
              exact this x
            · exact initSuffix_no_nl hwf x h)]
          rw [removeRAMid_nl]
        by_cases hlow : lowerEq key f.pname = true
        · rw [if_pos hlow, hrest]
          rw [elimRA_drop hattr hk hkw hlow]
          have e2 : renderField (⟨none, f.ptype, f.pname, f.init⟩ : FieldDecl)
              = indent4 ++ (renderProp f.ptype f.pname ++ initSuffix f.init) := rfl
          rw [e2]
          have e3 : indent4 ++ (renderProp f.ptype f.pname ++ initSuffix f.init)
              = g2Render f.ptype f.pname ++ (accessorRest ++ initSuffix f.init) := by
            rw [← List.append_assoc, renderProp_split, List.append_assoc]
          rw [e3]
          simp [List.append_assoc]
        · have hlow' : lowerEq key f.pname = false := by
            cases h : lowerEq key f.pname with
            | true => exact absurd h hlow
            | false => rfl
          rw [if_neg (by rw [hlow']; exact Bool.noConfusion), hrest]
          rw [elimRA_keep_diff hattr hlow']
          rw [renderField, hattr]
          have e3 : indent4 ++ fieldTail f
              = g2Render f.ptype f.pname ++ (accessorRest ++ initSuffix f.init) := by
            rw [fieldTail, ← List.append_assoc, renderProp_split, List.append_assoc]
          rw [e3]
          simp [List.append_assoc]
      · have e1 : renderField f ++ '\n' :: t
            = (indent4 ++ attrText (attrName long) key)
              ++ '\n' :: ((indent4 ++ fieldTail f) ++ '\n' :: t) := by
          rw [renderField, hattr]
          simp [List.append_assoc]
        rw [e1]
        rw [removeRAStart_line (indent4 ++ attrText (attrName long) key)
          ((indent4 ++ fieldTail f) ++ '\n' :: t)
          (by
            rw [show (indent4 ++ attrText (attrName long) key)
                ++ '\n' :: ((indent4 ++ fieldTail f) ++ '\n' :: t)
              = indent4 ++ (attrText (attrName long) key
                ++ '\n' :: ((indent4 ++ fieldTail f) ++ '\n' :: t)) from by
                simp [List.append_assoc]]
            exact matchRAAt_badkey long key _ hkq hcond)
          (by
            intro x hx
            rcases List.mem_append.mp hx with h | h
            · intro hEq
              subst hEq
              simp [indent4] at h
            · exact attrText_no_nl hknl x h)
          (by simp [indent4])]
        rw [removeRA_propline f t hwf]
        rw [elimRA_keep_bad hattr hcond]
        rw [renderField, hattr]
        simp [List.append_assoc]

lemma elimRA_fieldTail (f : FieldDecl) : fieldTail (elimRA f) = fieldTail f := by
  cases hattr : f.attr with
  | none => rw [elimRA_none hattr]
  | some lk =>
      obtain ⟨long, key⟩ := lk
      by_cases hc : ((!key.isEmpty) && key.all isWordChar && lowerEq key f.pname) = true
      · rw [elimRA_some_pos hattr hc]
        rfl
      · rw [elimRA_some_neg hattr hc]

lemma wfFieldDecl_drop_attr {f : FieldDecl} (h : wfFieldDecl f = true)
    (hna : noAttrOpen (fieldTail f) = true) :
    wfFieldDecl ⟨none, f.ptype, f.pname, f.init⟩ = true := by
  rw [wfFieldDecl] at h ⊢
  repeat rw [Bool.and_eq_true] at h ⊢
  refine ⟨⟨h.1.1, ?_⟩, h.2⟩
  show noAttrOpen (fieldTail ⟨none, f.ptype, f.pname, f.init⟩) = true
  have e : fieldTail (⟨none, f.ptype, f.pname, f.init⟩ : FieldDecl) = fieldTail f := rfl
  rw [e]
  exact hna

lemma elimRA_wf {f : FieldDecl} (h : wfFieldDecl f = true)
    (hna : noAttrOpen (fieldTail f) = true) : wfFieldDecl (elimRA f) = true := by
  cases hattr : f.attr with
  | none =>
      rw [elimRA_none hattr]
      exact h
  | some lk =>
      obtain ⟨long, key⟩ := lk
      by_cases hc : ((!key.isEmpty) && key.all isWordChar && lowerEq key f.pname) = true
      · rw [elimRA_some_pos hattr hc]
        exact wfFieldDecl_drop_attr h hna
      · rw [elimRA_some_neg hattr hc]
        exact h

lemma elimRA_idem (f : FieldDecl) : elimRA (elimRA f) = elimRA f := by
  cases hattr : f.attr with
  | none => rw [elimRA_none hattr, elimRA_none hattr]
  | some lk =>
      obtain ⟨long, key⟩ := lk
      by_cases hc : ((!key.isEmpty) && key.all isWordChar && lowerEq key f.pname) = true
      · rw [elimRA_some_pos hattr hc, elimRA_none rfl]
      · rw [elimRA_some_neg hattr hc, elimRA_some_neg hattr hc]

lemma map_elimRA_idem (fs : List FieldDecl) :
    (fs.map elimRA).map elimRA = fs.map elimRA := by
  induction fs with
  | nil => rfl
  | cons f fs' ih => rw [List.map_cons, List.map_cons, elimRA_idem, ih]

/-- One pass of the scan over a whole rendered class body (with the closing brace)
applies `elimRA` field by field. -/
lemma removeRA_body : ∀ (fs : List FieldDecl), (∀ f ∈ fs, wfFieldDecl f = true) →
    removeRAStart (classBody fs ++ '\n' :: '}' :: [])
      = classBody (fs.map elimRA) ++ '\n' :: '}' :: [] := by
  intro fs
  induction fs with
  | nil => intro _; decide
  | cons f fs' ih =>
      intro hwf
      have hf := hwf f (List.mem_cons_self f fs')
      have hfs' := fun g hg => hwf g (List.mem_cons.mpr (Or.inr hg))
      cases fs' with
      | nil =>
          have hcb : classBody [f] = renderField f := by simp [classBody, joinLines]
          have hcb' : classBody ([f].map elimRA) = renderField (elimRA f) := by
            simp [classBody, joinLines]
          rw [hcb, hcb', removeRA_field f _ hf]
          rw [show removeRAStart ('}' :: []) = '}' :: [] from by decide]
      | cons g gs =>
          have hcb : classBody (f :: g :: gs)
              = renderField f ++ ('\n' :: classBody (g :: gs)) := by
            rw [classBody, List.map_cons, List.map_cons, joinLines_two]
            rfl
          have hcb' : classBody ((f :: g :: gs).map elimRA)
              = renderField (elimRA f) ++ ('\n' :: classBody ((g :: gs).map elimRA)) := by
            rw [List.map_cons, classBody, List.map_cons, List.map_cons, List.map_cons,
              joinLines_two]
            rfl
          rw [hcb, hcb']
          rw [show (renderField f ++ ('\n' :: classBody (g :: gs))) ++ '\n' :: '}' :: []
            = renderField f ++ '\n' :: (classBody (g :: gs) ++ '\n' :: '}' :: []) from by
              simp [List.append_assoc]]
          rw [removeRA_field f _ hf, ih hfs']
          simp [List.append_assoc]

lemma matchRAAt_cons_ne {c : Char} (cs : List Char) (hb : isBlankChar c = false)
    (hc : c ≠ '[') : matchRAAt (c :: cs) = none := by
  apply matchRAAt_not_bracket
  rw [List.dropWhile_cons, if_neg (by simp [hb])]
  intro hh
  rw [List.head?_cons] at hh
  injection hh with hh'
  exact hc hh'

/-- One pass of `removeRedundantAttributes` over a rendered class declaration removes
exactly the redundant attribute lines: the result is the same declaration with
`elimRA` applied to every field. -/
lemma removeRA_renderClass (nm : List Char) (fs : List FieldDecl)
    (hnmc : ∀ c ∈ nm, isWordChar c = true)
    (hwf : ∀ f ∈ fs, wfFieldDecl f = true) :
    removeRedundantAttributesJS (renderClass nm fs) = renderClass nm (fs.map elimRA) := by
  have e : renderClass nm fs = ("public class ".data ++ nm)
      ++ '\n' :: ('{' :: '\n' :: (classBody fs ++ '\n' :: '}' :: [])) := by
    rw [renderClass]
  rw [removeRedundantAttributesJS, e]
  rw [removeRAStart_line ("public class ".data ++ nm) _
    (by
      rw [show ("public class ".data ++ nm)
          ++ '\n' :: ('{' :: '\n' :: (classBody fs ++ '\n' :: '}' :: []))
        = 'p' :: (("ublic class ".data ++ nm)
          ++ '\n' :: ('{' :: '\n' :: (classBody fs ++ '\n' :: '}' :: []))) from rfl]
      exact matchRAAt_cons_ne _ (by decide) (by decide))
    (by
      intro x hx
      rcases List.mem_append.mp hx with h | h
      · revert h
        have : ∀ x ∈ ("public class ".data : List Char), x ≠ '\n' := by decide
        exact this x
      · intro hEq
        subst hEq
        exact absurd (hnmc _ h) (by decide))
    (by simp [publicClassSpaceData])]
  rw [removeRAStart_none (matchRAAt_cons_ne _ (by decide) (by decide)) (by decide)]
  rw [removeRAMid_nl]
  rw [removeRA_body fs hwf]
  rw [renderClass]

/-- C7: redundant-attribute elimination (converter.ts 360-373, embedded faithfully at
the character level as `removeRedundantAttributesJS`) is idempotent on rendered class
declarations — each serialization attribute on its own line directly above its
single-line property: one pass removes exactly the attribute lines whose `\w+` key
matches the property name case-insensitively (`elimRA` field by field), and a second
pass leaves the result unchanged. It is NOT idempotent on arbitrary text
(`c7_counterexample`). -/
theorem c7_elimination_idempotent (nm : List Char) (fs : List FieldDecl)
    (hnmc : ∀ c ∈ nm, isWordChar c = true)
    (hwf : ∀ f ∈ fs, wfFieldDecl f = true ∧ noAttrOpen (fieldTail f) = true) :
    removeRedundantAttributesJS (renderClass nm fs) = renderClass nm (fs.map elimRA)
    ∧ removeRedundantAttributesJS (removeRedundantAttributesJS (renderClass nm fs))
      = removeRedundantAttributesJS (renderClass nm fs) := by
  have h1 := removeRA_renderClass nm fs hnmc (fun f hf => (hwf f hf).1)
  refine ⟨h1, ?_⟩
  rw [h1]
  have hwf' : ∀ g ∈ fs.map elimRA, wfFieldDecl g = true := by
    intro g hg
    obtain ⟨f, hf, hfg⟩ := List.mem_map.mp hg
    rw [← hfg]
    exact elimRA_wf (hwf f hf).1 (hwf f hf).2
  rw [removeRA_renderClass nm (fs.map elimRA) hnmc hwf']
  rw [map_elimRA_idem]

set_option maxRecDepth 12000 in
/-- Witness for C7 on a rendered three-field class: a redundant `name` attribute is
removed, a non-redundant `user_id` attribute is kept, and a second pass changes
nothing. -/
theorem c7_elimination_idempotent_witness :
    removeRedundantAttributesJS (renderClass "Root".data
        [⟨some (true, "name".data), "string".data, "Name".data, none⟩,
          ⟨some (true, "user_id".data), "long".data, "Id".data, none⟩,
          ⟨none, "int".data, "Count".data, none⟩])
      = renderClass "Root".data (List.map elimRA
          [⟨some (true, "name".data), "string".data, "Name".data, none⟩,
            ⟨some (true, "user_id".data), "long".data, "Id".data, none⟩,
            ⟨none, "int".data, "Count".data, none⟩])
    ∧ removeRedundantAttributesJS (removeRedundantAttributesJS (renderClass "Root".data
        [⟨some (true, "name".data), "string".data, "Name".data, none⟩,
          ⟨some (true, "user_id".data), "long".data, "Id".data, none⟩,
          ⟨none, "int".data, "Count".data, none⟩]))
      = removeRedundantAttributesJS (renderClass "Root".data
          [⟨some (true, "name".data), "string".data, "Name".data, none⟩,
            ⟨some (true, "user_id".data), "long".data, "Id".data, none⟩,
            ⟨none, "int".data, "Count".data, none⟩]) :=
  c7_elimination_idempotent "Root".data
    [⟨some (true, "name".data), "string".data, "Name".data, none⟩,
      ⟨some (true, "user_id".data), "long".data, "Id".data, none⟩,
      ⟨none, "int".data, "Count".data, none⟩]
    (by decide) (by decide)

set_option maxRecDepth 12000 in
/-- C7 counterexample: redundant-attribute elimination is not idempotent on arbitrary
text. First input: two identical stacked attribute lines above a matching property —
the first pass removes only the line adjacent to the property (the regex requires the
attribute line to be immediately followed by the property line), a second pass removes
the other. Second input: the regex's inner `\s` runs cross newlines, so an attribute
whose key matches a bare identifier three lines further down is removed in the first
pass, and a second attribute becomes removable only in the second pass. -/
theorem c7_counterexample :
    (removeRedundantAttributesJS (removeRedundantAttributesJS
        ("[JsonPropertyName(\"name\")]\n[JsonPropertyName(\"name\")]\n"
          ++ "public string Name \x7b get; set; \x7d").data)
      ≠ removeRedundantAttributesJS
        ("[JsonPropertyName(\"name\")]\n[JsonPropertyName(\"name\")]\n"
          ++ "public string Name \x7b get; set; \x7d").data)
    ∧ removeRedundantAttributesJS
        ("[JsonPropertyName(\"name\")]\n[JsonPropertyName(\"name\")]\n"
          ++ "public string Name \x7b get; set; \x7d").data
      = "[JsonPropertyName(\"name\")]\npublic string Name \x7b get; set; \x7d".data
    ∧ removeRedundantAttributesJS
        "[JsonPropertyName(\"public\")]\npublic\n[JsonProperty(\"y\")]\npublic \x7bx y \x7b".data
      = "public\n[JsonProperty(\"y\")]\npublic \x7bx y \x7b".data
    ∧ removeRedundantAttributesJS (removeRedundantAttributesJS
        "[JsonPropertyName(\"public\")]\npublic\n[JsonProperty(\"y\")]\npublic \x7bx y \x7b".data)
      ≠ removeRedundantAttributesJS
        "[JsonPropertyName(\"public\")]\npublic\n[JsonProperty(\"y\")]\npublic \x7bx y \x7b".data := by
  refine ⟨by decide, by decide, by decide, by decide⟩

end Json2CSharp
